import Mathlib

/-! # Mesh-Completion: hole filling on a corner table

A shallow embedding of `src/MeshCompletionApplication.cpp`:

* `calculateHoleBoundaries`   (boundary extraction: triangle BFS, then chain following),
* `calculateMinimumPatchMesh` (dynamic program over spans of the boundary, then backtrace),
* `calculateRefinedPatchMesh` (centroid splitting followed by edge relaxation).

Conventions.

* `CornerType` is a signed machine integer in the source (the code stores `-1` in it); it is
  embedded as `Int`.  No arithmetic in the modelled functions approaches the word size.
* `double` and `float` values are embedded in an arbitrary ordered carrier `R` (a linear order
  with addition for the weights, a linearly ordered field for the refinement); the results of
  the floating-point geometry (`acos`, `sin`, vector lengths) are parameters of the model, and
  so is the conversion `toFloat` applied wherever the source stores a `double` in a `float` or
  in an `osg::Vec3`.  The examples take `R` to be the rationals with the exact values of the
  `double` constants, on inputs whose converted values `float` represents exactly.
* Arrays that hold three entries per triangle or per vertex are embedded as lists of triples;
  an offset `iTriangle` of the source is three times a position in such a list.
* Classes whose code is not in the sources (`CornerTable`, `DihedralAngleWeight`) are modelled
  from the spec; the doc comments of those definitions say so.
* A failed `assert`, an out-of-range subscript and the use of an invalidated iterator are
  failures (`Failure.assertion`, `Failure.outOfRange`, `Failure.invalidIterator`); loops whose
  exit is not structurally guaranteed take a fuel argument and report `Failure.outOfFuel` when
  it is exhausted.
-/

namespace MeshCompletion

/-! ## Data model -/

/-- Hole boundaries and index arrays: `std::vector< CornerType >`.  Corner, triangle and vertex
handles (`CornerType` of `CornerTable.h`) are written `Int` throughout. -/
abbrev HoleBoundary := List Int

/-- Ways in which a run does not produce a value. -/
inductive Failure where
  | outOfFuel
  | assertion
  | outOfRange
  | invalidIterator
deriving DecidableEq, Repr

deriving instance DecidableEq for Except

/-- The integers `lo, lo + 1, ..., hi` of a loop `for( x = lo; x <= hi; x++ )`. -/
def intRange (lo hi : Int) : List Int :=
  (List.range (hi + 1 - lo).toNat).map (fun (d : Nat) => lo + Int.ofNat d)

/-- The subscript `array[ i ]` of a `std::vector`; out of range is a failure. -/
def getAt {α : Type} (array : List α) (i : Int) : Except Failure α :=
  if i < 0 then .error .outOfRange
  else
    match array[i.toNat]? with
    | some a => .ok a
    | none => .error .outOfRange

/-! ## calculateHoleBoundaries (lines 159-235) -/

/-- Modelled from the spec: the sentinel `CornerTable::BORDER_CORNER`, the opposite of a corner
that lies across a boundary edge; the class `CornerTable` is not part of the sources. -/
def BORDER_CORNER : Int := -1

/-- Modelled from the spec: the connectivity of the class `CornerTable`, which is not part of the
sources: the number of triangles, the opposite corner of a corner (or `BORDER_CORNER`) and the
vertex of a corner. -/
structure CornerTable where
  getNumTriangles : Nat
  cornerOpposite : Int → Int
  cornerToVertexIndex : Int → Int

/-- Modelled from the spec: the triangle `t` owns the corners `3t, 3t + 1, 3t + 2`. -/
def cornerTriangle (corner : Int) : Int := corner / 3

/-- Modelled from the spec: the next corner, cyclically within the owning triangle. -/
def cornerNext (corner : Int) : Int := 3 * (corner / 3) + (corner + 1) % 3

/-- Modelled from the spec: the previous corner, cyclically within the owning triangle. -/
def cornerPrevious (corner : Int) : Int := 3 * (corner / 3) + (corner + 2) % 3

/-- The map `boundaryEdges` (`std::map< CornerType, CornerType >`): the entries, in the order of
their keys. -/
abbrev EdgeMap := List (Int × Int)

/-- Whether the key is present: `boundaryEdges.count( key )`. -/
def EdgeMap.hasKey (m : EdgeMap) (key : Int) : Bool := m.any (fun p => p.1 == key)

/-- The assignment `boundaryEdges[ key ] = value`, keeping the entries ordered by key. -/
def EdgeMap.assign : EdgeMap → Int → Int → EdgeMap
  | [], key, value => [(key, value)]
  | p :: rest, key, value =>
    if key < p.1 then (key, value) :: p :: rest
    else if key = p.1 then (key, value) :: rest
    else p :: EdgeMap.assign rest key value

/-- The entry found by `boundaryEdges.find( key )`, `none` standing for `end()`. -/
def EdgeMap.lookup (m : EdgeMap) (key : Int) : Option (Int × Int) := m.find? (fun p => p.1 == key)

/-- The map after `boundaryEdges.erase( it )` for the iterator of the entry with this key. -/
def EdgeMap.eraseKey (m : EdgeMap) (key : Int) : EdgeMap := m.filter (fun p => p.1 != key)

/-- The local state of the traversal of `calculateHoleBoundaries`. -/
structure Traversal where
  boundaryEdges : EdgeMap
  visitedTriangles : List Bool
  bufferedTriangles : List Int
deriving DecidableEq, Repr

/-- The lambda `processCorner` (lines 172-191). -/
def processCorner (ct : CornerTable) (st : Traversal) (corner : Int) : Except Failure Traversal :=
  let oppositeCorner := ct.cornerOpposite corner
  if oppositeCorner = BORDER_CORNER then
    let origin := ct.cornerToVertexIndex (cornerNext corner)
    let destination := ct.cornerToVertexIndex (cornerPrevious corner)
    if st.boundaryEdges.hasKey origin then .error .assertion
    else .ok { st with boundaryEdges := st.boundaryEdges.assign origin destination }
  else
    .ok { st with bufferedTriangles := st.bufferedTriangles ++ [cornerTriangle oppositeCorner] }

/-- The loop `while( !bufferedTriangles.empty() )` (lines 194-207). -/
def bfs (ct : CornerTable) : Nat → Traversal → Except Failure Traversal
  | fuel, st =>
    match st.bufferedTriangles with
    | [] => .ok st
    | currentTriangle :: rest =>
      match fuel with
      | 0 => .error .outOfFuel
      | fuel + 1 =>
        let st := { st with bufferedTriangles := rest }
        if currentTriangle < 0 ∨ (st.visitedTriangles.length : Int) ≤ currentTriangle then
          .error .outOfRange
        else if st.visitedTriangles.getD currentTriangle.toNat false then
          bfs ct fuel st
        else do
          let st := { st with
            visitedTriangles := st.visitedTriangles.set currentTriangle.toNat true }
          let st ← processCorner ct st (3 * currentTriangle)
          let st ← processCorner ct st (3 * currentTriangle + 1)
          let st ← processCorner ct st (3 * currentTriangle + 2)
          bfs ct fuel st

/-- The first half of `calculateHoleBoundaries` (lines 161-210): the traversal and the assertion
that every triangle was visited; it yields the map `boundaryEdges`. -/
def traverse (ct : CornerTable) (fuel : Nat) : Except Failure EdgeMap := do
  let visitedTriangles := List.replicate ct.getNumTriangles false
  let currentCorner : Int := 0
  let currentTriangle := cornerTriangle currentCorner
  let st ← bfs ct fuel ⟨[], visitedTriangles, [currentTriangle]⟩
  if st.visitedTriangles.all id then .ok st.boundaryEdges else .error .assertion

/-- The inner loop `while( currentIt != boundaryEdges.end() )` (lines 220-227) followed by the
`erase` of line 229.  Iterators are the entries they point to.  When `currentIt` and `oldIt`
are the same entry, `erase( oldIt )` invalidates `currentIt`, which is used next. -/
def followChain : Nat → EdgeMap → Int × Int → Option (Int × Int) → HoleBoundary →
    Except Failure (EdgeMap × HoleBoundary)
  | _, m, oldIt, none, hole => .ok (m.eraseKey oldIt.1, hole)
  | 0, _, _, some _, _ => .error .outOfFuel
  | fuel + 1, m, oldIt, some currentIt, hole =>
    let hole := hole ++ [currentIt.1]
    let m := m.eraseKey oldIt.1
    if currentIt.1 = oldIt.1 then .error .invalidIterator
    else followChain fuel m currentIt (m.lookup currentIt.2) hole

/-- The loop `while( !boundaryEdges.empty() )` (lines 213-234), appending to `_boundaries`. -/
def connectivity : Nat → EdgeMap → List HoleBoundary → Except Failure (List HoleBoundary)
  | _, [], boundaries => .ok boundaries
  | 0, _ :: _, _ => .error .outOfFuel
  | fuel + 1, oldIt :: rest, boundaries => do
    let currentIt := EdgeMap.lookup (oldIt :: rest) oldIt.2
    let (m, hole) ← followChain fuel (oldIt :: rest) oldIt currentIt [oldIt.1]
    connectivity fuel m (boundaries ++ [hole.reverse])

/-- The function `calculateHoleBoundaries` (lines 159-235) as a function of the member
`_boundaries`. -/
def calculateHoleBoundaries (ct : CornerTable) (fuel : Nat) (boundaries : List HoleBoundary) :
    Except Failure (List HoleBoundary) := do
  let boundaryEdges ← traverse ct fuel
  connectivity fuel boundaryEdges boundaries

/-- The loop `while( !boundaryEdges.empty() )` (lines 213-234) once more, as the effect on the
member `_boundaries`: the list held when the loop stops, together with how it stops.  A loop is
appended by line 233 only; a run that stops at a failure leaves the loops appended so far. -/
def connectivityEffect : Nat → EdgeMap → List HoleBoundary →
    List HoleBoundary × Except Failure Unit
  | _, [], boundaries => (boundaries, .ok ())
  | 0, _ :: _, boundaries => (boundaries, .error .outOfFuel)
  | fuel + 1, oldIt :: rest, boundaries =>
    let currentIt := EdgeMap.lookup (oldIt :: rest) oldIt.2
    match followChain fuel (oldIt :: rest) oldIt currentIt [oldIt.1] with
    | .error e => (boundaries, .error e)
    | .ok (m, hole) => connectivityEffect fuel m (boundaries ++ [hole.reverse])

/-- The function `calculateHoleBoundaries` (lines 159-235) as the effect on the member
`_boundaries`: the list held when the call stops, also at a failure, and how the call stops.
The traversal and its two assertions (lines 161-210) do not touch the member. -/
def calculateHoleBoundariesEffect (ct : CornerTable) (fuel : Nat)
    (boundaries : List HoleBoundary) : List HoleBoundary × Except Failure Unit :=
  match traverse ct fuel with
  | .error e => (boundaries, .error e)
  | .ok boundaryEdges => connectivityEffect fuel boundaryEdges boundaries

/-! ## calculateMinimumPatchMesh (lines 287-465) -/

/-- Modelled from the spec: the header declaring `DihedralAngleWeight` is not part of the
sources; the spec describes it as a pair `(maxAngle, area)`. -/
structure DihedralAngleWeight (R : Type) where
  angle : R
  area : R
deriving DecidableEq, Repr

/-- Modelled from the spec: `operator+` of `DihedralAngleWeight` is component-wise addition. -/
def DihedralAngleWeight.add {R : Type} [Add R] (a b : DihedralAngleWeight R) :
    DihedralAngleWeight R :=
  ⟨a.angle + b.angle, a.area + b.area⟩

/-- Modelled from the spec: `operator<` of `DihedralAngleWeight` is the lexicographic order,
angle first, then area. -/
def DihedralAngleWeight.lt {R : Type} [LT R] (a b : DihedralAngleWeight R) : Prop :=
  a.angle < b.angle ∨ (a.angle = b.angle ∧ a.area < b.area)

instance DihedralAngleWeight.decLt {R : Type} [LinearOrder R] (a b : DihedralAngleWeight R) :
    Decidable (DihedralAngleWeight.lt a b) := by
  unfold DihedralAngleWeight.lt
  exact inferInstance

/-- Modelled from the spec: the default constructor `DihedralAngleWeight()` is `(0, 0)`. -/
def DihedralAngleWeight.zero {R : Type} [Zero R] : DihedralAngleWeight R := ⟨0, 0⟩

/-- The table `weightSet`:
`std::map< std::tuple< CornerType, CornerType >, std::tuple< CornerType, DihedralAngleWeight > >`.
`find key = none` means that the key is absent. -/
structure WeightSet (R : Type) where
  find : Int × Int → Option (Int × DihedralAngleWeight R)

/-- The empty table. -/
def WeightSet.empty {R : Type} : WeightSet R := ⟨fun _ => none⟩

/-- The assignment `weightSet[ key ] = value`. -/
def WeightSet.set {R : Type} (ws : WeightSet R) (key : Int × Int)
    (value : Int × DihedralAngleWeight R) : WeightSet R :=
  ⟨fun q => if q = key then some value else ws.find q⟩

/-- The read `weightSet[ key ]`.  On an absent key `operator[]` inserts the value-initialised
tuple `(0, DihedralAngleWeight())` and returns it; every later read of that key returns the same
tuple and every write goes through `set`, so reading with that default is observationally the
same. -/
def WeightSet.get {R : Type} [Zero R] (ws : WeightSet R) (key : Int × Int) :
    Int × DihedralAngleWeight R :=
  (ws.find key).getD (0, DihedralAngleWeight.zero)

/-- The floating-point side of `weightFunction`, abstracted.  `onBoundary vi vj vk` is the value
computed in the branch `vj == vi + 1 && vk == vj + 1` (it fails when the assertion on
`findCommonTriangle` fails); `interior vi vj vk vij vjk` is the value computed in the other
branch from the two apexes `vij`, `vjk` read from the table.  `M_PI` and `DBL_MAX` are the two
constants of the initial bound of the minimisation. -/
structure CostModel (R : Type) where
  onBoundary : Int → Int → Int → Except Failure (DihedralAngleWeight R)
  interior : Int → Int → Int → Int → Int →
    Except Failure (DihedralAngleWeight R)
  M_PI : R
  DBL_MAX : R

/-- The lambda `weightFunction` (lines 293-394): which branch is taken and which table entries
are read. -/
def weightFunction {R : Type} [Zero R] (cost : CostModel R) (weightSet : WeightSet R)
    (vi vj vk : Int) : Except Failure (DihedralAngleWeight R) :=
  if vj = vi + 1 ∧ vk = vj + 1 then
    cost.onBoundary vi vj vk
  else
    let vij := (weightSet.get (vi, vj)).1
    let vjk := (weightSet.get (vj, vk)).1
    cost.interior vi vj vk vij vjk

/-- First base loop (lines 396-399): `weightSet[(i, i+1)] = (-1, DihedralAngleWeight())`. -/
def baseEdges {R : Type} [Zero R] (n : Int) (weightSet : WeightSet R) : WeightSet R :=
  (intRange 0 (n - 2)).foldl
    (fun ws i => ws.set (i, i + 1) (-1, DihedralAngleWeight.zero)) weightSet

/-- Second base loop (lines 401-404):
`weightSet[(i, i+2)] = (i + 1, weightFunction(i, i+1, i+2))`. -/
def baseTriangles {R : Type} [Zero R] (cost : CostModel R) (n : Int)
    (weightSet : WeightSet R) : Except Failure (WeightSet R) :=
  (intRange 0 (n - 3)).foldlM
    (fun ws i => do
      let w ← weightFunction cost ws i (i + 1) (i + 2)
      pure (ws.set (i, i + 2) (i + 1, w))) weightSet

/-- One iteration of the innermost loop (lines 420-429) on the pair `(minIndex, minWeight)`. -/
def apexStep {R : Type} [LinearOrder R] [Add R] [Zero R] (cost : CostModel R)
    (weightSet : WeightSet R) (i k : Int) (acc : Int × DihedralAngleWeight R)
    (m : Int) : Except Failure (Int × DihedralAngleWeight R) := do
  let wim := (weightSet.get (i, m)).2
  let wmk := (weightSet.get (m, k)).2
  let f ← weightFunction cost weightSet i m k
  let total := (wim.add wmk).add f
  if total.lt acc.2 then pure (m, total) else pure acc

/-- The innermost loop (lines 415-430): `m` from `i + 1` to `k - 1`, starting from
`minIndex = -1`, `minWeight = (M_PI, DBL_MAX)`. -/
def apexLoop {R : Type} [LinearOrder R] [Add R] [Zero R] (cost : CostModel R)
    (weightSet : WeightSet R) (i k : Int) :
    Except Failure (Int × DihedralAngleWeight R) :=
  (intRange (i + 1) (k - 1)).foldlM (apexStep cost weightSet i k)
    (-1, ⟨cost.M_PI, cost.DBL_MAX⟩)

/-- The loop over `i` for one width `j` (lines 412-433). -/
def spanLoop {R : Type} [LinearOrder R] [Add R] [Zero R] (cost : CostModel R) (n j : Int)
    (weightSet : WeightSet R) : Except Failure (WeightSet R) :=
  (intRange 0 (n - j - 1)).foldlM
    (fun ws i => do
      let k := i + j
      let best ← apexLoop cost ws i k
      pure (ws.set (i, k) best)) weightSet

/-- The widths visited by `j = 2; while( j < n - 1 ) { j++; ... }`: 3, 4, ..., n - 1. -/
def widths (n : Int) : List Int := intRange 3 (n - 1)

/-- The main loop (lines 406-434). -/
def widthLoop {R : Type} [LinearOrder R] [Add R] [Zero R] (cost : CostModel R) (n : Int)
    (weightSet : WeightSet R) : Except Failure (WeightSet R) :=
  (widths n).foldlM (fun ws j => spanLoop cost n j ws) weightSet

/-- The table after the base loops and the main loop. -/
def weightTable {R : Type} [LinearOrder R] [Add R] [Zero R] (cost : CostModel R)
    (n : Int) : Except Failure (WeightSet R) := do
  let ws ← baseTriangles cost n (baseEdges n WeightSet.empty)
  widthLoop cost n ws

/-- The recursive lambda `trace` (lines 438-460), appending to `indexes`.  The recursion of the
source is not bounded by anything but the call stack; `fuel` bounds its depth. -/
def trace {R : Type} [Zero R] (weightSet : WeightSet R) :
    Nat → Int → Int → List Int → Except Failure (List Int)
  | 0, _, _, _ => .error .outOfFuel
  | fuel + 1, i, k, indexes =>
    if i + 2 = k then
      .ok (indexes ++ [i, i + 1, k])
    else
      let o := (weightSet.get (i, k)).1
      do
        let indexes ← if o ≠ i + 1 then trace weightSet fuel i o indexes else pure indexes
        let indexes := indexes ++ [i, o, k]
        if o ≠ k - 1 then trace weightSet fuel o k indexes else pure indexes

/-- The function `calculateMinimumPatchMesh` (lines 287-465). -/
def calculateMinimumPatchMesh {R : Type} [LinearOrder R] [Add R] [Zero R] (cost : CostModel R)
    (fuel : Nat) (boundary : HoleBoundary) : Except Failure HoleBoundary := do
  let n : Int := (boundary.length : Int)
  let ws ← weightTable cost n
  trace ws fuel 0 (n - 1) []

/-- The iterations `i = 0 .. c - 1` of the loop over `i` for one width `j` (lines 412-433):
the table at the head of iteration `c`. -/
def spanLoopBefore {R : Type} [LinearOrder R] [Add R] [Zero R] (cost : CostModel R) (j c : Int)
    (weightSet : WeightSet R) : Except Failure (WeightSet R) :=
  (intRange 0 (c - 1)).foldlM
    (fun ws i => do
      let k := i + j
      let best ← apexLoop cost ws i k
      pure (ws.set (i, k) best)) weightSet

/-- The iterations of the main loop (lines 406-434) for the widths `3 .. j - 1`: the table at the
head of the iteration for the width `j`. -/
def widthLoopBefore {R : Type} [LinearOrder R] [Add R] [Zero R] (cost : CostModel R) (n j : Int)
    (weightSet : WeightSet R) : Except Failure (WeightSet R) :=
  (intRange 3 (j - 1)).foldlM (fun ws j1 => spanLoop cost n j1 ws) weightSet

/-! ## calculateRefinedPatchMesh (lines 467-672) -/

/-- Positions: `osg::Vec3`. -/
abbrev Vec3 (R : Type) := R × R × R

/-- Modelled from the spec: the arrays of a patch `CornerTable` (the class is not part of the
sources): `getAttributes()`, three coordinates per vertex, as a list of positions, and
`getTriangleList()`, three indices per triangle, as a list of triples.  The offset `iTriangle`
of the source is three times the position of a triangle in the list. -/
structure PatchMesh (R : Type) where
  vertices : List (Vec3 R)
  triangles : List (Int × Int × Int)

/-- The floating-point operations used by the refinement: `osg::Vec3::length()`, the constant
`M_SQRT2`, and `toFloat`, the conversion of a `double` to `float` that takes place where the
source stores a `double` in a `float` or in an `osg::Vec3`.  The difference `centroid - v` of two
`osg::Vec3` is rounded as a function of the exact difference, so `length` stands for
`( centroid - v ).length()` as a function of the exact difference. -/
structure FloatOps (R : Type) where
  length : Vec3 R → R
  M_SQRT2 : R
  toFloat : R → R

/-- Modelled from the spec: the mutable corner table built for the relaxation (the class
`CornerTable` is not part of the sources).  `build` is the constructor from an index array and
a vertex array, which stores the triangle count it is given; `edgeFlip` replaces the diagonal of
two triangles by the other diagonal of their quadrilateral and so keeps the number of triangles;
the triangle list has one entry per triangle. -/
structure RelaxationOps (R : Type) where
  Table : Type
  build : List (Int × Int × Int) → List (Vec3 R) → Table
  getNumTriangles : Table → Nat
  getTriangleList : Table → List (Int × Int × Int)
  vertexToCornerIndex : Table → Int → Int
  getCornerNeighbours : Table → Int → List Int
  edgeFlip : Table → Int → Table
  getNumTriangles_build : ∀ indexArray vertexArray,
    getNumTriangles (build indexArray vertexArray) = indexArray.length
  getNumTriangles_edgeFlip : ∀ table corner,
    getNumTriangles (edgeFlip table corner) = getNumTriangles table
  length_getTriangleList : ∀ table, (getTriangleList table).length = getNumTriangles table

/-- The difference of two positions. -/
def Vec3.sub {R : Type} [Sub R] (a b : Vec3 R) : Vec3 R := (a.1 - b.1, a.2.1 - b.2.1, a.2.2 - b.2.2)

/-- The constructor of an `osg::Vec3` from three `double` values (lines 552-562): every
coordinate is converted to `float`. -/
def Vec3.toFloat {R : Type} (env : FloatOps R) (v : Vec3 R) : Vec3 R :=
  (env.toFloat v.1, env.toFloat v.2.1, env.toFloat v.2.2)

/-- The function `calculateCentroid` (lines 467-485) on the three positions read as
`osg::Vec3d`: `(v1 + v2 + v3) / 3`, returned as an `osg::Vec3`, that is converted to `float`. -/
def calculateCentroid {R : Type} [LinearOrderedField R] (env : FloatOps R) (v1 v2 v3 : Vec3 R) :
    Vec3 R :=
  Vec3.toFloat env
    ((v1.1 + v2.1 + v3.1) / 3, (v1.2.1 + v2.2.1 + v3.2.1) / 3, (v1.2.2 + v2.2.2 + v3.2.2) / 3)

/-- The local variables of `calculateRefinedPatchMesh`. -/
structure Refinement (R : Type) where
  scaleAttributes : List R
  newVertexArray : List (Vec3 R)
  newIndexArray : List (Int × Int × Int)
  boundaryIndexArray : List (Int × Int × Int)
  verticesToFlip : List Int
  hadCreatedTriangles : Bool
  hasDoneSwaps : Bool

/-- The value `float centroidScaleAttribute` (lines 565-566): the mean of the three entries of
`scaleAttributes` at the offsets `iTriangle`, `iTriangle + 1`, `iTriangle + 2`, stored in a
`float`. -/
def centroidScaleAttribute {R : Type} [LinearOrderedField R] (env : FloatOps R)
    (scaleAttributes : List R) (iTriangle : Int) : Except Failure R := do
  let s0 ← getAt scaleAttributes iTriangle
  let s1 ← getAt scaleAttributes (iTriangle + 1)
  let s2 ← getAt scaleAttributes (iTriangle + 2)
  pure (env.toFloat ((s0 + s1 + s2) / 3))

/-- The condition of lines 568-570, evaluated from left to right with the short circuit of
`&&`: `densityControl * (centroid - v).length()` exceeds both the triangle scale and the scale
of `v`, for each of the three vertices. -/
def splitCondition {R : Type} [LinearOrderedField R] (env : FloatOps R) (scaleAttributes : List R)
    (centroid v1 v2 v3 : Vec3 R) (centroidScale : R) (vi vj vk : Int) : Except Failure Bool :=
  let d1 := env.M_SQRT2 * env.length (centroid.sub v1)
  let d2 := env.M_SQRT2 * env.length (centroid.sub v2)
  let d3 := env.M_SQRT2 * env.length (centroid.sub v3)
  if ¬ (d1 > centroidScale) then .ok false
  else do
    let si ← getAt scaleAttributes vi
    if ¬ (d1 > si) then .ok false
    else if ¬ (d2 > centroidScale) then .ok false
    else do
      let sj ← getAt scaleAttributes vj
      if ¬ (d2 > sj) then .ok false
      else if ¬ (d3 > centroidScale) then .ok false
      else do
        let sk ← getAt scaleAttributes vk
        if ¬ (d3 > sk) then .ok false else .ok true

/-- The reads and the test at the head of one iteration of the loop over the triangles
(lines 548-570), for the triangle at position `index` of `boundaryIndexArray`: the positions
are read from `patchMesh`, as `osg::Vec3` for `v1`, `v2`, `v3` and as `osg::Vec3d` inside
`calculateCentroid`, the triangle scale at the offsets `iTriangle ..`; the result is the
centroid and whether the triangle is to be split. -/
def splitTest {R : Type} [LinearOrderedField R] (env : FloatOps R) (patchMesh : PatchMesh R)
    (scaleAttributes : List R) (index : Nat) (triangle : Int × Int × Int) :
    Except Failure (Vec3 R × Bool) := do
  let iTriangle : Int := 3 * (index : Int)
  let vi := triangle.1
  let vj := triangle.2.1
  let vk := triangle.2.2
  let a1 ← getAt patchMesh.vertices vi
  let a2 ← getAt patchMesh.vertices vj
  let a3 ← getAt patchMesh.vertices vk
  let v1 := Vec3.toFloat env a1
  let v2 := Vec3.toFloat env a2
  let v3 := Vec3.toFloat env a3
  let centroid := calculateCentroid env a1 a2 a3
  let centroidScale ← centroidScaleAttribute env scaleAttributes iTriangle
  let split ← splitCondition env scaleAttributes centroid v1 v2 v3 centroidScale vi vj vk
  pure (centroid, split)

/-- One iteration of the loop over the triangles (lines 546-591). -/
def splitStep {R : Type} [LinearOrderedField R] (env : FloatOps R) (patchMesh : PatchMesh R)
    (st : Refinement R) (entry : Nat × (Int × Int × Int)) : Except Failure (Refinement R) := do
  let vi := entry.2.1
  let vj := entry.2.2.1
  let vk := entry.2.2.2
  let test ← splitTest env patchMesh st.scaleAttributes entry.1 entry.2
  if test.2 then
    let newVertexArray := st.newVertexArray ++ [test.1]
    let c : Int := (newVertexArray.length : Int) - 1
    let si ← getAt st.scaleAttributes vi
    let sj ← getAt st.scaleAttributes vj
    let sk ← getAt st.scaleAttributes vk
    pure { st with
      hadCreatedTriangles := true
      newVertexArray := newVertexArray
      newIndexArray := st.newIndexArray ++ [(c, vj, vk), (vi, c, vk), (vi, vj, c)]
      verticesToFlip := st.verticesToFlip ++ [c]
      scaleAttributes := st.scaleAttributes ++ [(si + sj + sk) / 3] }
  else
    pure { st with newIndexArray := st.newIndexArray ++ [(vi, vj, vk)] }

/-- The loop over the triangles of `boundaryIndexArray` (lines 546-591). -/
def splitPass {R : Type} [LinearOrderedField R] (env : FloatOps R) (patchMesh : PatchMesh R)
    (st : Refinement R) : Except Failure (Refinement R) :=
  st.boundaryIndexArray.enum.foldlM (splitStep env patchMesh) st

/-- The relaxation around the inserted vertices (lines 596-613): the triangle list after an
`edgeFlip` on every corner around every vertex of `verticesToFlip`. -/
def relaxInserted {R : Type} (ops : RelaxationOps R) (vertexArray : List (Vec3 R))
    (indexArray : List (Int × Int × Int)) (verticesToFlip : List Int) :
    List (Int × Int × Int) :=
  let relaxationTable := verticesToFlip.foldl
    (fun table vertex =>
      (ops.getCornerNeighbours table (ops.vertexToCornerIndex table vertex)).foldl
        ops.edgeFlip table)
    (ops.build indexArray vertexArray)
  ops.getTriangleList relaxationTable

/-- The function `relaxAllEdges` (lines 487-510): the new index array and the flag
`hasRelaxed`. -/
def relaxAllEdges {R : Type} (ops : RelaxationOps R) (vertexArray : List (Vec3 R))
    (indexArray : List (Int × Int × Int)) : List (Int × Int × Int) × Bool :=
  let relaxationTable := ops.build indexArray vertexArray
  let nCorners := ops.getNumTriangles relaxationTable * 3
  let swept := (List.range nCorners).foldl
    (fun (acc : ops.Table × Bool) (iCorner : Nat) =>
      (ops.edgeFlip acc.1 (Int.ofNat iCorner), true))
    (relaxationTable, false)
  (ops.getTriangleList swept.1, swept.2)

/-- The loop `do { hasDoneSwaps = relaxAllEdges( ... ); } while( hasDoneSwaps );`
(lines 662-666). -/
def relaxLoop {R : Type} (ops : RelaxationOps R) (vertexArray : List (Vec3 R)) :
    Nat → List (Int × Int × Int) → Except Failure (List (Int × Int × Int) × Bool)
  | 0, _ => .error .outOfFuel
  | fuel + 1, indexArray =>
    let swept := relaxAllEdges ops vertexArray indexArray
    if swept.2 then relaxLoop ops vertexArray fuel swept.1 else .ok swept

/-- The loop `while( !hasDoneSwaps )` (lines 542-667). -/
def refineLoop {R : Type} [LinearOrderedField R] (env : FloatOps R) (ops : RelaxationOps R)
    (patchMesh : PatchMesh R) : Nat → Refinement R → Except Failure (Refinement R)
  | 0, _ => .error .outOfFuel
  | fuel + 1, st =>
    if st.hasDoneSwaps then .ok st
    else do
      let st ← splitPass env patchMesh { st with verticesToFlip := [] }
      if !st.hadCreatedTriangles then .ok st
      else
        let newIndexArray :=
          relaxInserted ops st.newVertexArray st.newIndexArray st.verticesToFlip
        let swept ← relaxLoop ops st.newVertexArray fuel newIndexArray
        refineLoop env ops patchMesh fuel
          { st with
            boundaryIndexArray := newIndexArray
            newIndexArray := swept.1
            hasDoneSwaps := swept.2 }

/-- The function `calculateRefinedPatchMesh` (lines 512-672).  `averageEdgeLength` is
`_cornerTable->getVertexAverageEdgeLength`. -/
def calculateRefinedPatchMesh {R : Type} [LinearOrderedField R] (env : FloatOps R)
    (ops : RelaxationOps R) (averageEdgeLength : Int → R) (fuel : Nat)
    (patchMesh : PatchMesh R) (boundary : HoleBoundary) : Except Failure (PatchMesh R) := do
  let st ← refineLoop env ops patchMesh fuel
    { scaleAttributes := boundary.map averageEdgeLength
      newVertexArray := patchMesh.vertices
      newIndexArray := []
      boundaryIndexArray := patchMesh.triangles
      verticesToFlip := []
      hadCreatedTriangles := false
      hasDoneSwaps := false }
  pure ⟨st.newVertexArray, st.newIndexArray⟩

/-! ## weightFunction on a source mesh (lines 237-285 and 293-394) -/

/-- Modelled from the spec: what the weighting reads of the source mesh `_cornerTable` (the class
`CornerTable` is not part of the sources): `getAttributes()`, three coordinates per vertex, as a
list of positions; `cornerToVertexIndex`; `vertexToCornerIndex`, one corner at the vertex;
`getCornerNeighbours`, the corners that share the vertex of a corner. -/
structure SourceMesh (R : Type) where
  getAttributes : List (Vec3 R)
  cornerToVertexIndex : Int → Int
  vertexToCornerIndex : Int → Int
  getCornerNeighbours : Int → List Int

/-- The floating-point operations used by the weighting: `osg::Vec3d::length()`, `sin`,
`std::acos`, and the constants `M_PI` and `DBL_MAX`. -/
structure WeightOps (R : Type) where
  length : Vec3 R → R
  sin : R → R
  acos : R → R
  M_PI : R
  DBL_MAX : R

/-- The cross product `a ^ b` of `osg::Vec3d`. -/
def Vec3.cross {R : Type} [LinearOrderedField R] (a b : Vec3 R) : Vec3 R :=
  (a.2.1 * b.2.2 - a.2.2 * b.2.1, a.2.2 * b.1 - a.1 * b.2.2, a.1 * b.2.1 - a.2.1 * b.1)

/-- The dot product `a * b` of `osg::Vec3d`. -/
def Vec3.dot {R : Type} [LinearOrderedField R] (a b : Vec3 R) : R :=
  a.1 * b.1 + a.2.1 * b.2.1 + a.2.2 * b.2.2

/-- The function `calculateDihedralAngle` (lines 237-285).  Its six arguments are used as
vertex indices: the position of `v` is read at `getAttributes()[ 3 * v .. 3 * v + 2 ]`. -/
def calculateDihedralAngle {R : Type} [LinearOrderedField R] (env : WeightOps R)
    (mesh : SourceMesh R) (vi vj vk vl vm vn : Int) : Except Failure R := do
  let v1 ← getAt mesh.getAttributes vi
  let v2 ← getAt mesh.getAttributes vj
  let v3 ← getAt mesh.getAttributes vk
  let e1 := v2.sub v1
  let e2 := v3.sub v1
  let normal1 := e1.cross e2
  let v4 ← getAt mesh.getAttributes vl
  let v5 ← getAt mesh.getAttributes vm
  let v6 ← getAt mesh.getAttributes vn
  let e3 := v5.sub v4
  let e4 := v6.sub v4
  let normal2 := e3.cross e4
  let cross := normal1.dot normal2
  pure (env.acos cross)

/-- The lambda `findCommonTriangle` (lines 317-332): the triangle of the first pair `(c1, c2)`,
`c1` from `n1` in the outer loop and `c2` from `n2` in the inner loop, whose corners lie in the
same triangle, or `BORDER_CORNER`. -/
def findCommonTriangle (n1 n2 : List Int) : Int :=
  match (n1.flatMap (fun c1 => n2.map (fun c2 => (c1, c2)))).find?
      (fun p => cornerTriangle p.1 == cornerTriangle p.2) with
  | some p => cornerTriangle p.1
  | none => BORDER_CORNER

/-- The floating-point side of the lambda `weightFunction` as the source computes it for a
boundary on a source mesh (lines 295-393).  `onBoundary` is the branch of lines 334-363,
`interior` the branch of lines 364-391 with the two apexes read in lines 366-367.
The order in which the arguments of one call are evaluated is not fixed by the language; every
failure among them is an out-of-range read, so the order does not show in the result. -/
def meshCost {R : Type} [LinearOrderedField R] (env : WeightOps R) (mesh : SourceMesh R)
    (boundary : HoleBoundary) : CostModel R where
  onBoundary := fun vi vj vk => do
    let bi ← getAt boundary vi
    let v1 ← getAt mesh.getAttributes bi
    let bj ← getAt boundary vj
    let v2 ← getAt mesh.getAttributes bj
    let bk ← getAt boundary vk
    let v3 ← getAt mesh.getAttributes bk
    let a := env.length (v2.sub v1)
    let b := env.length (v2.sub v3)
    let c := env.length (v3.sub v1)
    let area := 1 / 2 * a * b * env.sin c
    let c1 := mesh.vertexToCornerIndex bi
    let c2 := mesh.vertexToCornerIndex bj
    let c3 := mesh.vertexToCornerIndex bk
    let c1Neighbours := mesh.getCornerNeighbours c1
    let c2Neighbours := mesh.getCornerNeighbours c2
    let c3Neighbours := mesh.getCornerNeighbours c3
    let t1 := findCommonTriangle c1Neighbours c2Neighbours
    let t2 := findCommonTriangle c2Neighbours c3Neighbours
    if t1 ≠ BORDER_CORNER ∧ t2 ≠ BORDER_CORNER then
      let d1 ← calculateDihedralAngle env mesh bi bj bk (3 * t1) (3 * t1 + 1) (3 * t1 + 2)
      let d2 ← calculateDihedralAngle env mesh bi bj bk (3 * t2) (3 * t2 + 1) (3 * t2 + 2)
      pure ⟨max d1 d2, area⟩
    else .error .assertion
  interior := fun vi vj vk vij vjk => do
    let bi ← getAt boundary vi
    let v1 ← getAt mesh.getAttributes bi
    let bj ← getAt boundary vj
    let v2 ← getAt mesh.getAttributes bj
    let bk ← getAt boundary vk
    let v3 ← getAt mesh.getAttributes bk
    let a := env.length (v2.sub v1)
    let b := env.length (v2.sub v3)
    let c := env.length (v3.sub v1)
    let area := 1 / 2 * a * b * env.sin c
    let bij ← getAt boundary vij
    let d1 ← calculateDihedralAngle env mesh bi bj bk bi bij bj
    let bjk ← getAt boundary vjk
    let d2 ← calculateDihedralAngle env mesh bi bj bk bj bjk bk
    let angle := max d1 d2
    let n : Int := (boundary.length : Int)
    if vi = 0 ∧ vk = n - 1 then
      let b0 ← getAt boundary 0
      let bn ← getAt boundary (n - 1)
      let c1 := mesh.vertexToCornerIndex b0
      let c2 := mesh.vertexToCornerIndex bn
      let t := findCommonTriangle (mesh.getCornerNeighbours c1) (mesh.getCornerNeighbours c2)
      let d3 ← calculateDihedralAngle env mesh bi bj bk (3 * t) (3 * t + 1) (3 * t + 2)
      pure ⟨max angle d3, area⟩
    else pure ⟨angle, area⟩
  M_PI := env.M_PI
  DBL_MAX := env.DBL_MAX

/-! ## Vocabulary of the statements: boundary extraction -/

/-- The keys of the map: the origin vertices of the recorded boundary edges. -/
def EdgeMap.keys (m : EdgeMap) : List Int := m.map Prod.fst

/-- The boundary edge recorded at a corner whose opposite is `BORDER_CORNER`:
`vertex(next corner) -> vertex(previous corner)`. -/
def edgeAt (ct : CornerTable) (corner : Int) : Int × Int :=
  (ct.cornerToVertexIndex (cornerNext corner), ct.cornerToVertexIndex (cornerPrevious corner))

/-- The corners of the table whose opposite is `BORDER_CORNER`. -/
def borderCorners (ct : CornerTable) : List Int :=
  (intRange 0 (3 * (ct.getNumTriangles : Int) - 1)).filter
    (fun c => decide (ct.cornerOpposite c = BORDER_CORNER))

/-- The boundary-edge mapping of the mesh: the edges at all corners whose opposite is
`BORDER_CORNER`. -/
def borderEdges (ct : CornerTable) : List (Int × Int) := (borderCorners ct).map (edgeAt ct)

/-- The triangles reachable from the triangle of corner 0 by opposite-corner links. -/
inductive Reachable (ct : CornerTable) : Int → Prop where
  | start : Reachable ct (cornerTriangle 0)
  | step (t s : Int) : Reachable ct t → 0 ≤ s → s < 3 →
      ct.cornerOpposite (3 * t + s) ≠ BORDER_CORNER →
      Reachable ct (cornerTriangle (ct.cornerOpposite (3 * t + s)))

/-- The flag `visitedTriangles[ t ]` is set. -/
def visitedAt (visited : List Bool) (t : Int) : Prop := visited.getD t.toNat false = true

/-- The corner has been handed to `processCorner`: its triangle is marked, and when that triangle
is the one being processed, `t`, the corner is one of its first `s` corners. -/
def processed (visited : List Bool) (t s corner : Int) : Prop :=
  visitedAt visited (corner / 3) ∧ (corner / 3 = t → corner % 3 < s)

/-- The invariant of the traversal, while the first `s` corners of the triangle `t` have been
processed (`s = 3` between two iterations of the loop). -/
structure BfsInv (ct : CornerTable) (st : Traversal) (t s : Int) : Prop where
  len : st.visitedTriangles.length = ct.getNumTriangles
  queue : ∀ x ∈ st.bufferedTriangles, 0 ≤ x ∧ x < (ct.getNumTriangles : Int)
  closed : ∀ c, 0 ≤ c → c < 3 * (ct.getNumTriangles : Int) →
    processed st.visitedTriangles t s c → ct.cornerOpposite c ≠ BORDER_CORNER →
    visitedAt st.visitedTriangles (cornerTriangle (ct.cornerOpposite c)) ∨
      cornerTriangle (ct.cornerOpposite c) ∈ st.bufferedTriangles
  start : visitedAt st.visitedTriangles 0 ∨ (0 : Int) ∈ st.bufferedTriangles
  edges : ∀ p, p ∈ st.boundaryEdges ↔ ∃ c, 0 ≤ c ∧ c < 3 * (ct.getNumTriangles : Int) ∧
    processed st.visitedTriangles t s c ∧ ct.cornerOpposite c = BORDER_CORNER ∧ edgeAt ct c = p
  nodup : st.boundaryEdges.keys.Nodup

/-- The corner table is fit for the traversal: it has a triangle, opposite corners are corners of
the table or `BORDER_CORNER`, no two boundary edges leave the same vertex, and every triangle is
reachable from the triangle of corner 0. -/
structure Traversable (ct : CornerTable) : Prop where
  nonempty : 1 ≤ ct.getNumTriangles
  opposite : ∀ c, 0 ≤ c → c < 3 * (ct.getNumTriangles : Int) →
    ct.cornerOpposite c = BORDER_CORNER ∨
      (0 ≤ ct.cornerOpposite c ∧ ct.cornerOpposite c < 3 * (ct.getNumTriangles : Int))
  origins : ∀ c1 c2, 0 ≤ c1 → c1 < 3 * (ct.getNumTriangles : Int) → 0 ≤ c2 →
    c2 < 3 * (ct.getNumTriangles : Int) → ct.cornerOpposite c1 = BORDER_CORNER →
    ct.cornerOpposite c2 = BORDER_CORNER → (edgeAt ct c1).1 = (edgeAt ct c2).1 → c1 = c2
  reach : ∀ t, 0 ≤ t → t < (ct.getNumTriangles : Int) → Reachable ct t

/-- The edges of a chain: each vertex to the one listed after it, the last one to `z`. -/
def chainEdges : List Int → Int → List (Int × Int)
  | [], _ => []
  | [x], z => [(x, z)]
  | x :: y :: rest, z => (x, y) :: chainEdges (y :: rest) z

/-- The edges of the cycle that a list of vertices describes: each vertex to the one listed after
it, the last one to the first.  These are also the cyclically consecutive pairs of the list. -/
def cycleEdges : List Int → List (Int × Int)
  | [] => []
  | x :: rest => chainEdges (x :: rest) x

/-- The opposite of every corner of the table is a corner of the table or `BORDER_CORNER`, as the
interface `cornerOpposite(corner) -> corner | BORDER` of the corner table has it. -/
def WellLinked (ct : CornerTable) : Prop :=
  ∀ c, 0 ≤ c → c < 3 * (ct.getNumTriangles : Int) →
    ct.cornerOpposite c = BORDER_CORNER ∨
      (0 ≤ ct.cornerOpposite c ∧ ct.cornerOpposite c < 3 * (ct.getNumTriangles : Int))

/-- Some triangle of the table is not reachable from the triangle of corner 0 by opposite-corner
links. -/
def Disconnected (ct : CornerTable) : Prop :=
  ∃ t, 0 ≤ t ∧ t < (ct.getNumTriangles : Int) ∧ ¬ Reachable ct t

/-- Two different boundary corners of triangles that the traversal meets (triangles reachable
from the triangle of corner 0) record a boundary edge with the same origin vertex. -/
def OriginClash (ct : CornerTable) : Prop :=
  ∃ c1 c2, c1 ≠ c2 ∧ 0 ≤ c1 ∧ c1 < 3 * (ct.getNumTriangles : Int) ∧ 0 ≤ c2 ∧
    c2 < 3 * (ct.getNumTriangles : Int) ∧ Reachable ct (c1 / 3) ∧ Reachable ct (c2 / 3) ∧
    ct.cornerOpposite c1 = BORDER_CORNER ∧ ct.cornerOpposite c2 = BORDER_CORNER ∧
    (edgeAt ct c1).1 = (edgeAt ct c2).1

/-- What the traversal has met, while the first `s` corners of the triangle `t` have been
processed: the buffered and the visited triangles are reachable from the triangle of corner 0,
and the boundary corners processed record pairwise different origins. -/
structure BfsSound (ct : CornerTable) (st : Traversal) (t s : Int) : Prop where
  queue : ∀ x ∈ st.bufferedTriangles, Reachable ct x
  visited : ∀ x, 0 ≤ x → visitedAt st.visitedTriangles x → Reachable ct x
  distinct : ∀ c1 c2, 0 ≤ c1 → c1 < 3 * (ct.getNumTriangles : Int) → 0 ≤ c2 →
    c2 < 3 * (ct.getNumTriangles : Int) → processed st.visitedTriangles t s c1 →
    processed st.visitedTriangles t s c2 → ct.cornerOpposite c1 = BORDER_CORNER →
    ct.cornerOpposite c2 = BORDER_CORNER → (edgeAt ct c1).1 = (edgeAt ct c2).1 → c1 = c2

/-! ## Vocabulary of the statements: triangulation -/

/-- The triangles of an index array: three consecutive entries each. -/
def triangles : List Int → List (Int × Int × Int)
  | a :: b :: c :: rest => (a, b, c) :: triangles rest
  | _ => []

/-- The three sides of a triangle, each written from the vertex listed first. -/
def triangleEdges (t : Int × Int × Int) : List (Int × Int) :=
  [(t.1, t.2.1), (t.2.1, t.2.2), (t.1, t.2.2)]

/-- The number of triangles of `ts` that have `e` as a side. -/
def edgeCount (ts : List (Int × Int × Int)) (e : Int × Int) : Nat :=
  ts.countP (fun t => decide (e ∈ triangleEdges t))

/-- The index array of a list of triangles. -/
def flatten (ts : List (Int × Int × Int)) : List Int :=
  ts.flatMap (fun t => [t.1, t.2.1, t.2.2])

/-- One if `e` is the closing side `(i, k)` of the span, zero otherwise. -/
def closing (i k : Int) (e : Int × Int) : Nat := if e = (i, k) then 1 else 0

/-- What the backtrace has emitted for the span `(i, k)`: `k - i - 1` ordered triangles inside
the span; counting the closing side `(i, k)` once more, every unit side `(p, p + 1)` of the span
is used once and the sides used otherwise are `k - i - 1` diagonals, each used twice. -/
structure TracedSpan (i k : Int) (ts : List (Int × Int × Int)) : Prop where
  len : (ts.length : Int) + 1 = k - i
  bounds : ∀ t ∈ ts, i ≤ t.1 ∧ t.1 < t.2.1 ∧ t.2.1 < t.2.2 ∧ t.2.2 ≤ k
  unit : ∀ p, i ≤ p → p < k → edgeCount ts (p, p + 1) + closing i k (p, p + 1) = 1
  diag : ∃ D : Finset (Int × Int), (D.card : Int) + 1 = k - i ∧
    (∀ e ∈ D, i ≤ e.1 ∧ e.1 + 2 ≤ e.2 ∧ e.2 ≤ k ∧ edgeCount ts e + closing i k e = 2) ∧
    (∀ e, edgeCount ts e ≠ 0 → e.2 = e.1 + 1 ∨ e ∈ D) ∧
    (i + 2 ≤ k → (i, k) ∈ D)

/-- The total `W(i,m) + W(m,k) + f(i,m,k)` of the apex candidate `m` of the span `(i, k)`, read
off a table. -/
def candidate {R : Type} [Add R] [Zero R] (cost : CostModel R) (weightSet : WeightSet R)
    (i k m : Int) : Except Failure (DihedralAngleWeight R) :=
  (weightFunction cost weightSet i m k).map
    (fun f => ((weightSet.get (i, m)).2.add (weightSet.get (m, k)).2).add f)

/-- The entry `(o, w)` is optimal for the span `(i, k)` of a table: no candidate total is below
`w`, and either nothing was chosen (`o = -1`, `w` the initial bound `(M_PI, DBL_MAX)`) or `o` lies
strictly inside the span and its candidate total is `w`. -/
def Optimal {R : Type} [LT R] [Add R] [Zero R] (cost : CostModel R) (weightSet : WeightSet R)
    (i k : Int) (best : Int × DihedralAngleWeight R) : Prop :=
  (∀ m, i < m → m < k → ∃ t, candidate cost weightSet i k m = .ok t ∧ ¬ t.lt best.2) ∧
  (best = (-1, ⟨cost.M_PI, cost.DBL_MAX⟩) ∨
    (i < best.1 ∧ best.1 < k ∧ candidate cost weightSet i k best.1 = .ok best.2))

/-- Progress of the main loop on a boundary of length `n`: every span `(i, k)` of width at least
three inside `0 .. n - 1` whose width is below `j`, or equal to `j` with `i < c`, holds an entry
that is optimal for the table. -/
def Resolved {R : Type} [LT R] [Add R] [Zero R] (cost : CostModel R) (n : Int)
    (weightSet : WeightSet R) (j c : Int) : Prop :=
  ∀ i k : Int, 0 ≤ i → i + 3 ≤ k → k ≤ n - 1 → (k - i < j ∨ (k - i = j ∧ i < c)) →
    ∃ best, weightSet.find (i, k) = some best ∧ Optimal cost weightSet i k best

/-- Progress of the writes on a boundary of length `n`: every key `(i, k)` with
`0 <= i < k <= n - 1` whose width `k - i` is below `j`, or equal to `j` with `i < c`, is present
in the table. -/
def Filled {R : Type} (n : Int) (weightSet : WeightSet R) (j c : Int) : Prop :=
  ∀ i k : Int, 0 ≤ i → i < k → k ≤ n - 1 → (k - i < j ∨ (k - i = j ∧ i < c)) →
    (weightSet.find (i, k)).isSome = true

/-- The entry `(o, w)` is the first of its weight in the span `(i, k)` of a table: every candidate
`m` of the span before the apex `o` has a total strictly above `w`. -/
def Earliest {R : Type} [LT R] [Add R] [Zero R] (cost : CostModel R) (weightSet : WeightSet R)
    (i k : Int) (best : Int × DihedralAngleWeight R) : Prop :=
  ∀ m, i < m → m < k → m < best.1 → ∃ t, candidate cost weightSet i k m = .ok t ∧ best.2.lt t

/-- Progress of the main loop on a boundary of length `n`, for the order of the candidates: every
span `(i, k)` of width at least three inside `0 .. n - 1` whose width is below `j`, or equal to
`j` with `i < c`, holds an entry that is the first of its weight. -/
def ResolvedEarliest {R : Type} [LT R] [Add R] [Zero R] (cost : CostModel R) (n : Int)
    (weightSet : WeightSet R) (j c : Int) : Prop :=
  ∀ i k : Int, 0 ≤ i → i + 3 ≤ k → k ≤ n - 1 → (k - i < j ∨ (k - i = j ∧ i < c)) →
    ∃ best, weightSet.find (i, k) = some best ∧ Earliest cost weightSet i k best

/-- The triangle scale in the words of the spec: the mean of the target scales of the three
vertices of the triangle. -/
def vertexScaleMean {R : Type} [LinearOrderedField R] (scaleAttributes : List R)
    (triangle : Int × Int × Int) : Except Failure R := do
  let si ← getAt scaleAttributes triangle.1
  let sj ← getAt scaleAttributes triangle.2.1
  let sk ← getAt scaleAttributes triangle.2.2
  pure ((si + sj + sk) / 3)

/-- The centroid `(v1 + v2 + v3) / 3` of three positions. -/
def Vec3.centroid {R : Type} [LinearOrderedField R] (v1 v2 v3 : Vec3 R) : Vec3 R :=
  ((v1.1 + v2.1 + v3.1) / 3, (v1.2.1 + v2.2.1 + v3.2.1) / 3, (v1.2.2 + v2.2.2 + v3.2.2) / 3)

/-- In the words of the spec: the triangles emitted by a split pass for a list of triangles, each
paired with whether it is split, when `count` vertices are held before: a split triangle
`(vi, vj, vk)` is replaced by the children `(c, vj, vk)`, `(vi, c, vk)`, `(vi, vj, c)`, where `c`
is the index of the vertex appended for it, and any other triangle is re-emitted. -/
def emitted : Nat → List ((Int × Int × Int) × Bool) → List (Int × Int × Int)
  | _, [] => []
  | count, (t, true) :: rest =>
    ((count : Int), t.2.1, t.2.2) :: (t.1, (count : Int), t.2.2) :: (t.1, t.2.1, (count : Int)) ::
      emitted (count + 1) rest
  | count, (t, false) :: rest => t :: emitted count rest

/-- The values of `f` at the triangles that are split, in order. -/
def appended {α : Type} (f : Int × Int × Int → α) (l : List ((Int × Int × Int) × Bool)) :
    List α :=
  (l.filter (fun e => e.2)).map (fun e => f e.1)

/-- The centroid of the positions of the three vertices of a triangle of the patch, as
`calculateCentroid` returns it. -/
def centroidOf {R : Type} [LinearOrderedField R] (env : FloatOps R) (patchMesh : PatchMesh R)
    (triangle : Int × Int × Int) : Vec3 R :=
  calculateCentroid env (patchMesh.vertices.getD triangle.1.toNat 0)
    (patchMesh.vertices.getD triangle.2.1.toNat 0) (patchMesh.vertices.getD triangle.2.2.toNat 0)

/-- The mean `(scale[vi] + scale[vj] + scale[vk]) / 3` of the scales of the three vertices of a
triangle. -/
def scaleMeanOf {R : Type} [LinearOrderedField R] (scaleAttributes : List R)
    (triangle : Int × Int × Int) : R :=
  (scaleAttributes.getD triangle.1.toNat 0 + scaleAttributes.getD triangle.2.1.toNat 0 +
    scaleAttributes.getD triangle.2.2.toNat 0) / 3

/-! ## Example inputs -/

/-- A cost model over the rationals in which every triangle costs `(2, 1)`: a dihedral angle of
two radians and unit area.  `M_PI` and `DBL_MAX` are the exact values of the two `double`
constants. -/
def steepCost : CostModel ℚ where
  onBoundary := fun _ _ _ => .ok ⟨2, 1⟩
  interior := fun _ _ _ _ _ => .ok ⟨2, 1⟩
  M_PI := 884279719003555 / 281474976710656
  DBL_MAX := 2 ^ 1024 - 2 ^ 971

/-- The table the dynamic program computes for `steepCost` on a boundary of four vertices. -/
def steepTable : WeightSet ℚ :=
  ((((((WeightSet.empty.set (0, 1) (-1, ⟨0, 0⟩)).set (1, 2) (-1, ⟨0, 0⟩)).set (2, 3)
    (-1, ⟨0, 0⟩)).set (0, 2) (1, ⟨2, 1⟩)).set (1, 3) (2, ⟨2, 1⟩)).set (0, 3)
    (-1, ⟨steepCost.M_PI, steepCost.DBL_MAX⟩))

/-- A cost model over the rationals in which every triangle costs `(1/4, 1)`, with the exact
values of the `double` constants `M_PI` and `DBL_MAX`. -/
def gentleCost : CostModel ℚ where
  onBoundary := fun _ _ _ => .ok ⟨1 / 4, 1⟩
  interior := fun _ _ _ _ _ => .ok ⟨1 / 4, 1⟩
  M_PI := 884279719003555 / 281474976710656
  DBL_MAX := 2 ^ 1024 - 2 ^ 971

/-- The table the dynamic program computes for `gentleCost` on a boundary of four vertices. -/
def gentleTable : WeightSet ℚ :=
  ((((((WeightSet.empty.set (0, 1) (-1, ⟨0, 0⟩)).set (1, 2) (-1, ⟨0, 0⟩)).set (2, 3)
    (-1, ⟨0, 0⟩)).set (0, 2) (1, ⟨1 / 4, 1⟩)).set (1, 3) (2, ⟨1 / 4, 1⟩)).set (0, 3)
    (1, ⟨1 / 2, 2⟩))

/-- The corner table of a list of triangles given by their vertices, with the opposite corners
listed explicitly. -/
def CornerTable.ofLists (vertices opposites : List Int) : CornerTable where
  getNumTriangles := vertices.length / 3
  cornerOpposite := fun c => opposites.getD c.toNat BORDER_CORNER
  cornerToVertexIndex := fun c => vertices.getD c.toNat 0

/-- A single triangle `(0, 1, 2)`: one hole of three edges. -/
def oneTriangle : CornerTable := CornerTable.ofLists [0, 1, 2] [-1, -1, -1]

/-- Two triangles `(0, 1, 2)` and `(3, 4, 5)` that share nothing. -/
def twoTriangles : CornerTable := CornerTable.ofLists [0, 1, 2, 3, 4, 5] [-1, -1, -1, -1, -1, -1]

/-- Two closed surfaces, each made of a triangle and its mirror image glued along all three
edges: `(0, 1, 2)`, `(0, 2, 1)` and `(3, 4, 5)`, `(3, 5, 4)`.  No corner is on a boundary. -/
def twoPillows : CornerTable :=
  CornerTable.ofLists [0, 1, 2, 0, 2, 1, 3, 4, 5, 3, 5, 4] [3, 5, 4, 0, 2, 1, 9, 11, 10, 6, 8, 7]

/-- One closed surface made of the triangle `(0, 1, 2)` and its mirror image `(0, 2, 1)`. -/
def onePillow : CornerTable := CornerTable.ofLists [0, 1, 2, 0, 2, 1] [3, 5, 4, 0, 2, 1]

/-- Two triangles `(0, 1, 2)` and `(2, 1, 3)` glued along the edge `1 - 2`: one hole of four
edges. -/
def twoGlued : CornerTable := CornerTable.ofLists [0, 1, 2, 2, 1, 3] [5, -1, -1, -1, -1, 0]

/-- The vertex of a triangle at one of its three corners. -/
def cornerVertex (triangle : Int × Int × Int) (slot : Int) : Int :=
  if slot = 0 then triangle.1 else if slot = 1 then triangle.2.1 else triangle.2.2

/-- The apex of a triangle that has the directed edge `p -> n`, if it has it. -/
def apexOver (triangle : Int × Int × Int) (p n : Int) : Option Int :=
  if triangle.2.1 = p ∧ triangle.2.2 = n then some triangle.1
  else if triangle.2.2 = p ∧ triangle.1 = n then some triangle.2.1
  else if triangle.1 = p ∧ triangle.2.1 = n then some triangle.2.2
  else none

/-- An edge flip on a list of triangles: the edge opposite the corner is shared with the first
other triangle that has it in the opposite direction, and the two triangles are replaced by the
two triangles on the other diagonal; without such a triangle nothing changes. -/
def flipEdge (triangles : List (Int × Int × Int)) (corner : Int) : List (Int × Int × Int) :=
  let a := (corner / 3).toNat
  match triangles[a]? with
  | none => triangles
  | some triangle =>
    let v := cornerVertex triangle (corner % 3)
    let n := cornerVertex triangle ((corner + 1) % 3)
    let p := cornerVertex triangle ((corner + 2) % 3)
    match triangles.enum.find? (fun e => e.1 != a && (apexOver e.2 p n).isSome) with
    | none => triangles
    | some e =>
      let o := (apexOver e.2 p n).getD v
      (triangles.set a (v, n, o)).set e.1 (o, p, v)

/-- A corner table for the relaxation that keeps nothing but its triangle list. -/
def listOps (R : Type) : RelaxationOps R where
  Table := List (Int × Int × Int)
  build := fun indexArray _ => indexArray
  getNumTriangles := fun table => table.length
  getTriangleList := fun table => table
  vertexToCornerIndex := fun table vertex =>
    Int.ofNat ((table.flatMap (fun t => [t.1, t.2.1, t.2.2])).indexOf vertex)
  getCornerNeighbours := fun table corner =>
    let corners := table.flatMap (fun t => [t.1, t.2.1, t.2.2])
    ((List.range corners.length).filter
      (fun c => corners.getD c 0 == corners.getD corner.toNat 0)).map
      (fun (c : Nat) => Int.ofNat c)
  edgeFlip := flipEdge
  getNumTriangles_build := fun _ _ => rfl
  getNumTriangles_edgeFlip := fun table corner => by
    show (flipEdge table corner).length = table.length
    unfold flipEdge
    dsimp only
    split
    · rfl
    · split
      · rfl
      · simp
  length_getTriangleList := fun _ => rfl

/-- Floating-point operations over the rationals: the Euclidean length, exact on every vector
whose length is rational, the exact value of the `double` constant `M_SQRT2`, and the conversion
to `float` as the identity, exact on every integer below `2 ^ 24`; the examples convert no other
value. -/
def exactOps : FloatOps ℚ where
  length := fun v => Rat.sqrt (v.1 * v.1 + v.2.1 * v.2.1 + v.2.2 * v.2.2)
  M_SQRT2 := 6369051672525773 / 4503599627370496
  toFloat := fun x => x

/-- A patch of one triangle with vertices `(3, 4, 0)`, `(-3, 0, 0)`, `(0, -4, 0)`; its centroid
is the origin, at distances 5, 3 and 4 from the vertices. -/
def bigTriangle : PatchMesh ℚ := ⟨[(3, 4, 0), (-3, 0, 0), (0, -4, 0)], [(0, 1, 2)]⟩

/-- The minimal patch `[0, 1, 3, 1, 2, 3]` of a boundary of four vertices. -/
def kite : PatchMesh ℚ :=
  ⟨[(3, 4, 0), (-3, 0, 0), (-3, -8, 0), (0, -4, 0)], [(0, 1, 3), (1, 2, 3)]⟩

/-- Target scales of the four boundary vertices of `kite`, as `scaleAttributes` holds them before
the first pass. -/
def kiteScales : List ℚ := [1, 1, 13, 4]

/-- The table after the two base loops for `gentleCost` on a boundary of four vertices. -/
def gentleBase : WeightSet ℚ :=
  (((((WeightSet.empty.set (0, 1) (-1, ⟨0, 0⟩)).set (1, 2) (-1, ⟨0, 0⟩)).set (2, 3)
    (-1, ⟨0, 0⟩)).set (0, 2) (1, ⟨1 / 4, 1⟩)).set (1, 3) (2, ⟨1 / 4, 1⟩))

/-- The source mesh of a list of positions and a flat list of triangle indices:
`vertexToCornerIndex` is the first corner at the vertex and `getCornerNeighbours` lists, in
increasing order, the corners at the vertex of the corner. -/
def SourceMesh.ofTriangles {R : Type} (positions : List (Vec3 R)) (indices : List Int) :
    SourceMesh R where
  getAttributes := positions
  cornerToVertexIndex := fun c => indices.getD c.toNat 0
  vertexToCornerIndex := fun v => Int.ofNat (indices.indexOf v)
  getCornerNeighbours := fun c =>
    ((List.range indices.length).filter
      (fun d => indices.getD d 0 == indices.getD c.toNat 0)).map (fun (d : Nat) => Int.ofNat d)

/-- A tetrahedron without its base: the triangles `(0, 1, 3)`, `(1, 2, 3)`, `(2, 0, 3)` over four
vertices.  Its hole is bounded by the loop `[2, 1, 0]`. -/
def openTetrahedron : SourceMesh ℚ :=
  SourceMesh.ofTriangles [(0, 0, 0), (1, 0, 0), (0, 1, 0), (0, 0, 1)]
    [0, 1, 3, 1, 2, 3, 2, 0, 3]

/-- Two triangles `(0, 1, 2)` and `(2, 1, 3)` glued along the edge `1 - 2`, in a vertex array
that holds two more vertices, used by no triangle.  The hole around the pair is bounded by the
loop `[2, 3, 1, 0]`. -/
def gluedPair : SourceMesh ℚ :=
  SourceMesh.ofTriangles [(0, 0, 0), (1, 0, 0), (0, 1, 0), (1, 1, 0), (2, 0, 0), (2, 1, 0)]
    [0, 1, 2, 2, 1, 3]

/-- Stand-in operations over the rationals for statements that do not depend on the values of
`length`, `sin` and `acos`; `M_PI` and `DBL_MAX` are the exact values of the two `double`
constants. -/
def nullOps : WeightOps ℚ where
  length := fun _ => 0
  sin := fun _ => 0
  acos := fun _ => 0
  M_PI := 884279719003555 / 281474976710656
  DBL_MAX := 2 ^ 1024 - 2 ^ 971

/-- The table after the two base loops for `nullOps` on the boundary `[2, 3, 1, 0]` of
`gluedPair`. -/
def gluedBase : WeightSet ℚ :=
  (((((WeightSet.empty.set (0, 1) (-1, ⟨0, 0⟩)).set (1, 2) (-1, ⟨0, 0⟩)).set (2, 3)
    (-1, ⟨0, 0⟩)).set (0, 2) (1, ⟨0, 0⟩)).set (1, 3) (2, ⟨0, 0⟩))

/-- A fan of four triangles `(0, 1, 5)`, `(1, 2, 5)`, `(2, 3, 5)`, `(3, 4, 5)` around the
vertex 5.  The vertices 0 and 4 lie in no common triangle. -/
def openFan : SourceMesh ℚ :=
  SourceMesh.ofTriangles [(2, 0, 0), (1, 1, 0), (0, 2, 0), (-1, 1, 0), (-2, 0, 0), (0, 0, 0)]
    [0, 1, 5, 1, 2, 5, 2, 3, 5, 3, 4, 5]

/-- A table that holds the apexes of the two base triangles `(0, 1, 2)` and `(2, 3, 4)`. -/
def fanTable : WeightSet ℚ :=
  (WeightSet.empty.set (0, 2) (1, ⟨0, 0⟩)).set (2, 4) (3, ⟨0, 0⟩)

/-! # Theorems -/

/-! ## Loop ranges -/

theorem intRange_nil {lo hi : Int} (h : hi < lo) : intRange lo hi = [] := by
  unfold intRange
  have : (hi + 1 - lo).toNat = 0 := by omega
  simp [this]

theorem intRange_cons {lo hi : Int} (h : lo ≤ hi) :
    intRange lo hi = lo :: intRange (lo + 1) hi := by
  unfold intRange
  have : (hi + 1 - lo).toNat = (hi + 1 - (lo + 1)).toNat + 1 := by omega
  rw [this, List.range_succ_eq_map]
  simp only [List.map_cons, List.map_map, Int.ofNat_eq_coe, Nat.cast_zero, add_zero]
  congr 1
  apply List.map_congr_left
  intro a _
  simp only [Function.comp_apply, Nat.succ_eq_add_one, Nat.cast_add, Nat.cast_one]
  omega

theorem mem_intRange {lo hi x : Int} : x ∈ intRange lo hi ↔ lo ≤ x ∧ x ≤ hi := by
  unfold intRange
  simp only [List.mem_map, List.mem_range, Int.ofNat_eq_coe]
  constructor
  · rintro ⟨d, hd, rfl⟩
    omega
  · intro h
    exact ⟨(x - lo).toNat, by omega, by omega⟩

/-! ## The backtrace -/

theorem flatten_cons (t : Int × Int × Int) (ts : List (Int × Int × Int)) :
    flatten (t :: ts) = t.1 :: t.2.1 :: t.2.2 :: flatten ts := rfl

theorem triangles_flatten (ts : List (Int × Int × Int)) : triangles (flatten ts) = ts := by
  induction ts with
  | nil => rfl
  | cons t ts ih =>
    rw [flatten_cons, triangles, ih]

theorem flatten_append (xs ys : List (Int × Int × Int)) :
    flatten (xs ++ ys) = flatten xs ++ flatten ys := by
  simp [flatten, List.flatMap_append]

theorem length_flatten (ts : List (Int × Int × Int)) : (flatten ts).length = 3 * ts.length := by
  induction ts with
  | nil => rfl
  | cons t ts ih =>
    rw [flatten_cons]
    simp only [List.length_cons, ih]
    omega

theorem edgeCount_append (xs ys : List (Int × Int × Int)) (e : Int × Int) :
    edgeCount (xs ++ ys) e = edgeCount xs e + edgeCount ys e := by
  simp [edgeCount, List.countP_append]

theorem edgeCount_single (a b c : Int) (e : Int × Int) :
    edgeCount [(a, b, c)] e = if e = (a, b) ∨ e = (b, c) ∨ e = (a, c) then 1 else 0 := by
  simp [edgeCount, triangleEdges, List.countP_cons]

theorem edgeCount_support {i k : Int} {ts : List (Int × Int × Int)}
    (hb : ∀ t ∈ ts, i ≤ t.1 ∧ t.1 < t.2.1 ∧ t.2.1 < t.2.2 ∧ t.2.2 ≤ k) {e : Int × Int}
    (he : edgeCount ts e ≠ 0) : i ≤ e.1 ∧ e.1 < e.2 ∧ e.2 ≤ k := by
  have hpos : 0 < edgeCount ts e := Nat.pos_of_ne_zero he
  obtain ⟨t, ht, hmem⟩ := List.countP_pos_iff.mp hpos
  have hin : e ∈ triangleEdges t := of_decide_eq_true hmem
  have h := hb t ht
  simp only [triangleEdges, List.mem_cons, List.mem_singleton, List.not_mem_nil,
    or_false] at hin
  rcases hin with rfl | rfl | rfl <;> simp only <;> omega

theorem edgeCount_eq_zero {i k : Int} {ts : List (Int × Int × Int)}
    (hb : ∀ t ∈ ts, i ≤ t.1 ∧ t.1 < t.2.1 ∧ t.2.1 < t.2.2 ∧ t.2.2 ≤ k) {e : Int × Int}
    (he : e.1 < i ∨ k < e.2) : edgeCount ts e = 0 := by
  by_contra h
  have := edgeCount_support hb h
  omega

theorem TracedSpan.unitSpan (i : Int) : TracedSpan i (i + 1) [] := by
  refine ⟨by simp, by simp, ?_, ⟨∅, by simp, by simp, by simp [edgeCount], by omega⟩⟩
  intro p h1 h2
  have : p = i := by omega
  subst this
  simp [edgeCount, closing]

theorem TracedSpan.join {i o k : Int} {ts1 ts2 : List (Int × Int × Int)} (hio : i < o)
    (hok : o < k) (h1 : TracedSpan i o ts1) (h2 : TracedSpan o k ts2) :
    TracedSpan i k (ts1 ++ [(i, o, k)] ++ ts2) := by
  have hb1 := h1.bounds
  have hb2 := h2.bounds
  have hcount : ∀ e : Int × Int, edgeCount (ts1 ++ [(i, o, k)] ++ ts2) e =
      edgeCount ts1 e + (if e = (i, o) ∨ e = (o, k) ∨ e = (i, k) then 1 else 0)
        + edgeCount ts2 e := by
    intro e
    rw [edgeCount_append, edgeCount_append, edgeCount_single]
  have hleft : ∀ e : Int × Int, e.2 ≤ o → e.1 < e.2 →
      edgeCount (ts1 ++ [(i, o, k)] ++ ts2) e = edgeCount ts1 e + closing i o e := by
    intro e he2 he1
    rw [hcount, edgeCount_eq_zero hb2 (Or.inl (by omega))]
    have hA : ¬ e = (o, k) := fun h => by rw [h] at he2; simp only at he2; omega
    have hB : ¬ e = (i, k) := fun h => by rw [h] at he2; simp only at he2; omega
    simp only [hA, hB, or_false, closing, add_zero]
  have hright : ∀ e : Int × Int, o ≤ e.1 → e.1 < e.2 →
      edgeCount (ts1 ++ [(i, o, k)] ++ ts2) e = edgeCount ts2 e + closing o k e := by
    intro e he1 he2
    rw [hcount, edgeCount_eq_zero hb1 (Or.inr (by omega))]
    have hA : ¬ e = (i, o) := fun h => by rw [h] at he1; simp only at he1; omega
    have hB : ¬ e = (i, k) := fun h => by rw [h] at he1; simp only at he1; omega
    simp only [hA, hB, false_or, or_false, closing, zero_add]
    omega
  have htop : edgeCount (ts1 ++ [(i, o, k)] ++ ts2) (i, k) = 1 := by
    rw [hcount, edgeCount_eq_zero hb1 (Or.inr (by simp only; omega)),
      edgeCount_eq_zero hb2 (Or.inl (by simp only; omega))]
    simp
  obtain ⟨D1, hc1, hD1, hocc1, htop1⟩ := h1.diag
  obtain ⟨D2, hc2, hD2, hocc2, htop2⟩ := h2.diag
  refine ⟨?_, ?_, ?_, ?_⟩
  · have := h1.len
    have := h2.len
    simp only [List.length_append, List.length_cons, List.length_nil, Nat.cast_add,
      Nat.cast_one, Nat.cast_zero]
    omega
  · intro t ht
    simp only [List.mem_append, List.mem_cons, List.mem_singleton, List.not_mem_nil,
      or_false] at ht
    rcases ht with (ht | rfl) | ht
    · have := hb1 t ht
      omega
    · simp only
      omega
    · have := hb2 t ht
      omega
  · intro p hp1 hp2
    have hnot : closing i k (p, p + 1) = 0 := by
      have : ¬ ((p, p + 1) = (i, k)) := by
        intro h
        simp only [Prod.mk.injEq] at h
        omega
      simp only [closing, this, if_false]
    rw [hnot]
    by_cases hpo : p < o
    · rw [hleft (p, p + 1) (by simp only; omega) (by simp only; omega)]
      exact h1.unit p hp1 hpo
    · rw [hright (p, p + 1) (by simp only; omega) (by simp only; omega)]
      exact h2.unit p (by omega) hp2
  · have hdisj : Disjoint D1 D2 := by
      rw [Finset.disjoint_left]
      intro e he1 he2
      have := hD1 e he1
      have := hD2 e he2
      omega
    have hnotin : (i, k) ∉ D1 ∪ D2 := by
      intro h
      rcases Finset.mem_union.mp h with h | h
      · have := hD1 _ h
        simp only at this
        omega
      · have := hD2 _ h
        simp only at this
        omega
    refine ⟨insert (i, k) (D1 ∪ D2), ?_, ?_, ?_, ?_⟩
    · rw [Finset.card_insert_of_not_mem hnotin, Finset.card_union_of_disjoint hdisj]
      push_cast
      omega
    · intro e he
      rcases Finset.mem_insert.mp he with rfl | he
      · refine ⟨le_refl _, by simp only; omega, le_refl _, ?_⟩
        rw [htop]
        simp [closing]
      · have hne : closing i k e = 0 := by
          have : ¬ e = (i, k) := fun h => hnotin (h ▸ he)
          simp only [closing, this, if_false]
        rcases Finset.mem_union.mp he with he | he
        · obtain ⟨a1, a2, a3, a4⟩ := hD1 e he
          refine ⟨a1, a2, by omega, ?_⟩
          rw [hne, hleft e a3 (by omega)]
          exact a4
        · obtain ⟨a1, a2, a3, a4⟩ := hD2 e he
          refine ⟨by omega, a2, a3, ?_⟩
          rw [hne, hright e a1 (by omega)]
          exact a4
    · intro e he
      rw [hcount] at he
      by_cases hA : edgeCount ts1 e ≠ 0
      · rcases hocc1 e hA with h | h
        · exact Or.inl h
        · exact Or.inr (Finset.mem_insert_of_mem (Finset.mem_union_left _ h))
      by_cases hB : edgeCount ts2 e ≠ 0
      · rcases hocc2 e hB with h | h
        · exact Or.inl h
        · exact Or.inr (Finset.mem_insert_of_mem (Finset.mem_union_right _ h))
      simp only [ne_eq, not_not] at hA hB
      rw [hA, hB] at he
      by_cases hC : e = (i, o) ∨ e = (o, k) ∨ e = (i, k)
      · rcases hC with rfl | rfl | rfl
        · by_cases hw : i + 2 ≤ o
          · exact Or.inr (Finset.mem_insert_of_mem (Finset.mem_union_left _ (htop1 hw)))
          · left
            simp only
            omega
        · by_cases hw : o + 2 ≤ k
          · exact Or.inr (Finset.mem_insert_of_mem (Finset.mem_union_right _ (htop2 hw)))
          · left
            simp only
            omega
        · exact Or.inr (Finset.mem_insert_self _ _)
      · simp [hC] at he
    · intro _
      exact Finset.mem_insert_self _ _

theorem trace_succ {R : Type} [Zero R] (ws : WeightSet R) (fuel : Nat) (i k : Int)
    (indexes : List Int) (hw : ¬ i + 2 = k) :
    trace ws (fuel + 1) i k indexes =
      ((if (ws.get (i, k)).1 ≠ i + 1 then trace ws fuel i (ws.get (i, k)).1 indexes
        else pure indexes) >>= fun y =>
          if (ws.get (i, k)).1 ≠ k - 1 then
            trace ws fuel (ws.get (i, k)).1 k (y ++ [i, (ws.get (i, k)).1, k])
          else pure (y ++ [i, (ws.get (i, k)).1, k])) := by
  rw [trace]
  simp only [hw, if_false]
  split <;> rfl

/-- The backtrace on a span `(i, k)` of width at least two whose wider sub-spans all have an apex
strictly inside: with fuel at least the width it returns, having appended the index array of a
list of triangles that triangulates the span. -/
theorem trace_span {R : Type} [Zero R] (ws : WeightSet R) (n : Int)
    (hO : ∀ i k : Int, 0 ≤ i → i + 3 ≤ k → k ≤ n - 1 →
      i < (ws.get (i, k)).1 ∧ (ws.get (i, k)).1 < k)
    (fuel : Nat) : ∀ (i k : Int) (indexes : List Int), 0 ≤ i → i + 2 ≤ k → k ≤ n - 1 →
      k - i ≤ (fuel : Int) + 1 →
      ∃ ts, trace ws fuel i k indexes = .ok (indexes ++ flatten ts) ∧ TracedSpan i k ts := by
  induction fuel with
  | zero =>
    intro i k indexes _ h2 _ h4
    omega
  | succ fuel ih =>
    intro i k indexes h1 h2 h3 h4
    by_cases hw : i + 2 = k
    · refine ⟨[] ++ [(i, i + 1, k)] ++ [], ?_, ?_⟩
      · simp [trace, hw, flatten]
      · have hk : k = (i + 1) + 1 := by omega
        have e1 := TracedSpan.unitSpan i
        have e2 := TracedSpan.unitSpan (i + 1)
        rw [← hk] at e2
        exact TracedSpan.join (by omega) (by omega) e1 e2
    · obtain ⟨ho1, ho2⟩ := hO i k h1 (by omega) h3
      generalize ho : (ws.get (i, k)).1 = o at ho1 ho2
      have hleft : ∃ ts1, (if o ≠ i + 1 then trace ws fuel i o indexes else pure indexes)
          = .ok (indexes ++ flatten ts1) ∧ TracedSpan i o ts1 := by
        by_cases hc : o = i + 1
        · refine ⟨[], ?_, ?_⟩
          · simp [hc, flatten, pure, Except.pure]
          · rw [hc]
            exact TracedSpan.unitSpan i
        · simp only [ne_eq, hc, not_false_eq_true, if_true]
          exact ih i o indexes h1 (by omega) (by omega) (by push_cast at h4; omega)
      obtain ⟨ts1, hl, hs1⟩ := hleft
      have hright : ∀ acc : List Int, ∃ ts2, (if o ≠ k - 1 then trace ws fuel o k acc else pure acc)
          = .ok (acc ++ flatten ts2) ∧ TracedSpan o k ts2 := by
        intro acc
        by_cases hc : o = k - 1
        · refine ⟨[], ?_, ?_⟩
          · simp [hc, flatten, pure, Except.pure]
          · have : k = o + 1 := by omega
            rw [this]
            exact TracedSpan.unitSpan o
        · simp only [ne_eq, hc, not_false_eq_true, if_true]
          exact ih o k acc (by omega) (by omega) h3 (by push_cast at h4; omega)
      obtain ⟨ts2, hr, hs2⟩ := hright (indexes ++ flatten ts1 ++ [i, o, k])
      refine ⟨ts1 ++ [(i, o, k)] ++ ts2, ?_, TracedSpan.join ho1 ho2 hs1 hs2⟩
      rw [trace_succ ws fuel i k indexes hw, ho, hl]
      simp only [bind, Except.bind]
      rw [hr]
      simp [flatten_append, flatten]

/-! ## The dynamic program -/

theorem weight_lt_irrefl {R : Type} [LinearOrder R] (a : DihedralAngleWeight R) :
    ¬ a.lt a := by
  unfold DihedralAngleWeight.lt
  intro h
  rcases h with h | ⟨_, h⟩ <;> exact absurd h (lt_irrefl _)

theorem weight_lt_trans {R : Type} [LinearOrder R] {a b c : DihedralAngleWeight R}
    (hab : a.lt b) (hbc : b.lt c) : a.lt c := by
  unfold DihedralAngleWeight.lt at *
  rcases hab with h1 | ⟨h1, h1a⟩ <;> rcases hbc with h2 | ⟨h2, h2a⟩
  · exact Or.inl (lt_trans h1 h2)
  · exact Or.inl (h2 ▸ h1)
  · exact Or.inl (h1 ▸ h2)
  · exact Or.inr ⟨h1.trans h2, lt_trans h1a h2a⟩

/-- Invariant rule for a loop `for( c = lo; c <= hi; c++ )` whose body may fail. -/
theorem foldlM_intRange {σ : Type} (f : σ → Int → Except Failure σ) (P : Int → σ → Prop)
    (lo hi : Int) (hstep : ∀ c s s1, lo ≤ c → c ≤ hi → P c s → f s c = .ok s1 → P (c + 1) s1)
    (hle : lo ≤ hi + 1) (s0 res : σ) (h0 : P lo s0)
    (hres : (intRange lo hi).foldlM f s0 = .ok res) : P (hi + 1) res := by
  have main : ∀ (d : Nat) (c : Int) (s res : σ), (hi + 1 - c).toNat = d → lo ≤ c → c ≤ hi + 1 →
      P c s → (intRange c hi).foldlM f s = .ok res → P (hi + 1) res := by
    intro d
    induction d with
    | zero =>
      intro c s res hd hlo hle h0 hres
      rw [intRange_nil (by omega)] at hres
      simp only [List.foldlM_nil, pure, Except.pure, Except.ok.injEq] at hres
      have : c = hi + 1 := by omega
      rw [← hres, ← this]
      exact h0
    | succ d ih =>
      intro c s res hd hlo hle h0 hres
      rw [intRange_cons (by omega)] at hres
      simp only [List.foldlM_cons, bind, Except.bind] at hres
      cases hf : f s c with
      | error e => rw [hf] at hres; cases hres
      | ok s1 =>
        rw [hf] at hres
        exact ih (c + 1) s1 res (by omega) (by omega) (by omega)
          (hstep c s s1 hlo (by omega) h0 hf) hres
  exact main _ lo s0 res rfl (le_refl _) hle h0 hres

/-- A loop `for( c = lo; c <= hi; c++ )` whose body succeeds on every state returns. -/
theorem foldlM_intRange_ok {σ : Type} (f : σ → Int → Except Failure σ)
    (hf : ∀ s c, ∃ s1, f s c = .ok s1) (xs : List Int) (s0 : σ) :
    ∃ res, xs.foldlM f s0 = .ok res := by
  induction xs generalizing s0 with
  | nil => exact ⟨s0, rfl⟩
  | cons x xs ih =>
    obtain ⟨s1, h1⟩ := hf s0 x
    obtain ⟨res, hres⟩ := ih s1
    refine ⟨res, ?_⟩
    simp only [List.foldlM_cons, bind, Except.bind, h1]
    exact hres

theorem apexStep_eq {R : Type} [LinearOrder R] [Add R] [Zero R] (cost : CostModel R)
    (ws : WeightSet R) (i k : Int) (acc : Int × DihedralAngleWeight R) (m : Int) :
    apexStep cost ws i k acc m =
      (candidate cost ws i k m).map (fun t => if t.lt acc.2 then (m, t) else acc) := by
  unfold apexStep candidate
  cases weightFunction cost ws i m k with
  | error e => rfl
  | ok f =>
    simp only [bind, Except.bind, Except.map, pure, Except.pure]
    split <;> rfl

theorem apexLoop_optimal {R : Type} [LinearOrder R] [Add R] [Zero R] (cost : CostModel R)
    (ws : WeightSet R) (i k : Int) (hik : i < k) (best : Int × DihedralAngleWeight R)
    (h : apexLoop cost ws i k = .ok best) : Optimal cost ws i k best := by
  have key := foldlM_intRange (apexStep cost ws i k)
    (fun c acc => (∀ m, i < m → m < c → ∃ t, candidate cost ws i k m = .ok t ∧ ¬ t.lt acc.2) ∧
      (acc = (-1, ⟨cost.M_PI, cost.DBL_MAX⟩) ∨
        (i < acc.1 ∧ acc.1 < c ∧ candidate cost ws i k acc.1 = .ok acc.2)))
    (i + 1) (k - 1) ?_ (by omega) (-1, ⟨cost.M_PI, cost.DBL_MAX⟩) best
    ⟨fun m h1 h2 => by omega, Or.inl rfl⟩ h
  · obtain ⟨h1, h2⟩ := key
    refine ⟨fun m hm1 hm2 => h1 m hm1 (by omega), ?_⟩
    rcases h2 with h2 | ⟨a, b, c⟩
    · exact Or.inl h2
    · exact Or.inr ⟨a, by omega, c⟩
  · intro c acc acc1 hlo hc ⟨hall, hbest⟩ hstep
    rw [apexStep_eq] at hstep
    cases hcand : candidate cost ws i k c with
    | error e => rw [hcand] at hstep; cases hstep
    | ok t =>
      rw [hcand] at hstep
      simp only [Except.map, Except.ok.injEq] at hstep
      by_cases hlt : t.lt acc.2
      · rw [if_pos hlt] at hstep
        subst hstep
        refine ⟨?_, Or.inr ⟨?_, by simp only; omega, hcand⟩⟩
        · intro m hm1 hm2
          by_cases hmc : m = c
          · subst hmc
            exact ⟨t, hcand, weight_lt_irrefl t⟩
          · obtain ⟨tm, htm, hno⟩ := hall m hm1 (by omega)
            exact ⟨tm, htm, fun hh => hno (weight_lt_trans hh hlt)⟩
        · simp only
          omega
      · rw [if_neg hlt] at hstep
        subst hstep
        refine ⟨?_, ?_⟩
        · intro m hm1 hm2
          by_cases hmc : m = c
          · subst hmc
            exact ⟨t, hcand, hlt⟩
          · exact hall m hm1 (by omega)
        · rcases hbest with hb | ⟨a, b, c1⟩
          · exact Or.inl hb
          · exact Or.inr ⟨a, by omega, c1⟩

theorem WeightSet.find_set {R : Type} (ws : WeightSet R) (key q : Int × Int)
    (v : Int × DihedralAngleWeight R) :
    (ws.set key v).find q = if q = key then some v else ws.find q := rfl

theorem WeightSet.get_set_ne {R : Type} [Zero R] (ws : WeightSet R) (key q : Int × Int)
    (v : Int × DihedralAngleWeight R) (h : q ≠ key) : (ws.set key v).get q = ws.get q := by
  simp only [WeightSet.get, WeightSet.find_set, h, if_false]

theorem candidate_congr {R : Type} [Add R] [Zero R] (cost : CostModel R) (ws1 ws2 : WeightSet R)
    (i k m : Int) (h1 : ws1.get (i, m) = ws2.get (i, m)) (h2 : ws1.get (m, k) = ws2.get (m, k)) :
    candidate cost ws1 i k m = candidate cost ws2 i k m := by
  simp only [candidate, weightFunction, h1, h2]

theorem Optimal.congr {R : Type} [LT R] [Add R] [Zero R] (cost : CostModel R)
    (ws1 ws2 : WeightSet R) (i k : Int) (best : Int × DihedralAngleWeight R)
    (hagree : ∀ m, i < m → m < k →
      ws1.get (i, m) = ws2.get (i, m) ∧ ws1.get (m, k) = ws2.get (m, k))
    (h : Optimal cost ws1 i k best) : Optimal cost ws2 i k best := by
  obtain ⟨h1, h2⟩ := h
  refine ⟨?_, ?_⟩
  · intro m hm1 hm2
    obtain ⟨t, ht, hno⟩ := h1 m hm1 hm2
    have := hagree m hm1 hm2
    exact ⟨t, by rw [← candidate_congr cost ws1 ws2 i k m this.1 this.2]; exact ht, hno⟩
  · rcases h2 with h2 | ⟨a, b, c⟩
    · exact Or.inl h2
    · have := hagree best.1 a b
      exact Or.inr ⟨a, b, by rw [← candidate_congr cost ws1 ws2 i k _ this.1 this.2]; exact c⟩

theorem Resolved.step {R : Type} [LinearOrder R] [Add R] [Zero R] (cost : CostModel R)
    (n j c : Int) (ws : WeightSet R) (best : Int × DihedralAngleWeight R)
    (hres : Resolved cost n ws j c) (hbest : apexLoop cost ws c (c + j) = .ok best) :
    Resolved cost n (ws.set (c, c + j) best) j (c + 1) := by
  intro i k h0 h3 hn hcase
  by_cases hkey : (i, k) = (c, c + j)
  · refine ⟨best, by rw [WeightSet.find_set, if_pos hkey], ?_⟩
    simp only [Prod.mk.injEq] at hkey
    obtain ⟨rfl, rfl⟩ := hkey
    apply Optimal.congr cost ws _ i (i + j) best ?_ (apexLoop_optimal cost ws i (i + j) (by omega) best hbest)
    intro m hm1 hm2
    constructor
    · rw [WeightSet.get_set_ne]
      intro h
      simp only [Prod.mk.injEq] at h
      omega
    · rw [WeightSet.get_set_ne]
      intro h
      simp only [Prod.mk.injEq] at h
      omega
  · have hold : k - i < j ∨ (k - i = j ∧ i < c) := by
      rcases hcase with h | ⟨h1, h2⟩
      · exact Or.inl h
      · right
        refine ⟨h1, ?_⟩
        have : i ≠ c := by
          intro hic
          apply hkey
          simp only [Prod.mk.injEq]
          omega
        omega
    obtain ⟨b, hb1, hb2⟩ := hres i k h0 h3 hn hold
    refine ⟨b, by rw [WeightSet.find_set, if_neg hkey]; exact hb1, ?_⟩
    apply Optimal.congr cost ws _ i k b ?_ hb2
    intro m hm1 hm2
    constructor
    · rw [WeightSet.get_set_ne]
      intro h
      simp only [Prod.mk.injEq] at h
      omega
    · rw [WeightSet.get_set_ne]
      intro h
      simp only [Prod.mk.injEq] at h
      omega

theorem spanLoop_resolved {R : Type} [LinearOrder R] [Add R] [Zero R] (cost : CostModel R)
    (n j : Int) (ws ws1 : WeightSet R) (hjn : j ≤ n)
    (hres : Resolved cost n ws j 0) (h : spanLoop cost n j ws = .ok ws1) :
    Resolved cost n ws1 (j + 1) 0 := by
  have key := foldlM_intRange
    (fun ws i => do
      let k := i + j
      let best ← apexLoop cost ws i k
      pure (ws.set (i, k) best))
    (fun c ws => Resolved cost n ws j c) 0 (n - j - 1) ?_ (by omega) ws ws1 hres h
  · intro i k h0 h3 hn hcase
    apply key i k h0 h3 hn
    omega
  · intro c s s1 _ _ hP hstep
    cases hb : apexLoop cost s c (c + j) with
    | error e =>
      simp only [hb, bind, Except.bind] at hstep
      cases hstep
    | ok best =>
      simp only [hb, bind, Except.bind, pure, Except.pure, Except.ok.injEq] at hstep
      rw [← hstep]
      exact Resolved.step cost n j c s best hP hb

theorem widthLoop_resolved {R : Type} [LinearOrder R] [Add R] [Zero R] (cost : CostModel R)
    (n : Int) (ws ws1 : WeightSet R) (hn : 3 ≤ n) (h : widthLoop cost n ws = .ok ws1) :
    Resolved cost n ws1 n 0 := by
  have key := foldlM_intRange (fun ws j => spanLoop cost n j ws)
    (fun j ws => Resolved cost n ws j 0) 3 (n - 1) ?_ (by omega) ws ws1 ?_ h
  · simpa using key
  · intro j s s1 h3 hj hP hstep
    exact spanLoop_resolved cost n j s s1 (by omega) hP hstep
  · intro i k h0 h3 _ hcase
    omega

/-- After the dynamic program every span of width at least three holds an optimal entry. -/
theorem weightTable_optimal {R : Type} [LinearOrder R] [Add R] [Zero R] (cost : CostModel R)
    (n : Int) (ws : WeightSet R) (hn : 3 ≤ n) (h : weightTable cost n = .ok ws)
    (i k : Int) (h0 : 0 ≤ i) (h3 : i + 3 ≤ k) (hk : k ≤ n - 1) :
    ∃ best, ws.find (i, k) = some best ∧ Optimal cost ws i k best := by
  unfold weightTable at h
  cases hb : baseTriangles cost n (baseEdges n WeightSet.empty) with
  | error e => simp only [hb, bind, Except.bind] at h; cases h
  | ok ws0 =>
    simp only [hb, bind, Except.bind] at h
    exact widthLoop_resolved cost n ws0 ws hn h i k h0 h3 hk (by omega)

theorem steep_table : weightTable steepCost 4 = .ok steepTable := by
  simp [Prod.ext_iff, weightTable, baseEdges, baseTriangles, widthLoop, widths, spanLoop,
    apexLoop, apexStep, intRange_cons, intRange_nil, weightFunction, steepCost, steepTable,
    WeightSet.set, WeightSet.get, WeightSet.empty, DihedralAngleWeight.add,
    DihedralAngleWeight.lt, DihedralAngleWeight.zero, bind, Except.bind, pure, Except.pure]
  norm_num

theorem gentle_table : weightTable gentleCost 4 = .ok gentleTable := by
  simp [Prod.ext_iff, weightTable, baseEdges, baseTriangles, widthLoop, widths, spanLoop,
    apexLoop, apexStep, intRange_cons, intRange_nil, weightFunction, gentleCost, gentleTable,
    WeightSet.set, WeightSet.get, WeightSet.empty, DihedralAngleWeight.add,
    DihedralAngleWeight.lt, DihedralAngleWeight.zero, bind, Except.bind, pure, Except.pure]
  norm_num

theorem trace_self_loop {R : Type} [Zero R] (ws : WeightSet R) (i : Int)
    (h : (ws.get (i, i)).1 = i) (fuel : Nat) (indexes : List Int) :
    trace ws fuel i i indexes = .error .outOfFuel := by
  induction fuel generalizing indexes with
  | zero => rfl
  | succ fuel ih =>
    have h1 : ¬ (i + 2 = i) := by omega
    have h2 : i ≠ i + 1 := by omega
    simp only [trace, h1, h, if_false, ne_eq, h2, not_false_eq_true, if_true, ih]
    rfl

theorem trace_no_apex {R : Type} [Zero R] (ws : WeightSet R) (k : Int) (hk : 3 ≤ k)
    (h1 : (ws.get (0, k)).1 = -1) (h2 : (ws.get (0, -1)).1 = 0) (h3 : (ws.get (0, 0)).1 = 0)
    (fuel : Nat) (indexes : List Int) : trace ws fuel 0 k indexes = .error .outOfFuel := by
  have hloop := trace_self_loop ws 0 h3
  have hm : ∀ fuel, trace ws fuel 0 (-1) indexes = .error .outOfFuel := by
    intro fuel
    cases fuel with
    | zero => rfl
    | succ fuel =>
      rw [trace_succ ws fuel 0 (-1) indexes (by decide), h2, if_pos (by decide), hloop]
      rfl
  cases fuel with
  | zero => rfl
  | succ fuel =>
    rw [trace_succ ws fuel 0 k indexes (by omega), h1, if_pos (by decide), hm]
    rfl

theorem steepTable_get_span : (steepTable.get (0, 3)).1 = -1 := by
  simp [Prod.ext_iff, steepTable, WeightSet.get, WeightSet.set]

theorem steepTable_get_absent (k : Int) (hk : k ≤ 0) : (steepTable.get (0, k)).1 = 0 := by
  have h1 : ¬ k = 3 := by omega
  have h2 : ¬ k = 2 := by omega
  have h3 : ¬ k = 1 := by omega
  simp [Prod.ext_iff, steepTable, WeightSet.get, WeightSet.set, WeightSet.empty, h1, h2, h3]

/-- The backtrace on a table that holds the initial pair of the minimisation.  Under `steepCost`,
a cost function under which no candidate total of the span `(0, 3)` is below `(M_PI, DBL_MAX)`,
the apex stored for the span stays `-1`, and the backtrace recurses through `(0, -1)` into
`(0, 0)` for ever. -/
theorem calculateMinimumPatchMesh_steep_diverges (fuel : Nat) (b0 b1 b2 b3 : Int) :
    calculateMinimumPatchMesh steepCost fuel [b0, b1, b2, b3] = .error .outOfFuel := by
  have hn : (([b0, b1, b2, b3] : List Int).length : Int) = 4 := by simp
  have h41 : (4 : Int) - 1 = 3 := by decide
  rw [calculateMinimumPatchMesh, hn, steep_table, h41]
  exact trace_no_apex steepTable 3 (by decide) steepTable_get_span
    (steepTable_get_absent (-1) (by decide)) (steepTable_get_absent 0 (by decide)) fuel []

/-- C5.  For `n >= 3` and a table whose apex for every span `(i, k)` of width at least three
inside `0 .. n - 1` lies strictly between `i` and `k`, the backtrace `trace(0, n - 1)` returns
whenever the fuel is at least `n - 2`; the index array it returns consists of `n - 2` triangles
`(a, b, c)` with `0 <= a < b < c <= n - 1`; every side `(p, p + 1)` and the closing side
`(0, n - 1)` belongs to exactly one triangle; and the other sides that occur are `n - 3` distinct
diagonals, each belonging to exactly two triangles. -/
theorem trace_triangulates {R : Type} [Zero R] (ws : WeightSet R) (n : Int) (fuel : Nat)
    (hn : 3 ≤ n)
    (hO : ∀ i k : Int, 0 ≤ i → i + 3 ≤ k → k ≤ n - 1 →
      i < (ws.get (i, k)).1 ∧ (ws.get (i, k)).1 < k)
    (hfuel : n - 2 ≤ (fuel : Int)) :
    ∃ indexes, trace ws fuel 0 (n - 1) [] = .ok indexes ∧
      (indexes.length : Int) = 3 * (n - 2) ∧
      ((triangles indexes).length : Int) = n - 2 ∧
      (∀ t ∈ triangles indexes, 0 ≤ t.1 ∧ t.1 < t.2.1 ∧ t.2.1 < t.2.2 ∧ t.2.2 ≤ n - 1) ∧
      (∀ p, 0 ≤ p → p ≤ n - 2 → edgeCount (triangles indexes) (p, p + 1) = 1) ∧
      edgeCount (triangles indexes) (0, n - 1) = 1 ∧
      ∃ D : Finset (Int × Int), (D.card : Int) = n - 3 ∧
        (∀ e ∈ D, 0 ≤ e.1 ∧ e.1 + 2 ≤ e.2 ∧ e.2 ≤ n - 1 ∧ e ≠ (0, n - 1) ∧
          edgeCount (triangles indexes) e = 2) ∧
        (∀ e, edgeCount (triangles indexes) e ≠ 0 →
          e.2 = e.1 + 1 ∨ e = (0, n - 1) ∨ e ∈ D) := by
  obtain ⟨ts, hts, hspan⟩ := trace_span ws n hO fuel 0 (n - 1) [] (le_refl _) (by omega)
    (le_refl _) (by omega)
  obtain ⟨D, hcard, hD, hocc, htop⟩ := hspan.diag
  have hlen := hspan.len
  have htopmem : ((0 : Int), n - 1) ∈ D := htop (by omega)
  have hclosing : edgeCount ts (0, n - 1) = 1 := by
    have := (hD _ htopmem).2.2.2
    simp only [closing, if_true] at this
    omega
  refine ⟨flatten ts, by simpa using hts, ?_, ?_, ?_, ?_, ?_, ?_⟩
  · rw [length_flatten]
    push_cast
    omega
  · rw [triangles_flatten]
    omega
  · rw [triangles_flatten]
    intro t ht
    exact hspan.bounds t ht
  · rw [triangles_flatten]
    intro p hp1 hp2
    have h := hspan.unit p hp1 (by omega)
    have hne : ¬ ((p, p + 1) = ((0 : Int), n - 1)) := by
      intro h
      simp only [Prod.mk.injEq] at h
      omega
    simp only [closing, hne, if_false] at h
    omega
  · rw [triangles_flatten]
    exact hclosing
  · rw [triangles_flatten]
    refine ⟨D.erase (0, n - 1), ?_, ?_, ?_⟩
    · rw [Finset.card_erase_of_mem htopmem]
      have : 1 ≤ D.card := Finset.card_pos.mpr ⟨_, htopmem⟩
      push_cast [Nat.cast_sub this]
      omega
    · intro e he
      obtain ⟨hne, hin⟩ := Finset.mem_erase.mp he
      obtain ⟨a, b, c, d⟩ := hD e hin
      simp only [closing, hne, if_false] at d
      exact ⟨a, b, c, hne, by omega⟩
    · intro e he
      rcases hocc e he with h | h
      · exact Or.inl h
      · by_cases hc : e = (0, n - 1)
        · exact Or.inr (Or.inl hc)
        · exact Or.inr (Or.inr (Finset.mem_erase.mpr ⟨hc, h⟩))

/-- Witness for C5: the table of `gentleCost` on four vertices. -/
theorem trace_triangulates_witness :
    ∃ indexes, trace gentleTable 2 0 (4 - 1) [] = .ok indexes ∧
      ((triangles indexes).length : Int) = 4 - 2 := by
  obtain ⟨indexes, h1, _, h2, _⟩ := trace_triangulates gentleTable 4 2 (by decide)
    (by
      intro i k h0 h3 hk
      have hi : i = 0 := by omega
      have hk3 : k = 3 := by omega
      subst hi hk3
      simp [gentleTable, WeightSet.get, WeightSet.set])
    (by decide)
  exact ⟨indexes, h1, h2⟩

/-- C6.  On a boundary of length three on which the evaluation `weightFunction(0, 1, 2)`
succeeds, `calculateMinimumPatchMesh` returns exactly `[0, 1, 2]`, and the main loop visits no
width at all. -/
theorem calculateMinimumPatchMesh_three {R : Type} [LinearOrder R] [Add R] [Zero R]
    (cost : CostModel R) (boundary : HoleBoundary) (fuel : Nat) (w : DihedralAngleWeight R)
    (hn : boundary.length = 3) (hcost : cost.onBoundary 0 1 2 = .ok w) :
    calculateMinimumPatchMesh cost (fuel + 1) boundary = .ok [0, 1, 2] ∧
      widths (boundary.length : Int) = [] := by
  constructor
  · simp [calculateMinimumPatchMesh, hn, weightTable, baseEdges, baseTriangles, widthLoop,
      widths, intRange_cons, intRange_nil, weightFunction, hcost, bind, Except.bind, pure,
      Except.pure, trace]
  · rw [hn]
    exact intRange_nil (by decide)

/-- Witness for C6: the boundary `[5, 6, 7]` under `gentleCost`. -/
theorem calculateMinimumPatchMesh_three_witness :
    calculateMinimumPatchMesh gentleCost 1 [5, 6, 7] = .ok [0, 1, 2] ∧
      widths (([5, 6, 7] : HoleBoundary).length : Int) = [] :=
  calculateMinimumPatchMesh_three gentleCost [5, 6, 7] 0 ⟨1 / 4, 1⟩ rfl rfl

/-! ## The map of boundary edges -/

theorem EdgeMap.lookup_some {m : EdgeMap} {key : Int} {p : Int × Int}
    (h : m.lookup key = some p) : p ∈ m ∧ p.1 = key := by
  unfold EdgeMap.lookup at h
  refine ⟨List.mem_of_find?_eq_some h, ?_⟩
  have := List.find?_some h
  simpa using this

theorem EdgeMap.lookup_none {m : EdgeMap} {key : Int} :
    m.lookup key = none ↔ key ∉ m.keys := by
  unfold EdgeMap.lookup EdgeMap.keys
  simp only [List.find?_eq_none, beq_iff_eq, List.mem_map, not_exists, not_and]

theorem EdgeMap.keys_eraseKey (m : EdgeMap) (key : Int) :
    (m.eraseKey key).keys = m.keys.filter (fun k => k != key) := by
  unfold EdgeMap.eraseKey EdgeMap.keys
  rw [List.filter_map]
  rfl

theorem EdgeMap.mem_eraseKey {m : EdgeMap} {key : Int} {p : Int × Int} :
    p ∈ m.eraseKey key ↔ p ∈ m ∧ p.1 ≠ key := by
  simp [EdgeMap.eraseKey]

theorem EdgeMap.nodup_eraseKey {m : EdgeMap} (key : Int) (h : m.keys.Nodup) :
    (m.eraseKey key).keys.Nodup := by
  rw [EdgeMap.keys_eraseKey]
  exact h.filter _

theorem EdgeMap.perm_eraseKey {m : EdgeMap} {key : Int} (h : m.keys.Nodup)
    (hk : key ∈ m.keys) : (key :: (m.eraseKey key).keys).Perm m.keys := by
  rw [EdgeMap.keys_eraseKey, ← h.erase_eq_filter]
  exact (List.perm_cons_erase hk).symm

theorem EdgeMap.mem_keys_of_mem {m : EdgeMap} {p : Int × Int} (h : p ∈ m) : p.1 ∈ m.keys :=
  List.mem_map_of_mem _ h

/-- What the chain following removes from the map is what it appends to the hole. -/
theorem followChain_perm (fuel : Nat) : ∀ (m : EdgeMap) (oldIt : Int × Int)
    (currentIt : Option (Int × Int)) (hole : HoleBoundary) (res : EdgeMap × HoleBoundary),
    oldIt ∈ m → m.keys.Nodup → (∀ c, currentIt = some c → c ∈ m) →
    followChain fuel m oldIt currentIt hole = .ok res →
    res.1.keys.Nodup ∧
      ∃ chain, res.2 = hole ++ chain ∧ (oldIt.1 :: chain ++ res.1.keys).Perm m.keys := by
  induction fuel with
  | zero =>
    intro m oldIt currentIt hole res hold hnd hcur h
    cases currentIt with
    | none =>
      simp only [followChain, Except.ok.injEq] at h
      subst h
      exact ⟨EdgeMap.nodup_eraseKey _ hnd, [], by simp,
        EdgeMap.perm_eraseKey hnd (EdgeMap.mem_keys_of_mem hold)⟩
    | some c => simp [followChain] at h
  | succ fuel ih =>
    intro m oldIt currentIt hole res hold hnd hcur h
    cases currentIt with
    | none =>
      simp only [followChain, Except.ok.injEq] at h
      subst h
      exact ⟨EdgeMap.nodup_eraseKey _ hnd, [], by simp,
        EdgeMap.perm_eraseKey hnd (EdgeMap.mem_keys_of_mem hold)⟩
    | some c =>
      simp only [followChain] at h
      by_cases hc : c.1 = oldIt.1
      · simp [hc] at h
      · simp only [hc, if_false] at h
        have hcm : c ∈ m.eraseKey oldIt.1 := EdgeMap.mem_eraseKey.mpr ⟨hcur c rfl, hc⟩
        obtain ⟨hnd1, chain, h1, h2⟩ := ih (m.eraseKey oldIt.1) c _ _ res hcm
          (EdgeMap.nodup_eraseKey _ hnd) (fun c1 hc1 => (EdgeMap.lookup_some hc1).1) h
        refine ⟨hnd1, c.1 :: chain, by simp [h1], ?_⟩
        have h3 := EdgeMap.perm_eraseKey hnd (EdgeMap.mem_keys_of_mem hold)
        exact (List.Perm.cons _ h2).trans h3

/-- The loops appended by the connectivity pass are, taken together, the keys of the map. -/
theorem connectivity_perm (fuel : Nat) : ∀ (m : EdgeMap) (boundaries res : List HoleBoundary),
    m.keys.Nodup → connectivity fuel m boundaries = .ok res →
    ∃ loops, res = boundaries ++ loops ∧ loops.flatten.Perm m.keys := by
  induction fuel with
  | zero =>
    intro m boundaries res hnd h
    cases m with
    | nil =>
      simp only [connectivity, Except.ok.injEq] at h
      exact ⟨[], by simp [h], by simp [EdgeMap.keys]⟩
    | cons p rest => simp [connectivity] at h
  | succ fuel ih =>
    intro m boundaries res hnd h
    cases m with
    | nil =>
      simp only [connectivity, Except.ok.injEq] at h
      exact ⟨[], by simp [h], by simp [EdgeMap.keys]⟩
    | cons p rest =>
      simp only [connectivity, bind, Except.bind] at h
      cases hf : followChain fuel (p :: rest) p (EdgeMap.lookup (p :: rest) p.2) [p.1] with
      | error e => rw [hf] at h; cases h
      | ok r =>
        rw [hf] at h
        obtain ⟨hnd1, chain, h1, h2⟩ := followChain_perm fuel (p :: rest) p _ _ r
          (List.mem_cons_self _ _) hnd (fun c hc => (EdgeMap.lookup_some hc).1) hf
        obtain ⟨loops, h3, h4⟩ := ih r.1 _ res hnd1 h
        refine ⟨r.2.reverse :: loops, by simp [h3], ?_⟩
        simp only [List.flatten_cons]
        rw [h1]
        refine List.Perm.trans ?_ h2
        refine List.Perm.trans (List.Perm.append (List.reverse_perm _) h4) ?_
        simp

theorem EdgeMap.hasKey_iff {m : EdgeMap} {key : Int} : m.hasKey key = true ↔ key ∈ m.keys := by
  simp [EdgeMap.hasKey, EdgeMap.keys]

theorem EdgeMap.mem_assign {m : EdgeMap} {key value : Int} (h : key ∉ m.keys)
    (p : Int × Int) : p ∈ m.assign key value ↔ p = (key, value) ∨ p ∈ m := by
  induction m with
  | nil => simp [EdgeMap.assign]
  | cons q rest ih =>
    have hq : key ≠ q.1 := by
      intro hk
      apply h
      simp [EdgeMap.keys, hk]
    have hrest : key ∉ EdgeMap.keys rest := by
      intro hk
      apply h
      simp only [EdgeMap.keys, List.map_cons, List.mem_cons]
      exact Or.inr hk
    unfold EdgeMap.assign
    by_cases hlt : key < q.1
    · simp [hlt]
    · simp only [hlt, if_false, hq, List.mem_cons, ih hrest]
      tauto

theorem EdgeMap.keys_assign {m : EdgeMap} {key value : Int} (h : key ∉ m.keys) :
    (m.assign key value).keys.Perm (key :: m.keys) := by
  induction m with
  | nil => simp [EdgeMap.assign, EdgeMap.keys]
  | cons q rest ih =>
    have hq : key ≠ q.1 := by
      intro hk
      apply h
      simp [EdgeMap.keys, hk]
    have hrest : key ∉ EdgeMap.keys rest := by
      intro hk
      apply h
      simp only [EdgeMap.keys, List.map_cons, List.mem_cons]
      exact Or.inr hk
    unfold EdgeMap.assign
    by_cases hlt : key < q.1
    · simp [hlt, EdgeMap.keys]
    · simp only [hlt, if_false, hq]
      have h1 := ih hrest
      simp only [EdgeMap.keys, List.map_cons] at h1 ⊢
      exact (List.Perm.cons _ h1).trans (List.Perm.swap _ _ _)

theorem EdgeMap.nodup_assign {m : EdgeMap} {key value : Int} (h : key ∉ m.keys)
    (hnd : m.keys.Nodup) : (m.assign key value).keys.Nodup :=
  (EdgeMap.keys_assign h).nodup_iff.mpr (List.nodup_cons.mpr ⟨h, hnd⟩)

/-! ## The traversal: what holds of every run that returns -/

theorem processCorner_nodup {ct : CornerTable} {st st1 : Traversal} {corner : Int}
    (h : processCorner ct st corner = .ok st1) (hnd : st.boundaryEdges.keys.Nodup) :
    st1.boundaryEdges.keys.Nodup := by
  unfold processCorner at h
  by_cases hb : ct.cornerOpposite corner = BORDER_CORNER
  · simp only [hb, if_true] at h
    by_cases hk : st.boundaryEdges.hasKey (ct.cornerToVertexIndex (cornerNext corner)) = true
    · simp [hk] at h
    · simp only [hk, Bool.false_eq_true, if_false, Except.ok.injEq] at h
      rw [← h]
      exact EdgeMap.nodup_assign (fun hm => hk (EdgeMap.hasKey_iff.mpr hm)) hnd
  · simp only [hb, if_false, Except.ok.injEq] at h
    rw [← h]
    exact hnd

theorem bfs_nodup (ct : CornerTable) (fuel : Nat) : ∀ (st st1 : Traversal),
    bfs ct fuel st = .ok st1 → st.boundaryEdges.keys.Nodup → st1.boundaryEdges.keys.Nodup := by
  induction fuel with
  | zero =>
    intro st st1 h hnd
    unfold bfs at h
    split at h
    · simp only [Except.ok.injEq] at h
      rw [← h]
      exact hnd
    · cases h
  | succ fuel ih =>
    intro st st1 h hnd
    unfold bfs at h
    split at h
    · simp only [Except.ok.injEq] at h
      rw [← h]
      exact hnd
    · rename_i t rest hq
      simp only at h
      split at h
      · cases h
      · split at h
        · exact ih _ _ h hnd
        · simp only [bind, Except.bind] at h
          split at h
          · cases h
          · rename_i s1 h1
            split at h
            · cases h
            · rename_i s2 h2
              split at h
              · cases h
              · rename_i s3 h3
                exact ih _ _ h (processCorner_nodup h3 (processCorner_nodup h2
                  (processCorner_nodup h1 hnd)))

theorem traverse_nodup {ct : CornerTable} {fuel : Nat} {m : EdgeMap}
    (h : traverse ct fuel = .ok m) : m.keys.Nodup := by
  unfold traverse at h
  simp only [bind, Except.bind] at h
  split at h
  · cases h
  · rename_i st hst
    split at h
    · simp only [Except.ok.injEq] at h
      rw [← h]
      exact bfs_nodup ct fuel _ _ hst (by simp [EdgeMap.keys])
    · cases h

/-- C2.  Whenever `calculateHoleBoundaries` completes, the loops it appends to `_boundaries`
cover the boundary edges recorded by the traversal exactly once: their concatenation has no
repeated vertex and is a permutation of the origin vertices (the keys) of the map
`boundaryEdges`, so every origin occurs exactly once in exactly one loop.  (The hypothesis that
triangles have distinct vertices is what allows the run to complete; the statement needs no more
than completion.) -/
theorem calculateHoleBoundaries_covers (ct : CornerTable) (fuel : Nat)
    (boundaries res : List HoleBoundary)
    (h : calculateHoleBoundaries ct fuel boundaries = .ok res) :
    ∃ m loops, traverse ct fuel = .ok m ∧ res = boundaries ++ loops ∧
      loops.flatten.Perm m.keys ∧ loops.flatten.Nodup ∧
      ∀ key ∈ m.keys, loops.flatten.count key = 1 := by
  unfold calculateHoleBoundaries at h
  simp only [bind, Except.bind] at h
  split at h
  · cases h
  · rename_i m hm
    have hnd := traverse_nodup hm
    obtain ⟨loops, h1, h2⟩ := connectivity_perm fuel m boundaries res hnd h
    have hnd2 : loops.flatten.Nodup := h2.nodup_iff.mpr hnd
    refine ⟨m, loops, hm, h1, h2, hnd2, ?_⟩
    intro key hkey
    exact List.count_eq_one_of_mem hnd2 (h2.mem_iff.mpr hkey)

/-- Witness for C2: two triangles glued along one edge. -/
theorem calculateHoleBoundaries_covers_witness :
    ∃ m loops, traverse twoGlued 10 = .ok m ∧ [[2, 3, 1, 0]] = [] ++ loops ∧
      loops.flatten.Perm m.keys ∧ loops.flatten.Nodup ∧
      ∀ key ∈ m.keys, loops.flatten.count key = 1 :=
  calculateHoleBoundaries_covers twoGlued 10 [] [[2, 3, 1, 0]] (by decide)

/-! ## The traversal: completion on a connected mesh -/

theorem processed_succ {visited : List Bool} {t s : Int} (hv : visitedAt visited t)
    (hs0 : 0 ≤ s) (hs1 : s < 3) (c : Int) : processed visited t (s + 1) c ↔ processed visited t s c ∨ c = 3 * t + s := by
  unfold processed
  constructor
  · rintro ⟨h1, h2⟩
    by_cases hc : c / 3 = t
    · have := h2 hc
      by_cases hs : c % 3 < s
      · exact Or.inl ⟨h1, fun _ => hs⟩
      · right
        omega
    · exact Or.inl ⟨h1, fun h => absurd h hc⟩
  · rintro (⟨h1, h2⟩ | rfl)
    · exact ⟨h1, fun h => by have := h2 h; omega⟩
    · have h3 : (3 * t + s) / 3 = t := by omega
      rw [h3]
      exact ⟨hv, fun _ => by omega⟩

theorem processCorner_step {ct : CornerTable} (hct : Traversable ct) {st : Traversal}
    {t s : Int} (hinv : BfsInv ct st t s) (ht0 : 0 ≤ t) (ht1 : t < (ct.getNumTriangles : Int))
    (hs0 : 0 ≤ s) (hs1 : s < 3) (hv : visitedAt st.visitedTriangles t) :
    ∃ st1, processCorner ct st (3 * t + s) = .ok st1 ∧ BfsInv ct st1 t (s + 1) ∧
      st1.visitedTriangles = st.visitedTriangles ∧
      st1.bufferedTriangles.length ≤ st.bufferedTriangles.length + 1 := by
  have hc0 : 0 ≤ 3 * t + s := by omega
  have hc1 : 3 * t + s < 3 * (ct.getNumTriangles : Int) := by omega
  have hnotproc : ¬ processed st.visitedTriangles t s (3 * t + s) := by
    rintro ⟨_, h⟩
    have := h (by omega)
    omega
  unfold processCorner
  by_cases hb : ct.cornerOpposite (3 * t + s) = BORDER_CORNER
  · simp only [hb, if_true]
    have hkey : ct.cornerToVertexIndex (cornerNext (3 * t + s)) ∉ st.boundaryEdges.keys := by
      intro hmem
      obtain ⟨p, hp, hp1⟩ := List.mem_map.mp hmem
      obtain ⟨c, a1, a2, a3, a4, a5⟩ := (hinv.edges p).mp hp
      have := hct.origins c (3 * t + s) a1 a2 hc0 hc1 a4 hb (by rw [a5]; exact hp1)
      exact hnotproc (this ▸ a3)
    have hk : ¬ st.boundaryEdges.hasKey (ct.cornerToVertexIndex (cornerNext (3 * t + s))) = true :=
      fun h => hkey (EdgeMap.hasKey_iff.mp h)
    simp only [hk, Bool.false_eq_true, if_false]
    refine ⟨_, rfl, ⟨hinv.len, hinv.queue, ?_, hinv.start, ?_, ?_⟩, rfl, by simp⟩
    · intro c a1 a2 a3 a4
      rcases (processed_succ hv hs0 hs1 c).mp a3 with h | rfl
      · exact hinv.closed c a1 a2 h a4
      · exact absurd hb a4
    · intro p
      simp only
      rw [EdgeMap.mem_assign hkey]
      constructor
      · rintro (rfl | hp)
        · exact ⟨3 * t + s, hc0, hc1, (processed_succ hv hs0 hs1 _).mpr (Or.inr rfl), hb, rfl⟩
        · obtain ⟨c, a1, a2, a3, a4, a5⟩ := (hinv.edges p).mp hp
          exact ⟨c, a1, a2, (processed_succ hv hs0 hs1 c).mpr (Or.inl a3), a4, a5⟩
      · rintro ⟨c, a1, a2, a3, a4, a5⟩
        rcases (processed_succ hv hs0 hs1 c).mp a3 with h | rfl
        · exact Or.inr ((hinv.edges p).mpr ⟨c, a1, a2, h, a4, a5⟩)
        · exact Or.inl a5.symm
    · exact EdgeMap.nodup_assign hkey hinv.nodup
  · simp only [hb, if_false]
    have hin := (hct.opposite (3 * t + s) hc0 hc1).resolve_left hb
    refine ⟨_, rfl, ⟨hinv.len, ?_, ?_, ?_, ?_, hinv.nodup⟩, rfl, by simp⟩
    · intro x hx
      simp only [List.mem_append, List.mem_singleton] at hx
      rcases hx with hx | rfl
      · exact hinv.queue x hx
      · unfold cornerTriangle
        omega
    · intro c a1 a2 a3 a4
      simp only [List.mem_append, List.mem_singleton]
      rcases (processed_succ hv hs0 hs1 c).mp a3 with h | rfl
      · rcases hinv.closed c a1 a2 h a4 with h1 | h1
        · exact Or.inl h1
        · exact Or.inr (Or.inl h1)
      · exact Or.inr (Or.inr rfl)
    · rcases hinv.start with h | h
      · exact Or.inl h
      · exact Or.inr (List.mem_append_left _ h)
    · intro p
      simp only
      rw [hinv.edges p]
      constructor
      · rintro ⟨c, a1, a2, a3, a4, a5⟩
        exact ⟨c, a1, a2, (processed_succ hv hs0 hs1 c).mpr (Or.inl a3), a4, a5⟩
      · rintro ⟨c, a1, a2, a3, a4, a5⟩
        rcases (processed_succ hv hs0 hs1 c).mp a3 with h | rfl
        · exact ⟨c, a1, a2, h, a4, a5⟩
        · exact absurd a4 hb

theorem bfs_nil (ct : CornerTable) (fuel : Nat) (st : Traversal)
    (h : st.bufferedTriangles = []) : bfs ct fuel st = .ok st := by
  unfold bfs
  simp only [h]

theorem bfs_cons (ct : CornerTable) (fuel : Nat) (st : Traversal) (t : Int) (rest : List Int)
    (h : st.bufferedTriangles = t :: rest) :
    bfs ct (fuel + 1) st =
      if t < 0 ∨ (st.visitedTriangles.length : Int) ≤ t then .error .outOfRange
      else if st.visitedTriangles.getD t.toNat false then
        bfs ct fuel { st with bufferedTriangles := rest }
      else
        (processCorner ct
          { st with
            bufferedTriangles := rest
            visitedTriangles := st.visitedTriangles.set t.toNat true } (3 * t)) >>= fun s1 =>
        (processCorner ct s1 (3 * t + 1)) >>= fun s2 =>
        (processCorner ct s2 (3 * t + 2)) >>= fun s3 => bfs ct fuel s3 := by
  rw [bfs]
  simp only [h]

theorem visitedAt_set {visited : List Bool} {t x : Int} (ht0 : 0 ≤ t)
    (ht1 : t < (visited.length : Int)) (hx : 0 ≤ x) :
    visitedAt (visited.set t.toNat true) x ↔ x = t ∨ visitedAt visited x := by
  unfold visitedAt
  rw [List.getD_eq_getElem?_getD, List.getD_eq_getElem?_getD, List.getElem?_set]
  by_cases hxt : x = t
  · subst hxt
    have : x.toNat < visited.length := by omega
    simp [this]
  · have : ¬ t.toNat = x.toNat := by omega
    simp [this, hxt]

theorem count_false_set {visited : List Bool} {i : Nat} (hi : i < visited.length)
    (h : visited.getD i false = false) :
    (visited.set i true).count false + 1 = visited.count false := by
  induction visited generalizing i with
  | nil => simp at hi
  | cons b rest ih =>
    cases i with
    | zero =>
      simp only [List.getD_cons_zero] at h
      subst h
      simp
    | succ i =>
      simp only [List.getD_cons_succ] at h
      simp only [List.length_cons, Nat.add_lt_add_iff_right] at hi
      have := ih hi h
      simp only [List.set_cons_succ, List.count_cons]
      omega

theorem BfsInv.retarget {ct : CornerTable} {st : Traversal} {t : Int} (u : Int)
    (h : BfsInv ct st t 3) : BfsInv ct st u 3 := by
  have hp : ∀ c, processed st.visitedTriangles u 3 c ↔ processed st.visitedTriangles t 3 c := by
    intro c
    unfold processed
    constructor <;> rintro ⟨h1, _⟩ <;> exact ⟨h1, fun _ => by omega⟩
  refine ⟨h.len, h.queue, ?_, h.start, ?_, h.nodup⟩
  · intro c a1 a2 a3 a4
    exact h.closed c a1 a2 ((hp c).mp a3) a4
  · intro p
    rw [h.edges p]
    constructor <;> rintro ⟨c, a1, a2, a3, a4, a5⟩
    · exact ⟨c, a1, a2, (hp c).mpr a3, a4, a5⟩
    · exact ⟨c, a1, a2, (hp c).mp a3, a4, a5⟩

theorem BfsInv.pop_visited {ct : CornerTable} {st : Traversal} {t : Int}
    {rest : List Int} (h : BfsInv ct st 0 3) (hq : st.bufferedTriangles = t :: rest)
    (hv : visitedAt st.visitedTriangles t) :
    BfsInv ct { st with bufferedTriangles := rest } 0 3 := by
  refine ⟨h.len, ?_, ?_, ?_, h.edges, h.nodup⟩
  · intro x hx
    exact h.queue x (by rw [hq]; exact List.mem_cons_of_mem _ hx)
  · intro c a1 a2 a3 a4
    rcases h.closed c a1 a2 a3 a4 with h1 | h1
    · exact Or.inl h1
    · rw [hq] at h1
      rcases List.mem_cons.mp h1 with h2 | h2
      · exact Or.inl (h2 ▸ hv)
      · exact Or.inr h2
  · rcases h.start with h1 | h1
    · exact Or.inl h1
    · rw [hq] at h1
      rcases List.mem_cons.mp h1 with h2 | h2
      · exact Or.inl (h2 ▸ hv)
      · exact Or.inr h2

theorem BfsInv.pop_fresh {ct : CornerTable} (hct : Traversable ct) {st : Traversal} {t : Int}
    {rest : List Int} (h : BfsInv ct st 0 3) (hq : st.bufferedTriangles = t :: rest)
    (ht0 : 0 ≤ t) (ht1 : t < (ct.getNumTriangles : Int))
    (hv : ¬ visitedAt st.visitedTriangles t) :
    BfsInv ct
      { st with
        bufferedTriangles := rest
        visitedTriangles := st.visitedTriangles.set t.toNat true } t 0 := by
  have hlen : t < (st.visitedTriangles.length : Int) := by rw [h.len]; exact ht1
  have hmono : ∀ x, 0 ≤ x → visitedAt st.visitedTriangles x →
      visitedAt (st.visitedTriangles.set t.toNat true) x :=
    fun x hx hvx => (visitedAt_set ht0 hlen hx).mpr (Or.inr hvx)
  have hself : visitedAt (st.visitedTriangles.set t.toNat true) t :=
    (visitedAt_set ht0 hlen ht0).mpr (Or.inl rfl)
  have hp : ∀ c, 0 ≤ c → (processed (st.visitedTriangles.set t.toNat true) t 0 c ↔
      processed st.visitedTriangles 0 3 c) := by
    intro c hc
    unfold processed
    constructor
    · rintro ⟨h1, h2⟩
      have hne : c / 3 ≠ t := fun he => by have := h2 he; omega
      rcases (visitedAt_set ht0 hlen (by omega)).mp h1 with h3 | h3
      · exact absurd h3 hne
      · exact ⟨h3, fun _ => by omega⟩
    · rintro ⟨h1, _⟩
      have hne : c / 3 ≠ t := fun he => hv (he ▸ h1)
      exact ⟨hmono _ (by omega) h1, fun he => absurd he hne⟩
  refine ⟨by simp [h.len], ?_, ?_, ?_, ?_, h.nodup⟩
  · intro x hx
    exact h.queue x (by rw [hq]; exact List.mem_cons_of_mem _ hx)
  · intro c a1 a2 a3 a4
    have hin := (hct.opposite c a1 a2).resolve_left a4
    have hnn : 0 ≤ cornerTriangle (ct.cornerOpposite c) := by
      unfold cornerTriangle
      omega
    rcases h.closed c a1 a2 ((hp c a1).mp a3) a4 with h1 | h1
    · exact Or.inl (hmono _ hnn h1)
    · rw [hq] at h1
      rcases List.mem_cons.mp h1 with h2 | h2
      · exact Or.inl (h2 ▸ hself)
      · exact Or.inr h2
  · rcases h.start with h1 | h1
    · exact Or.inl (hmono 0 (le_refl _) h1)
    · rw [hq] at h1
      rcases List.mem_cons.mp h1 with h2 | h2
      · exact Or.inl (h2 ▸ hself)
      · exact Or.inr h2
  · intro p
    simp only
    rw [h.edges p]
    constructor <;> rintro ⟨c, a1, a2, a3, a4, a5⟩
    · exact ⟨c, a1, a2, (hp c a1).mpr a3, a4, a5⟩
    · exact ⟨c, a1, a2, (hp c a1).mp a3, a4, a5⟩

/-- With fuel for three steps per unvisited triangle and one per buffered triangle, the loop of
the traversal returns, with the invariant and an empty buffer. -/
theorem bfs_complete {ct : CornerTable} (hct : Traversable ct) (fuel : Nat) :
    ∀ st : Traversal, BfsInv ct st 0 3 →
      3 * st.visitedTriangles.count false + st.bufferedTriangles.length ≤ fuel →
      ∃ st1, bfs ct fuel st = .ok st1 ∧ BfsInv ct st1 0 3 ∧ st1.bufferedTriangles = [] := by
  induction fuel with
  | zero =>
    intro st hinv hm
    have hq : st.bufferedTriangles = [] := by
      apply List.eq_nil_of_length_eq_zero
      omega
    exact ⟨st, bfs_nil ct 0 st hq, hinv, hq⟩
  | succ fuel ih =>
    intro st hinv hm
    cases hq : st.bufferedTriangles with
    | nil => exact ⟨st, bfs_nil ct _ st hq, hinv, hq⟩
    | cons t rest =>
      have hlen : st.bufferedTriangles.length = rest.length + 1 := by rw [hq]; rfl
      obtain ⟨ht0, ht1⟩ := hinv.queue t (by rw [hq]; exact List.mem_cons_self _ _)
      have hrange : ¬ (t < 0 ∨ (st.visitedTriangles.length : Int) ≤ t) := by
        rw [hinv.len]
        omega
      rw [bfs_cons ct fuel st t rest hq, if_neg hrange]
      by_cases hv : st.visitedTriangles.getD t.toNat false = true
      · rw [if_pos hv]
        exact ih _ (hinv.pop_visited hq hv) (by simp only; omega)
      · rw [if_neg hv]
        have hf : st.visitedTriangles.getD t.toNat false = false := by
          simpa using hv
        have hi : t.toNat < st.visitedTriangles.length := by
          rw [hinv.len]
          omega
        have hcount := count_false_set hi hf
        have inv0 := hinv.pop_fresh hct hq ht0 ht1 hv
        have hself : visitedAt (st.visitedTriangles.set t.toNat true) t :=
          (visitedAt_set ht0 (by rw [hinv.len]; exact ht1) ht0).mpr (Or.inl rfl)
        obtain ⟨s1, e1, inv1, v1, q1⟩ :=
          processCorner_step hct inv0 ht0 ht1 (le_refl 0) (by decide) hself
        rw [add_zero] at e1
        rw [show (0 : Int) + 1 = 1 from rfl] at inv1
        obtain ⟨s2, e2, inv2, v2, q2⟩ :=
          processCorner_step hct inv1 ht0 ht1 (by decide) (by decide) (v1 ▸ hself)
        rw [show (1 : Int) + 1 = 2 from rfl] at inv2
        obtain ⟨s3, e3, inv3, v3, q3⟩ :=
          processCorner_step hct inv2 ht0 ht1 (by decide) (by decide) (v2 ▸ v1 ▸ hself)
        rw [show (2 : Int) + 1 = 3 from rfl] at inv3
        rw [e1]
        simp only [bind, Except.bind]
        rw [e2]
        simp only
        rw [e3]
        simp only
        apply ih s3 (inv3.retarget 0)
        rw [v3, v2, v1]
        simp only at q1 hcount ⊢
        omega

theorem reachable_visited {ct : CornerTable} (hct : Traversable ct) {st : Traversal}
    (hinv : BfsInv ct st 0 3) (hq : st.bufferedTriangles = []) (t : Int)
    (h : Reachable ct t) :
    0 ≤ t ∧ t < (ct.getNumTriangles : Int) ∧ visitedAt st.visitedTriangles t := by
  induction h with
  | start =>
    have h0 : cornerTriangle 0 = 0 := by decide
    rw [h0]
    have := hct.nonempty
    refine ⟨le_refl _, by omega, ?_⟩
    rcases hinv.start with h1 | h1
    · exact h1
    · rw [hq] at h1
      cases h1
  | step t s _ hs0 hs1 hb ih =>
    obtain ⟨a1, a2, a3⟩ := ih
    have hc0 : 0 ≤ 3 * t + s := by omega
    have hc1 : 3 * t + s < 3 * (ct.getNumTriangles : Int) := by omega
    have hin := (hct.opposite _ hc0 hc1).resolve_left hb
    have hproc : processed st.visitedTriangles 0 3 (3 * t + s) := by
      refine ⟨?_, fun _ => by omega⟩
      have : (3 * t + s) / 3 = t := by omega
      rw [this]
      exact a3
    refine ⟨by unfold cornerTriangle; omega, by unfold cornerTriangle; omega, ?_⟩
    rcases hinv.closed _ hc0 hc1 hproc hb with h1 | h1
    · exact h1
    · rw [hq] at h1
      cases h1

theorem mem_borderEdges {ct : CornerTable} {p : Int × Int} :
    p ∈ borderEdges ct ↔ ∃ c, 0 ≤ c ∧ c < 3 * (ct.getNumTriangles : Int) ∧
      ct.cornerOpposite c = BORDER_CORNER ∧ edgeAt ct c = p := by
  unfold borderEdges borderCorners
  simp only [List.mem_map, List.mem_filter, mem_intRange, decide_eq_true_eq]
  constructor
  · rintro ⟨c, ⟨⟨a1, a2⟩, a3⟩, a4⟩
    exact ⟨c, a1, by omega, a3, a4⟩
  · rintro ⟨c, a1, a2, a3, a4⟩
    exact ⟨c, ⟨⟨a1, by omega⟩, a3⟩, a4⟩

/-- On a corner table fit for the traversal, with fuel `3T + 1` the first half of
`calculateHoleBoundaries` returns, and the map it yields holds exactly the boundary edges of the
mesh, one entry per origin vertex. -/
theorem traverse_complete {ct : CornerTable} (hct : Traversable ct) (fuel : Nat)
    (hfuel : 3 * ct.getNumTriangles + 1 ≤ fuel) :
    ∃ m, traverse ct fuel = .ok m ∧ m.keys.Nodup ∧ ∀ p, p ∈ m ↔ p ∈ borderEdges ct := by
  have hT := hct.nonempty
  have h0 : cornerTriangle 0 = 0 := by decide
  have hnv : ∀ x, ¬ visitedAt (List.replicate ct.getNumTriangles false) x := by
    intro x
    unfold visitedAt
    rw [List.getD_eq_getElem?_getD, List.getElem?_replicate]
    split <;> simp
  have hinit : BfsInv ct ⟨[], List.replicate ct.getNumTriangles false, [cornerTriangle 0]⟩ 0 3 := by
    refine ⟨by simp, ?_, ?_, ?_, ?_, by simp [EdgeMap.keys]⟩
    · intro x hx
      simp only [List.mem_singleton] at hx
      rw [hx, h0]
      omega
    · intro c _ _ a3 _
      exact absurd a3.1 (hnv _)
    · right
      simp [h0]
    · intro p
      simp only [List.not_mem_nil, false_iff, not_exists, not_and]
      intro c _ _ a3
      exact absurd a3.1 (hnv _)
  obtain ⟨st1, hbfs, hinv, hq⟩ := bfs_complete hct fuel _ hinit (by
    simp only [List.count_replicate_self, List.length_singleton]
    omega)
  have hall : st1.visitedTriangles.all id = true := by
    rw [List.all_eq_true]
    intro x hx
    obtain ⟨i, hi, hxi⟩ := List.getElem_of_mem hx
    have hlen := hinv.len
    have := (reachable_visited hct hinv hq (i : Int)
      (hct.reach (i : Int) (by omega) (by omega))).2.2
    unfold visitedAt at this
    rw [List.getD_eq_getElem?_getD] at this
    simp only [Int.toNat_ofNat, List.getElem?_eq_getElem hi, Option.getD_some] at this
    rw [← hxi, this]
    rfl
  refine ⟨st1.boundaryEdges, ?_, hinv.nodup, ?_⟩
  · unfold traverse
    simp only [bind, Except.bind]
    rw [hbfs]
    simp only [hall, if_true]
  · intro p
    rw [hinv.edges p, mem_borderEdges]
    constructor
    · rintro ⟨c, a1, a2, _, a4, a5⟩
      exact ⟨c, a1, a2, a4, a5⟩
    · rintro ⟨c, a1, a2, a4, a5⟩
      have hr := (reachable_visited hct hinv hq (c / 3)
        (hct.reach (c / 3) (by omega) (by omega))).2.2
      exact ⟨c, a1, a2, ⟨hr, fun _ => by omega⟩, a4, a5⟩

/-- More fuel does not change a run of the traversal loop that has returned. -/
theorem bfs_mono (ct : CornerTable) (fuel k : Nat) : ∀ (st st1 : Traversal),
    bfs ct fuel st = .ok st1 → bfs ct (fuel + k) st = .ok st1 := by
  induction fuel with
  | zero =>
    intro st st1 h
    cases hq : st.bufferedTriangles with
    | nil =>
      rw [bfs_nil ct _ st hq] at h ⊢
      exact h
    | cons t rest =>
      rw [bfs] at h
      simp [hq] at h
  | succ fuel ih =>
    intro st st1 h
    cases hq : st.bufferedTriangles with
    | nil =>
      rw [bfs_nil ct _ st hq] at h ⊢
      exact h
    | cons t rest =>
      have hk : fuel + 1 + k = (fuel + k) + 1 := by omega
      rw [hk, bfs_cons ct _ st t rest hq]
      rw [bfs_cons ct _ st t rest hq] at h
      split at h
      · cases h
      · rename_i hr
        rw [if_neg hr]
        split at h
        · rename_i hv
          rw [if_pos hv]
          exact ih _ _ h
        · rename_i hv
          rw [if_neg hv]
          simp only [bind, Except.bind] at h ⊢
          generalize processCorner ct _ (3 * t) = r1 at h ⊢
          cases r1 with
          | error e => cases h
          | ok s1 =>
            simp only at h ⊢
            generalize processCorner ct s1 (3 * t + 1) = r2 at h ⊢
            cases r2 with
            | error e => cases h
            | ok s2 =>
              simp only at h ⊢
              generalize processCorner ct s2 (3 * t + 2) = r3 at h ⊢
              cases r3 with
              | error e => cases h
              | ok s3 => exact ih _ _ h

/-- When the traversal loop returns on some fuel leaving a triangle unvisited,
`calculateHoleBoundaries` returns on no fuel at all. -/
theorem calculateHoleBoundaries_unvisited (ct : CornerTable) (fuel0 : Nat) (st0 : Traversal)
    (h0 : bfs ct fuel0 ⟨[], List.replicate ct.getNumTriangles false, [cornerTriangle 0]⟩
      = .ok st0)
    (hall : st0.visitedTriangles.all id = false) (fuel : Nat)
    (boundaries res : List HoleBoundary) :
    calculateHoleBoundaries ct fuel boundaries ≠ .ok res := by
  intro h
  unfold calculateHoleBoundaries traverse at h
  simp only [bind, Except.bind] at h
  split at h
  · cases h
  · rename_i m hm
    split at hm
    · cases hm
    · rename_i st hst
      have e1 := bfs_mono ct fuel fuel0 _ _ hst
      have e2 := bfs_mono ct fuel0 fuel _ _ h0
      rw [Nat.add_comm] at e2
      rw [e1] at e2
      simp only [Except.ok.injEq] at e2
      rw [e2, hall] at hm
      simp at hm

/-- C7 (as stated, refuted).  In `twoPillows` no corner has `BORDER_CORNER` as its opposite, yet
`calculateHoleBoundaries` never returns a list of boundaries: the traversal started at corner 0
does not reach the second surface and the assertion on `visitedTriangles` fails. -/
theorem calculateHoleBoundaries_twoPillows :
    (∀ c : Int, 0 ≤ c → c < 3 * (twoPillows.getNumTriangles : Int) →
      twoPillows.cornerOpposite c ≠ BORDER_CORNER) ∧
    calculateHoleBoundaries twoPillows 20 [] = .error .assertion ∧
    ∀ (fuel : Nat) (res : List HoleBoundary),
      calculateHoleBoundaries twoPillows fuel [] ≠ .ok res := by
  refine ⟨?_, by decide, ?_⟩
  · intro c h0 h1
    have h2 : c < 12 := h1
    interval_cases c <;> decide
  · intro fuel res
    exact calculateHoleBoundaries_unvisited twoPillows 8
      ⟨[], [true, true, false, false], []⟩ (by decide) (by decide) fuel [] res

/-- C7 (amended).  For every corner table with at least one triangle in which no corner has
`BORDER_CORNER` as its opposite (every opposite being a corner of the table) and every triangle is
reachable from the triangle of corner 0 by opposite-corner links, `calculateHoleBoundaries`
returns on fuel `3T + 1` and appends no loop to `_boundaries`. -/
theorem calculateHoleBoundaries_closed (ct : CornerTable) (fuel : Nat)
    (boundaries : List HoleBoundary) (hT : 1 ≤ ct.getNumTriangles)
    (hclosed : ∀ c, 0 ≤ c → c < 3 * (ct.getNumTriangles : Int) →
      ct.cornerOpposite c ≠ BORDER_CORNER ∧ 0 ≤ ct.cornerOpposite c ∧
        ct.cornerOpposite c < 3 * (ct.getNumTriangles : Int))
    (hreach : ∀ t, 0 ≤ t → t < (ct.getNumTriangles : Int) → Reachable ct t)
    (hfuel : 3 * ct.getNumTriangles + 1 ≤ fuel) :
    calculateHoleBoundaries ct fuel boundaries = .ok boundaries := by
  have hct : Traversable ct :=
    ⟨hT, fun c h0 h1 => Or.inr (hclosed c h0 h1).2,
      fun c1 _ h0 h1 _ _ hb _ _ => absurd hb (hclosed c1 h0 h1).1, hreach⟩
  obtain ⟨m, hm, _, hmem⟩ := traverse_complete hct fuel hfuel
  have hnil : m = [] := by
    apply List.eq_nil_iff_forall_not_mem.mpr
    intro p hp
    obtain ⟨c, h0, h1, hb, _⟩ := mem_borderEdges.mp ((hmem p).mp hp)
    exact (hclosed c h0 h1).1 hb
  unfold calculateHoleBoundaries
  simp only [bind, Except.bind]
  rw [hm, hnil]
  cases fuel <;> rfl

/-! ## Cycles of the boundary-edge mapping -/

theorem chainEdges_cons_cons (x y z : Int) (rest : List Int) :
    chainEdges (x :: y :: rest) z = (x, y) :: chainEdges (y :: rest) z := rfl

theorem chainEdges_keys (l : List Int) (z : Int) : (chainEdges l z).map Prod.fst = l := by
  induction l with
  | nil => rfl
  | cons x rest ih =>
    cases rest with
    | nil => rfl
    | cons y rest =>
      rw [chainEdges_cons_cons, List.map_cons, ih]

theorem chainEdges_head (y z : Int) (rest : List Int) :
    (y, rest.head?.getD z) ∈ chainEdges (y :: rest) z := by
  cases rest with
  | nil => simp [chainEdges]
  | cons y1 rest => simp [chainEdges]

theorem chainEdges_tail (y z : Int) (rest : List Int) (p : Int × Int)
    (h : p ∈ chainEdges rest z) : p ∈ chainEdges (y :: rest) z := by
  cases rest with
  | nil => simp [chainEdges] at h
  | cons y1 rest =>
    rw [chainEdges_cons_cons]
    exact List.mem_cons_of_mem _ h

theorem chainEdges_append_singleton (l : List Int) (x z : Int) (hl : l ≠ []) :
    chainEdges (l ++ [x]) z = chainEdges l x ++ [(x, z)] := by
  induction l with
  | nil => exact absurd rfl hl
  | cons a rest ih =>
    cases rest with
    | nil => rfl
    | cons b rest =>
      have := ih (by simp)
      simp only [List.cons_append, chainEdges_cons_cons] at this ⊢
      rw [this]

theorem cycleEdges_keys (l : List Int) : (cycleEdges l).map Prod.fst = l := by
  cases l with
  | nil => rfl
  | cons x rest => exact chainEdges_keys _ _

theorem cycleEdges_rotate_one (x : Int) (rest : List Int) :
    (cycleEdges (rest ++ [x])).Perm (cycleEdges (x :: rest)) := by
  cases rest with
  | nil => exact List.Perm.refl _
  | cons y rest =>
    have h1 : cycleEdges (y :: rest ++ [x]) = chainEdges (y :: rest) x ++ [(x, y)] :=
      chainEdges_append_singleton (y :: rest) x y (by simp)
    have h2 : cycleEdges (x :: y :: rest) = (x, y) :: chainEdges (y :: rest) x := rfl
    rw [h1, h2]
    exact List.perm_append_singleton _ _

theorem cycleEdges_append (s t : List Int) :
    (cycleEdges (t ++ s)).Perm (cycleEdges (s ++ t)) := by
  induction s generalizing t with
  | nil => simp
  | cons x s ih =>
    have h1 := ih (t ++ [x])
    have h2 := cycleEdges_rotate_one x (s ++ t)
    simp only [List.append_assoc, List.singleton_append, List.cons_append] at h1 h2 ⊢
    exact h1.trans h2

theorem cycleEdges_isRotated {l1 l2 : List Int} (h : l1 ~r l2) :
    (cycleEdges l1).Perm (cycleEdges l2) := by
  obtain ⟨n, rfl⟩ := h
  rw [List.rotate_eq_drop_append_take_mod]
  have := cycleEdges_append (l1.take (n % l1.length)) (l1.drop (n % l1.length))
  rw [List.take_append_drop] at this
  exact this.symm

theorem chainEdges_getD (l : List Int) (z : Int) (i : Nat) (hi : i < l.length) :
    (l.getD i 0, (l ++ [z]).getD (i + 1) 0) ∈ chainEdges l z := by
  induction l generalizing i with
  | nil => simp at hi
  | cons x rest ih =>
    cases rest with
    | nil =>
      have : i = 0 := by simpa using hi
      subst this
      simp [chainEdges]
    | cons y rest =>
      rw [chainEdges_cons_cons]
      cases i with
      | zero => simp
      | succ i =>
        have := ih i (by simpa using hi)
        simp only [List.cons_append, List.getD_cons_succ] at this ⊢
        exact List.mem_cons_of_mem _ this

/-- The cyclically consecutive pairs of a list are its cycle edges. -/
theorem cycleEdges_getD (l : List Int) (i : Nat) (hi : i < l.length) :
    (l.getD i 0, l.getD ((i + 1) % l.length) 0) ∈ cycleEdges l := by
  cases l with
  | nil => simp at hi
  | cons x rest =>
    have h := chainEdges_getD (x :: rest) x i hi
    have e : ((x :: rest) ++ [x]).getD (i + 1) 0 =
        (x :: rest).getD ((i + 1) % (x :: rest).length) 0 := by
      by_cases hlt : i + 1 < (x :: rest).length
      · rw [Nat.mod_eq_of_lt hlt, List.getD_append _ _ _ _ hlt]
      · have hlen : i + 1 = (x :: rest).length := by omega
        rw [hlen, Nat.mod_self, List.getD_append_right _ _ _ _ (le_refl _)]
        simp
    rw [e] at h
    exact h

/-- A cyclically consecutive pair of a list, swapped, is a cycle edge of the reversed list. -/
theorem cycleEdges_reverse_getD (l : List Int) (j : Nat) (hj : j < l.length) :
    (l.getD ((j + 1) % l.length) 0, l.getD j 0) ∈ cycleEdges l.reverse := by
  have hr : ∀ k, k < l.length → l.getD k 0 = l.reverse.getD (l.length - 1 - k) 0 := by
    intro k hk
    rw [List.getD_eq_getElem?_getD, List.getD_eq_getElem?_getD,
      List.getElem?_reverse (by omega)]
    congr 2
    omega
  have hpos : 0 < l.length := by omega
  have hm : (j + 1) % l.length < l.length := Nat.mod_lt _ hpos
  rw [hr _ hm, hr _ hj]
  have key := cycleEdges_getD l.reverse (l.length - 1 - (j + 1) % l.length)
    (by rw [List.length_reverse]; omega)
  have e : (l.length - 1 - (j + 1) % l.length + 1) % l.reverse.length = l.length - 1 - j := by
    rw [List.length_reverse]
    by_cases hlt : j + 1 < l.length
    · rw [Nat.mod_eq_of_lt hlt]
      rw [Nat.mod_eq_of_lt (by omega)]
      omega
    · have hlen : j + 1 = l.length := by omega
      rw [hlen, Nat.mod_self]
      have : l.length - 1 - 0 + 1 = l.length := by omega
      rw [this, Nat.mod_self]
      omega
  rw [e] at key
  exact key

theorem EdgeMap.lookup_of_mem {m : EdgeMap} {p : Int × Int} (hnd : m.keys.Nodup)
    (hp : p ∈ m) : m.lookup p.1 = some p := by
  cases h : m.lookup p.1 with
  | none => exact absurd (EdgeMap.mem_keys_of_mem hp) (EdgeMap.lookup_none.mp h)
  | some q =>
    obtain ⟨hq, hq1⟩ := EdgeMap.lookup_some h
    have := List.inj_on_of_nodup_map hnd hq hp hq1
    rw [this]

theorem EdgeMap.eraseKey_eq_filter (m : EdgeMap) (y : Int) :
    m.eraseKey y = m.filter (fun p => decide (p.1 ∉ [y])) := by
  unfold EdgeMap.eraseKey
  apply List.filter_congr
  intro p _
  rw [Bool.eq_iff_iff]
  simp

/-- Following the chain along a cycle: from the entry of `y0`, with the rest of the cycle listed
in `rest` and closing at `z`, the loop appends `rest` to the hole and erases the keys
`y0 :: rest`. -/
theorem followChain_cycle : ∀ (rest : List Int) (m : EdgeMap) (y0 z : Int)
    (hole : HoleBoundary) (fuel : Nat),
    (∀ p ∈ chainEdges (y0 :: rest) z, p ∈ m) → m.keys.Nodup → (y0 :: rest).Nodup →
    ((z = y0 ∧ rest ≠ []) ∨ z ∉ m.keys) → rest.length ≤ fuel →
    followChain fuel m (y0, rest.head?.getD z) (m.lookup (rest.head?.getD z)) hole =
      .ok (m.filter (fun p => decide (p.1 ∉ y0 :: rest)), hole ++ rest) := by
  intro rest
  induction rest with
  | nil =>
    intro m y0 z hole fuel _ _ _ hz _
    have hz1 : z ∉ m.keys := by
      rcases hz with ⟨_, h⟩ | h
      · exact absurd rfl h
      · exact h
    simp only [List.head?_nil, Option.getD_none, EdgeMap.lookup_none.mpr hz1, List.append_nil]
    cases fuel <;> simp only [followChain, EdgeMap.eraseKey_eq_filter]
  | cons y1 rest ih =>
    intro m y0 z hole fuel hedges hnd hnodup hz hfuel
    cases fuel with
    | zero => simp at hfuel
    | succ fuel =>
      have hy : y1 ≠ y0 := by
        intro h
        rw [h] at hnodup
        simp at hnodup
      have hentry : (y1, rest.head?.getD z) ∈ m :=
        hedges _ (chainEdges_tail _ _ _ _ (chainEdges_head y1 z rest))
      have hlook := EdgeMap.lookup_of_mem hnd hentry
      simp only [List.head?_cons, Option.getD_some] at hlook ⊢
      rw [hlook]
      simp only [followChain, hy, if_false]
      have hedges1 : ∀ p ∈ chainEdges (y1 :: rest) z, p ∈ m.eraseKey y0 := by
        intro p hp
        refine EdgeMap.mem_eraseKey.mpr ⟨hedges p (chainEdges_tail _ _ _ _ hp), ?_⟩
        intro hk
        have hkey : p.1 ∈ y1 :: rest := by
          have := List.mem_map_of_mem Prod.fst hp
          rwa [chainEdges_keys] at this
        rw [hk] at hkey
        exact (List.nodup_cons.mp hnodup).1 hkey
      have hz1 : (z = y1 ∧ rest ≠ []) ∨ z ∉ (m.eraseKey y0).keys := by
        right
        rw [EdgeMap.keys_eraseKey]
        rcases hz with ⟨h, _⟩ | h
        · simp [h]
        · intro hm
          exact h (List.mem_filter.mp hm).1
      have key := ih (m.eraseKey y0) y1 z (hole ++ [y1]) fuel hedges1
        (EdgeMap.nodup_eraseKey _ hnd) (List.nodup_cons.mp hnodup).2 hz1
        (by simpa using hfuel)
      rw [key]
      congr 2
      · rw [EdgeMap.eraseKey_eq_filter, List.filter_filter]
        apply List.filter_congr
        intro p _
        rw [Bool.eq_iff_iff]
        simp only [List.mem_singleton, List.mem_cons, not_or, Bool.and_eq_true,
          decide_eq_true_eq]
        tauto
      · simp

theorem connectivity_nil (fuel : Nat) (boundaries : List HoleBoundary) :
    connectivity fuel [] boundaries = .ok boundaries := by
  cases fuel <;> rfl

/-- The connectivity pass on a map that is made of disjoint cycles of length at least two: it
returns, and the loops it appends are, one for one and read backwards, rotations of the
cycles. -/
theorem connectivity_cycles : ∀ (k : Nat) (cs : List (List Int)) (m : EdgeMap)
    (boundaries : List HoleBoundary) (fuel : Nat),
    cs.length = k → m.keys.Nodup → (∀ p, p ∈ m ↔ ∃ c ∈ cs, p ∈ cycleEdges c) →
    cs.flatten.Nodup → (∀ c ∈ cs, 2 ≤ c.length) → cs.flatten.length ≤ fuel →
    ∃ loops cs1, connectivity fuel m boundaries = .ok (boundaries ++ loops) ∧ cs1.Perm cs ∧
      List.Forall₂ (fun l c => l.reverse ~r c) loops cs1 := by
  intro k
  induction k with
  | zero =>
    intro cs m boundaries fuel hk _ hmem _ _ _
    have hcs : cs = [] := List.eq_nil_of_length_eq_zero hk
    subst hcs
    have hm : m = [] := by
      apply List.eq_nil_iff_forall_not_mem.mpr
      intro p hp
      obtain ⟨c, hc, _⟩ := (hmem p).mp hp
      cases hc
    subst hm
    exact ⟨[], [], by simp [connectivity_nil], List.Perm.refl _, List.Forall₂.nil⟩
  | succ k ih =>
    intro cs m boundaries fuel hk hnd hmem hnodup hlen hfuel
    cases m with
    | nil =>
      exfalso
      cases cs with
      | nil => simp at hk
      | cons c0 cs0 =>
        have h2 := hlen c0 (List.mem_cons_self _ _)
        have hne : cycleEdges c0 ≠ [] := by
          intro h
          have := congrArg List.length (cycleEdges_keys c0)
          rw [h] at this
          simp only [List.map_nil, List.length_nil] at this
          omega
        obtain ⟨p, hp⟩ := List.exists_mem_of_ne_nil _ hne
        have := (hmem p).mpr ⟨c0, List.mem_cons_self _ _, hp⟩
        cases this
    | cons p rest =>
      obtain ⟨c, hc, hpc⟩ := (hmem p).mp (List.mem_cons_self _ _)
      have hkey : p.1 ∈ c := by
        have := List.mem_map_of_mem Prod.fst hpc
        rwa [cycleEdges_keys] at this
      obtain ⟨s, t, hst⟩ := List.append_of_mem hkey
      have hrot : c ~r (p.1 :: (t ++ s)) := by
        refine ⟨s.length, ?_⟩
        rw [hst, List.rotate_append_length_eq]
        rfl
      have hperm := cycleEdges_isRotated hrot
      obtain ⟨ca, cb, hcs⟩ := List.append_of_mem hc
      have hsplit : (c :: (ca ++ cb)).Perm cs := by
        rw [hcs]
        exact List.perm_middle.symm
      have hflat : (c ++ (ca ++ cb).flatten).Perm cs.flatten := by
        have := hsplit.flatten
        simpa using this
      have hnd2 : (c ++ (ca ++ cb).flatten).Nodup := hflat.nodup_iff.mpr hnodup
      have hcn : c.Nodup := hnd2.of_append_left
      have hc2 := hlen c hc
      have hclen : c.length = (t ++ s).length + 1 := by
        rw [hrot.perm.length_eq]
        rfl
      have hflen : c.length + (ca ++ cb).flatten.length = cs.flatten.length := by
        rw [← hflat.length_eq, List.length_append]
      cases fuel with
      | zero => omega
      | succ fuel =>
        have hchain : ∀ q ∈ chainEdges (p.1 :: (t ++ s)) p.1, q ∈ p :: rest := by
          intro q hq
          exact (hmem q).mpr ⟨c, hc, hperm.mem_iff.mpr hq⟩
        have hne : t ++ s ≠ [] := by
          intro h
          rw [h] at hclen
          simp only [List.length_nil] at hclen
          omega
        have hp2 : p = (p.1, (t ++ s).head?.getD p.1) :=
          List.inj_on_of_nodup_map hnd (List.mem_cons_self _ _)
            (hchain _ (chainEdges_head _ _ _)) rfl
        have hfollow := followChain_cycle (t ++ s) (p :: rest) p.1 p.1 [p.1] fuel hchain hnd
          (hrot.perm.nodup_iff.mp hcn) (Or.inl ⟨rfl, hne⟩) (by omega)
        rw [← hp2] at hfollow
        have hp2' : p.2 = (t ++ s).head?.getD p.1 := by
          conv_lhs => rw [hp2]
        rw [← hp2'] at hfollow
        have hnd1 : EdgeMap.keys (List.filter (fun q => decide (q.1 ∉ p.1 :: (t ++ s)))
            (p :: rest)) |>.Nodup :=
          hnd.sublist ((List.filter_sublist _).map Prod.fst)
        have hmem1 : ∀ q, q ∈ List.filter (fun q => decide (q.1 ∉ p.1 :: (t ++ s))) (p :: rest) ↔
            ∃ d ∈ ca ++ cb, q ∈ cycleEdges d := by
          intro q
          rw [List.mem_filter, hmem q]
          simp only [decide_eq_true_eq]
          constructor
          · rintro ⟨⟨d, hd, hqd⟩, hq⟩
            refine ⟨d, ?_, hqd⟩
            rcases List.mem_cons.mp (hsplit.mem_iff.mpr hd) with hdc | hdr
            · exfalso
              apply hq
              rw [← hrot.perm.mem_iff, ← hdc]
              have := List.mem_map_of_mem Prod.fst hqd
              rwa [cycleEdges_keys] at this
            · exact hdr
          · rintro ⟨d, hd, hqd⟩
            refine ⟨⟨d, hsplit.subset (List.mem_cons_of_mem _ hd), hqd⟩, ?_⟩
            intro hq
            rw [← hrot.perm.mem_iff] at hq
            have hqk : q.1 ∈ d := by
              have := List.mem_map_of_mem Prod.fst hqd
              rwa [cycleEdges_keys] at this
            exact (List.disjoint_of_nodup_append hnd2) hq
              (List.mem_flatten.mpr ⟨d, hd, hqk⟩)
        obtain ⟨loops, cs1, hrun, hperm1, hall⟩ := ih (ca ++ cb) _
          (boundaries ++ [([p.1] ++ (t ++ s)).reverse]) fuel
          (by have := hsplit.length_eq; simp only [List.length_cons] at this; omega)
          hnd1 hmem1 hnd2.of_append_right
          (fun d hd => hlen d (hsplit.subset (List.mem_cons_of_mem _ hd))) (by omega)
        refine ⟨([p.1] ++ (t ++ s)).reverse :: loops, c :: cs1, ?_, ?_, ?_⟩
        · simp only [connectivity, bind, Except.bind]
          rw [hfollow]
          simp only
          rw [hrun]
          simp
        · exact (List.Perm.cons c hperm1).trans hsplit
        · refine List.Forall₂.cons ?_ hall
          rw [List.reverse_reverse]
          exact hrot.symm

theorem length_intRange (lo hi : Int) : (intRange lo hi).length = (hi + 1 - lo).toNat := by
  simp [intRange]

theorem keys_flatMap_cycleEdges (cs : List (List Int)) :
    (cs.flatMap cycleEdges).map Prod.fst = cs.flatten := by
  induction cs with
  | nil => rfl
  | cons c cs ih =>
    simp only [List.flatMap_cons, List.map_append, ih, cycleEdges_keys, List.flatten_cons]

theorem mem_borderCorners {ct : CornerTable} {c : Int} :
    c ∈ borderCorners ct ↔ (0 ≤ c ∧ c < 3 * (ct.getNumTriangles : Int)) ∧
      ct.cornerOpposite c = BORDER_CORNER := by
  unfold borderCorners
  simp only [List.mem_filter, mem_intRange, decide_eq_true_eq]
  constructor
  · rintro ⟨⟨a1, a2⟩, a3⟩
    exact ⟨⟨a1, by omega⟩, a3⟩
  · rintro ⟨⟨a1, a2⟩, a3⟩
    exact ⟨⟨a1, by omega⟩, a3⟩

theorem forall₂_exists_right {α β : Type} {R : α → β → Prop} {xs : List α} {ys : List β}
    (h : List.Forall₂ R xs ys) {x : α} (hx : x ∈ xs) : ∃ y ∈ ys, R x y := by
  induction h with
  | nil => cases hx
  | cons hab _ ih =>
    rcases List.mem_cons.mp hx with rfl | hx1
    · exact ⟨_, List.mem_cons_self _ _, hab⟩
    · obtain ⟨y, hy, hxy⟩ := ih hx1
      exact ⟨y, List.mem_cons_of_mem _ hy, hxy⟩

theorem forall₂_rotated_lengths {loops cs : List (List Int)}
    (h : List.Forall₂ (fun l c => l.reverse ~r c) loops cs) :
    loops.map List.length = cs.map List.length := by
  induction h with
  | nil => rfl
  | cons hab _ ih =>
    simp only [List.map_cons]
    rw [ih, ← hab.perm.length_eq, List.length_reverse]

/-- C3 (as stated, refuted).  The boundary-edge mapping of `twoTriangles` is a permutation made
of the two disjoint cycles `1 -> 2 -> 0` and `4 -> 5 -> 3`, yet `calculateHoleBoundaries` emits
no loops at all: the traversal started at corner 0 never reaches the second triangle and the
assertion on `visitedTriangles` fails. -/
theorem calculateHoleBoundaries_twoTriangles :
    borderEdges twoTriangles = [[1, 2, 0], [4, 5, 3]].flatMap cycleEdges ∧
    ([[1, 2, 0], [4, 5, 3]] : List (List Int)).flatten.Nodup ∧
    calculateHoleBoundaries twoTriangles 20 [] = .error .assertion ∧
    ∀ (fuel : Nat) (res : List HoleBoundary),
      calculateHoleBoundaries twoTriangles fuel [] ≠ .ok res := by
  refine ⟨by decide, by decide, by decide, ?_⟩
  intro fuel res
  exact calculateHoleBoundaries_unvisited twoTriangles 1
    ⟨[(0, 1), (1, 2), (2, 0)], [true, false], []⟩ (by decide) (by decide) fuel [] res

/-- C3 (amended).  For every corner table with at least one triangle whose opposite corners are
corners of the table or `BORDER_CORNER`, whose triangles are all reachable from the triangle of
corner 0 by opposite-corner links, and whose boundary-edge mapping is a permutation made of the
disjoint cycles `cs`, each of length at least two: on fuel `3T + 1` `calculateHoleBoundaries`
returns; it appends exactly as many loops as there are cycles; the sizes of the loops are a
permutation of the sizes of the cycles; every loop, read backwards, is a rotation of one of the
cycles; and for every cyclically consecutive pair `(a, b)` of a loop the mesh has the boundary
edge `b -> a`. -/
theorem calculateHoleBoundaries_cycles (ct : CornerTable) (cs : List (List Int)) (fuel : Nat)
    (boundaries : List HoleBoundary) (hT : 1 ≤ ct.getNumTriangles)
    (hopp : ∀ c, 0 ≤ c → c < 3 * (ct.getNumTriangles : Int) →
      ct.cornerOpposite c = BORDER_CORNER ∨
        (0 ≤ ct.cornerOpposite c ∧ ct.cornerOpposite c < 3 * (ct.getNumTriangles : Int)))
    (hreach : ∀ t, 0 ≤ t → t < (ct.getNumTriangles : Int) → Reachable ct t)
    (hperm : (borderEdges ct).Perm (cs.flatMap cycleEdges))
    (hnodup : cs.flatten.Nodup) (hlen : ∀ c ∈ cs, 2 ≤ c.length)
    (hfuel : 3 * ct.getNumTriangles + 1 ≤ fuel) :
    ∃ loops, calculateHoleBoundaries ct fuel boundaries = .ok (boundaries ++ loops) ∧
      loops.length = cs.length ∧
      (loops.map List.length).Perm (cs.map List.length) ∧
      (∀ l ∈ loops, ∃ c ∈ cs, l.reverse ~r c) ∧
      (∀ l ∈ loops, ∀ j, j < l.length →
        (l.getD ((j + 1) % l.length) 0, l.getD j 0) ∈ borderEdges ct) := by
  have hkeys : ((borderEdges ct).map Prod.fst).Perm cs.flatten := by
    rw [← keys_flatMap_cycleEdges]
    exact hperm.map _
  have horig : ((borderCorners ct).map (fun c => (edgeAt ct c).1)).Nodup := by
    have := hkeys.nodup_iff.mpr hnodup
    unfold borderEdges at this
    rwa [List.map_map] at this
  have hct : Traversable ct := by
    refine ⟨hT, hopp, ?_, hreach⟩
    intro c1 c2 a1 a2 b1 b2 h1 h2 he
    exact List.inj_on_of_nodup_map horig (mem_borderCorners.mpr ⟨⟨a1, a2⟩, h1⟩)
      (mem_borderCorners.mpr ⟨⟨b1, b2⟩, h2⟩) he
  obtain ⟨m, hm, hmnd, hmem⟩ := traverse_complete hct fuel hfuel
  have hmem1 : ∀ p, p ∈ m ↔ ∃ c ∈ cs, p ∈ cycleEdges c := by
    intro p
    rw [hmem p, hperm.mem_iff, List.mem_flatMap]
  have hsize : cs.flatten.length ≤ fuel := by
    rw [← hkeys.length_eq, List.length_map]
    unfold borderEdges borderCorners
    rw [List.length_map]
    have h1 := List.length_filter_le (fun c => decide (ct.cornerOpposite c = BORDER_CORNER))
      (intRange 0 (3 * (ct.getNumTriangles : Int) - 1))
    rw [length_intRange] at h1
    omega
  obtain ⟨loops, cs1, hrun, hperm1, hall⟩ :=
    connectivity_cycles cs.length cs m boundaries fuel rfl hmnd hmem1 hnodup hlen hsize
  have hrot : ∀ l ∈ loops, ∃ c ∈ cs, l.reverse ~r c := by
    intro l hl
    obtain ⟨c, hc, hlc⟩ := forall₂_exists_right hall hl
    exact ⟨c, hperm1.subset hc, hlc⟩
  refine ⟨loops, ?_, ?_, ?_, hrot, ?_⟩
  · unfold calculateHoleBoundaries
    simp only [bind, Except.bind]
    rw [hm]
    exact hrun
  · rw [hall.length_eq, hperm1.length_eq]
  · rw [forall₂_rotated_lengths hall]
    exact hperm1.map _
  · intro l hl j hj
    obtain ⟨c, hc, hlc⟩ := hrot l hl
    have h1 := cycleEdges_reverse_getD l j hj
    have h2 := (cycleEdges_isRotated hlc).mem_iff.mp h1
    exact (hmem _).mp ((hmem1 _).mpr ⟨c, hc, h2⟩)

theorem reachable_second (ct : CornerTable) (h : cornerTriangle (ct.cornerOpposite 0) = 1)
    (hb : ct.cornerOpposite 0 ≠ BORDER_CORNER) (t : Int) (h0 : 0 ≤ t) (h1 : t < 2) :
    Reachable ct t := by
  have hstart : Reachable ct 0 := Reachable.start
  have hstep := Reachable.step 0 0 hstart (le_refl _) (by decide) hb
  have e : (3 : Int) * 0 + 0 = 0 := by decide
  rw [e, h] at hstep
  have : t = 0 ∨ t = 1 := by omega
  rcases this with rfl | rfl
  · exact hstart
  · exact hstep

/-- Witness for C7: the closed surface `onePillow`. -/
theorem calculateHoleBoundaries_closed_witness :
    calculateHoleBoundaries onePillow 7 [[9, 8, 7]] = .ok [[9, 8, 7]] :=
  calculateHoleBoundaries_closed onePillow 7 [[9, 8, 7]] (by decide)
    (by
      intro c h0 h1
      have h2 : c < 6 := h1
      interval_cases c <;> decide)
    (reachable_second onePillow (by decide) (by decide))
    (by decide)

/-- Witness for C3: two triangles glued along one edge, whose
boundary-edge mapping is the single cycle `2 -> 0 -> 1 -> 3`. -/
theorem calculateHoleBoundaries_cycles_witness :
    ∃ loops, calculateHoleBoundaries twoGlued 7 [] = .ok ([] ++ loops) ∧
      loops.length = ([[2, 0, 1, 3]] : List (List Int)).length :=
  let ⟨loops, h1, h2, _⟩ := calculateHoleBoundaries_cycles twoGlued [[2, 0, 1, 3]] 7 []
    (by decide)
    (by
      intro c h0 h1
      have h2 : c < 6 := h1
      interval_cases c <;> decide)
    (reachable_second twoGlued (by decide) (by decide))
    (List.Perm.of_eq (by decide)) (by decide) (by decide) (by decide)
  ⟨loops, h1, h2⟩

/-! ## The refinement -/

theorem splitStep_unsplit {R : Type} [LinearOrderedField R] (env : FloatOps R)
    (patchMesh : PatchMesh R) (st : Refinement R) (entry : Nat × (Int × Int × Int))
    (centroid : Vec3 R)
    (h : splitTest env patchMesh st.scaleAttributes entry.1 entry.2 = .ok (centroid, false)) :
    splitStep env patchMesh st entry =
      .ok { st with newIndexArray := st.newIndexArray ++ [entry.2] } := by
  unfold splitStep
  rw [h]
  rfl

/-- A pass in which no triangle is to be split re-emits the triangles in order and changes
nothing else. -/
theorem splitPass_unsplit {R : Type} [LinearOrderedField R] (env : FloatOps R)
    (patchMesh : PatchMesh R) : ∀ (entries : List (Nat × (Int × Int × Int)))
    (st : Refinement R),
    (∀ e ∈ entries, ∃ centroid,
      splitTest env patchMesh st.scaleAttributes e.1 e.2 = .ok (centroid, false)) →
    entries.foldlM (splitStep env patchMesh) st =
      .ok { st with newIndexArray := st.newIndexArray ++ entries.map Prod.snd } := by
  intro entries
  induction entries with
  | nil =>
    intro st _
    simp [pure, Except.pure]
  | cons e rest ih =>
    intro st h
    obtain ⟨centroid, hc⟩ := h e (List.mem_cons_self _ _)
    simp only [List.foldlM_cons, bind, Except.bind]
    rw [splitStep_unsplit env patchMesh st e centroid hc]
    have := ih { st with newIndexArray := st.newIndexArray ++ [e.2] }
      (fun e1 he1 => h e1 (List.mem_cons_of_mem _ he1))
    simp only at this ⊢
    rw [this]
    simp

theorem refineLoop_succ {R : Type} [LinearOrderedField R] (env : FloatOps R)
    (ops : RelaxationOps R) (patchMesh : PatchMesh R) (fuel : Nat) (st : Refinement R)
    (h : st.hasDoneSwaps = false) :
    refineLoop env ops patchMesh (fuel + 1) st =
      (splitPass env patchMesh { st with verticesToFlip := [] }) >>= fun st1 =>
        if !st1.hadCreatedTriangles then .ok st1
        else
          (relaxLoop ops st1.newVertexArray fuel
            (relaxInserted ops st1.newVertexArray st1.newIndexArray st1.verticesToFlip))
          >>= fun swept =>
            refineLoop env ops patchMesh fuel
              { st1 with
                boundaryIndexArray :=
                  relaxInserted ops st1.newVertexArray st1.newIndexArray st1.verticesToFlip
                newIndexArray := swept.1
                hasDoneSwaps := swept.2 } := by
  rw [refineLoop]
  simp only [h, Bool.false_eq_true, if_false]

theorem foldl_edgeFlip_numTriangles {R : Type} (ops : RelaxationOps R) (corners : List Int)
    (table : ops.Table) :
    ops.getNumTriangles (corners.foldl ops.edgeFlip table) = ops.getNumTriangles table := by
  induction corners generalizing table with
  | nil => rfl
  | cons c rest ih =>
    rw [List.foldl_cons, ih, ops.getNumTriangles_edgeFlip]

theorem relaxInserted_length {R : Type} (ops : RelaxationOps R) (vertexArray : List (Vec3 R))
    (indexArray : List (Int × Int × Int)) (verticesToFlip : List Int) :
    (relaxInserted ops vertexArray indexArray verticesToFlip).length = indexArray.length := by
  unfold relaxInserted
  simp only
  rw [ops.length_getTriangleList]
  have key : ∀ (vs : List Int) (table : ops.Table),
      ops.getNumTriangles (vs.foldl
        (fun table vertex =>
          (ops.getCornerNeighbours table (ops.vertexToCornerIndex table vertex)).foldl
            ops.edgeFlip table) table) = ops.getNumTriangles table := by
    intro vs
    induction vs with
    | nil => intro table; rfl
    | cons v rest ih =>
      intro table
      rw [List.foldl_cons, ih, foldl_edgeFlip_numTriangles]
  rw [key, ops.getNumTriangles_build]

theorem sweep_fold {R : Type} (ops : RelaxationOps R) (corners : List Nat)
    (table : ops.Table) (flag : Bool) :
    ops.getNumTriangles (corners.foldl
        (fun (acc : ops.Table × Bool) (iCorner : Nat) =>
          (ops.edgeFlip acc.1 (Int.ofNat iCorner), true))
        (table, flag)).1 = ops.getNumTriangles table ∧
      (corners.foldl
        (fun (acc : ops.Table × Bool) (iCorner : Nat) =>
          (ops.edgeFlip acc.1 (Int.ofNat iCorner), true))
        (table, flag)).2 = (flag || !corners.isEmpty) := by
  induction corners generalizing table flag with
  | nil => simp
  | cons c rest ih =>
    obtain ⟨h1, h2⟩ := ih (ops.edgeFlip table (Int.ofNat c)) true
    rw [List.foldl_cons]
    refine ⟨by rw [h1, ops.getNumTriangles_edgeFlip], ?_⟩
    rw [h2]
    simp

/-- The sweep of `relaxAllEdges` keeps the number of triangles, and it reports flips exactly
when the index array it is given holds a triangle. -/
theorem relaxAllEdges_spec {R : Type} (ops : RelaxationOps R) (vertexArray : List (Vec3 R))
    (indexArray : List (Int × Int × Int)) :
    (relaxAllEdges ops vertexArray indexArray).1.length = indexArray.length ∧
      ((relaxAllEdges ops vertexArray indexArray).2 = true ↔ 0 < indexArray.length) := by
  unfold relaxAllEdges
  simp only
  obtain ⟨h1, h2⟩ := sweep_fold ops
    (List.range (ops.getNumTriangles (ops.build indexArray vertexArray) * 3))
    (ops.build indexArray vertexArray) false
  rw [ops.length_getTriangleList, h1, h2, ops.getNumTriangles_build]
  refine ⟨rfl, ?_⟩
  cases indexArray with
  | nil => simp
  | cons t rest => simp [List.range_succ]

/-- The loop around `relaxAllEdges` never ends on an index array that holds a triangle. -/
theorem relaxLoop_diverges {R : Type} (ops : RelaxationOps R) (vertexArray : List (Vec3 R))
    (fuel : Nat) : ∀ indexArray : List (Int × Int × Int), 0 < indexArray.length →
      relaxLoop ops vertexArray fuel indexArray = .error .outOfFuel := by
  induction fuel with
  | zero => intro _ _; rfl
  | succ fuel ih =>
    intro indexArray hpos
    obtain ⟨h1, h2⟩ := relaxAllEdges_spec ops vertexArray indexArray
    rw [relaxLoop]
    simp only [h2.mpr hpos, if_true]
    exact ih _ (by rw [h1]; exact hpos)

/-- Once a pass has split a triangle, the loop of `calculateRefinedPatchMesh` never ends. -/
theorem refineLoop_diverges {R : Type} [LinearOrderedField R] (env : FloatOps R)
    (ops : RelaxationOps R) (patchMesh : PatchMesh R) (st st1 : Refinement R)
    (hswaps : st.hasDoneSwaps = false)
    (hpass : splitPass env patchMesh { st with verticesToFlip := [] } = .ok st1)
    (hsplit : st1.hadCreatedTriangles = true) (hne : 0 < st1.newIndexArray.length)
    (fuel : Nat) : refineLoop env ops patchMesh fuel st = .error .outOfFuel := by
  cases fuel with
  | zero => rfl
  | succ fuel =>
    rw [refineLoop_succ env ops patchMesh fuel st hswaps, hpass]
    simp only [bind, Except.bind, hsplit, Bool.not_true, Bool.false_eq_true, if_false]
    rw [relaxLoop_diverges ops _ fuel _ (by rw [relaxInserted_length]; exact hne)]

theorem exactOps_length (x y z r : ℚ) (hr : 0 ≤ r) (h : x * x + y * y + z * z = r * r) :
    exactOps.length (x, y, z) = r := by
  show Rat.sqrt (x * x + y * y + z * z) = r
  rw [h, Rat.sqrt_eq, abs_of_nonneg hr]

theorem getAt_cons_zero {α : Type} (a : α) (rest : List α) : getAt (a :: rest) 0 = .ok a := by
  simp [getAt]

theorem getAt_cons_succ {α : Type} (a : α) (rest : List α) (i : Int) (hi : 0 ≤ i) :
    getAt (a :: rest) (i + 1) = getAt rest i := by
  unfold getAt
  have h1 : ¬ (i + 1 < 0) := by omega
  have h2 : ¬ (i < 0) := by omega
  have h3 : (i + 1).toNat = i.toNat + 1 := by omega
  simp only [h1, h2, if_false, h3, List.getElem?_cons_succ]

theorem getAt_one {α : Type} (a b : α) (rest : List α) : getAt (a :: b :: rest) 1 = .ok b := by
  have := getAt_cons_succ a (b :: rest) 0 (le_refl _)
  rw [show (0 : Int) + 1 = 1 from rfl] at this
  rw [this]
  exact getAt_cons_zero b rest

theorem getAt_two {α : Type} (a b c : α) (rest : List α) :
    getAt (a :: b :: c :: rest) 2 = .ok c := by
  have := getAt_cons_succ a (b :: c :: rest) 1 (by decide)
  rw [show (1 : Int) + 1 = 2 from rfl] at this
  rw [this]
  exact getAt_one b c rest

theorem getAt_three {α : Type} (a b c d : α) (rest : List α) :
    getAt (a :: b :: c :: d :: rest) 3 = .ok d := by
  have := getAt_cons_succ a (b :: c :: d :: rest) 2 (by decide)
  rw [show (2 : Int) + 1 = 3 from rfl] at this
  rw [this]
  exact getAt_two b c d rest

theorem toFloat_exactOps (v : Vec3 ℚ) : Vec3.toFloat exactOps v = v := rfl

theorem centroid_bigTriangle :
    calculateCentroid exactOps ((3 : ℚ), (4 : ℚ), (0 : ℚ)) (-3, 0, 0) (0, -4, 0) = (0, 0, 0) := by
  simp only [calculateCentroid, toFloat_exactOps]
  norm_num

theorem splitCondition_bigTriangle (scaleAttributes : List ℚ) (centroidScale si sj sk : ℚ)
    (vi vj vk : Int) (hi : getAt scaleAttributes vi = .ok si)
    (hj : getAt scaleAttributes vj = .ok sj) (hk : getAt scaleAttributes vk = .ok sk) :
    splitCondition exactOps scaleAttributes (0, 0, 0) (3, 4, 0) (-3, 0, 0) (0, -4, 0)
      centroidScale vi vj vk =
    .ok (decide (exactOps.M_SQRT2 * 5 > centroidScale ∧ exactOps.M_SQRT2 * 5 > si ∧
      exactOps.M_SQRT2 * 3 > centroidScale ∧ exactOps.M_SQRT2 * 3 > sj ∧
      exactOps.M_SQRT2 * 4 > centroidScale ∧ exactOps.M_SQRT2 * 4 > sk)) := by
  have l1 : exactOps.length (Vec3.sub ((0 : ℚ), (0 : ℚ), (0 : ℚ)) (3, 4, 0)) = 5 :=
    exactOps_length _ _ _ 5 (by norm_num) (by norm_num)
  have l2 : exactOps.length (Vec3.sub ((0 : ℚ), (0 : ℚ), (0 : ℚ)) (-3, 0, 0)) = 3 :=
    exactOps_length _ _ _ 3 (by norm_num) (by norm_num)
  have l3 : exactOps.length (Vec3.sub ((0 : ℚ), (0 : ℚ), (0 : ℚ)) (0, -4, 0)) = 4 :=
    exactOps_length _ _ _ 4 (by norm_num) (by norm_num)
  unfold splitCondition
  simp only [l1, l2, l3, hi, hj, hk, bind, Except.bind]
  by_cases c1 : exactOps.M_SQRT2 * 5 > centroidScale <;>
  by_cases c2 : exactOps.M_SQRT2 * 5 > si <;>
  by_cases c3 : exactOps.M_SQRT2 * 3 > centroidScale <;>
  by_cases c4 : exactOps.M_SQRT2 * 3 > sj <;>
  by_cases c5 : exactOps.M_SQRT2 * 4 > centroidScale <;>
  by_cases c6 : exactOps.M_SQRT2 * 4 > sk <;>
  simp [c1, c2, c3, c4, c5, c6]

theorem splitTest_bigTriangle :
    splitTest exactOps bigTriangle [1, 1, 1] 0 (0, 1, 2) = .ok ((0, 0, 0), true) := by
  unfold splitTest
  simp only [bigTriangle, getAt_cons_zero, getAt_one, getAt_two, bind, Except.bind,
    centroid_bigTriangle, centroidScaleAttribute, Nat.cast_zero, mul_zero, zero_add,
    pure, Except.pure, toFloat_exactOps]
  rw [splitCondition_bigTriangle [1, 1, 1] _ 1 1 1 0 1 2 (getAt_cons_zero _ _)
    (getAt_one _ _ _) (getAt_two _ _ _ _)]
  simp only [exactOps]
  norm_num

/-- The first pass over `bigTriangle` with target scale 1 at every vertex splits its triangle. -/
theorem splitPass_bigTriangle :
    splitPass exactOps bigTriangle
      { scaleAttributes := [1, 1, 1]
        newVertexArray := bigTriangle.vertices
        newIndexArray := []
        boundaryIndexArray := bigTriangle.triangles
        verticesToFlip := []
        hadCreatedTriangles := false
        hasDoneSwaps := false } =
    .ok
      { scaleAttributes := [1, 1, 1, 1]
        newVertexArray := bigTriangle.vertices ++ [(0, 0, 0)]
        newIndexArray := [(3, 1, 2), (0, 3, 2), (0, 1, 3)]
        boundaryIndexArray := bigTriangle.triangles
        verticesToFlip := [3]
        hadCreatedTriangles := true
        hasDoneSwaps := false } := by
  have h := splitTest_bigTriangle
  simp only [splitPass, splitStep, bigTriangle, List.enum, List.enumFrom, List.foldlM_cons,
    List.foldlM_nil, bind, Except.bind, pure, Except.pure] at h ⊢
  rw [h]
  simp [getAt]
  norm_num

/-- C8 (code at the failing input).  On the one-triangle patch `bigTriangle` with target scale 1
at its three vertices the first pass splits the triangle; whatever the corner table used for
the relaxation and whatever the fuel, `calculateRefinedPatchMesh` then does not return: every
sweep of `relaxAllEdges` reports flips. -/
theorem calculateRefinedPatchMesh_diverges (ops : RelaxationOps ℚ) (fuel : Nat) :
    calculateRefinedPatchMesh exactOps ops (fun _ => 1) fuel bigTriangle [0, 1, 2] =
      .error .outOfFuel := by
  unfold calculateRefinedPatchMesh
  have h := refineLoop_diverges exactOps ops bigTriangle
    { scaleAttributes := [1, 1, 1]
      newVertexArray := bigTriangle.vertices
      newIndexArray := []
      boundaryIndexArray := bigTriangle.triangles
      verticesToFlip := []
      hadCreatedTriangles := false
      hasDoneSwaps := false }
    { scaleAttributes := [1, 1, 1, 1]
      newVertexArray := bigTriangle.vertices ++ [(0, 0, 0)]
      newIndexArray := [(3, 1, 2), (0, 3, 2), (0, 1, 3)]
      boundaryIndexArray := bigTriangle.triangles
      verticesToFlip := [3]
      hadCreatedTriangles := true
      hasDoneSwaps := false }
    rfl splitPass_bigTriangle rfl (by decide) fuel
  simp only [List.map_cons, List.map_nil] at h ⊢
  rw [h]
  rfl

/-- C9 (code at the failing input).  For the first triangle `(0, 1, 3)` of the patch `kite` with
target scales `[1, 1, 13, 4]`, the triangle scale the code uses is the mean of the entries at the
offsets 0, 1, 2, which is 5, while the mean of the scales of the vertices 0, 1, 3 is 2; with the
value 5 the triangle is not split, whereas the same condition holds for the value 2. -/
theorem splitTest_kite :
    centroidScaleAttribute exactOps kiteScales (3 * ((0 : Nat) : Int)) = .ok 5 ∧
    vertexScaleMean kiteScales (0, 1, 3) = .ok 2 ∧
    splitTest exactOps kite kiteScales 0 (0, 1, 3) = .ok ((0, 0, 0), false) ∧
    splitCondition exactOps kiteScales (0, 0, 0) (3, 4, 0) (-3, 0, 0) (0, -4, 0) 2 0 1 3 =
      .ok true := by
  have h0 : getAt kiteScales 0 = .ok 1 := getAt_cons_zero _ _
  have h1 : getAt kiteScales 1 = .ok 1 := getAt_one _ _ _
  have h2 : getAt kiteScales 2 = .ok 13 := getAt_two _ _ _ _
  have h3 : getAt kiteScales 3 = .ok 4 := getAt_three _ _ _ _ _
  have hmean : centroidScaleAttribute exactOps kiteScales (3 * ((0 : Nat) : Int)) = .ok 5 := by
    simp only [centroidScaleAttribute, Nat.cast_zero, mul_zero, zero_add, h0, h1, h2, bind,
      Except.bind, pure, Except.pure, exactOps]
    norm_num
  refine ⟨hmean, ?_, ?_, ?_⟩
  · simp only [vertexScaleMean, h0, h1, h3, bind, Except.bind, pure, Except.pure]
    norm_num
  · unfold splitTest
    simp only [kite, getAt_cons_zero, getAt_one, getAt_three, bind, Except.bind,
      centroid_bigTriangle, pure, Except.pure, hmean, toFloat_exactOps]
    rw [splitCondition_bigTriangle kiteScales _ 1 1 4 0 1 3 h0 h1 h3]
    simp only [exactOps]
    norm_num
  · rw [splitCondition_bigTriangle kiteScales _ 1 1 4 0 1 3 h0 h1 h3]
    simp only [exactOps]
    norm_num

/-! ## The member `_boundaries` -/

theorem followChain_no_assertion (fuel : Nat) : ∀ (m : EdgeMap) (oldIt : Int × Int)
    (currentIt : Option (Int × Int)) (hole : HoleBoundary),
    followChain fuel m oldIt currentIt hole ≠ .error .assertion := by
  induction fuel with
  | zero =>
    intro m oldIt currentIt hole
    cases currentIt <;> simp [followChain]
  | succ fuel ih =>
    intro m oldIt currentIt hole
    cases currentIt with
    | none => simp [followChain]
    | some c =>
      rw [followChain]
      by_cases hc : c.1 = oldIt.1
      · simp [hc]
      · simp only [hc, if_false]
        exact ih _ _ _ _

theorem connectivityEffect_spec (fuel : Nat) : ∀ (m : EdgeMap) (boundaries : List HoleBoundary),
    (connectivityEffect fuel m boundaries).2 ≠ .error .assertion ∧
    connectivity fuel m boundaries =
      (connectivityEffect fuel m boundaries).2.map
        (fun _ => (connectivityEffect fuel m boundaries).1) := by
  induction fuel with
  | zero =>
    intro m boundaries
    cases m <;> simp [connectivityEffect, connectivity, Except.map]
  | succ fuel ih =>
    intro m boundaries
    cases m with
    | nil => simp [connectivityEffect, connectivity, Except.map]
    | cons oldIt rest =>
      rw [connectivityEffect, connectivity]
      simp only [bind, Except.bind]
      have hna := followChain_no_assertion fuel (oldIt :: rest) oldIt
        (EdgeMap.lookup (oldIt :: rest) oldIt.2) [oldIt.1]
      generalize followChain fuel (oldIt :: rest) oldIt
        (EdgeMap.lookup (oldIt :: rest) oldIt.2) [oldIt.1] = r at hna ⊢
      cases r with
      | error e =>
        refine ⟨?_, rfl⟩
        simp only [ne_eq, Except.error.injEq]
        intro he
        exact hna (by rw [he])
      | ok p =>
        obtain ⟨m1, hole⟩ := p
        exact ih m1 (boundaries ++ [hole.reverse])

/-- The two embeddings of `calculateHoleBoundaries` agree: the call returns exactly when its
effect stops normally, with the list then held by `_boundaries`, and fails alike otherwise. -/
theorem calculateHoleBoundariesEffect_spec (ct : CornerTable) (fuel : Nat)
    (boundaries : List HoleBoundary) :
    calculateHoleBoundaries ct fuel boundaries =
      (calculateHoleBoundariesEffect ct fuel boundaries).2.map
        (fun _ => (calculateHoleBoundariesEffect ct fuel boundaries).1) := by
  unfold calculateHoleBoundaries calculateHoleBoundariesEffect
  simp only [bind, Except.bind]
  cases traverse ct fuel with
  | error e => rfl
  | ok m => exact (connectivityEffect_spec fuel m boundaries).2

/-- C13.  Whenever `calculateHoleBoundaries` fails at one of its two assertions (a second
boundary edge with the same origin, or a triangle left unvisited), the member `_boundaries`
holds exactly the list it held before the call: both assertions are reached before a loop is
appended. -/
theorem calculateHoleBoundaries_atomic (ct : CornerTable) (fuel : Nat)
    (boundaries : List HoleBoundary)
    (h : calculateHoleBoundaries ct fuel boundaries = .error .assertion) :
    calculateHoleBoundariesEffect ct fuel boundaries = (boundaries, .error .assertion) := by
  rw [calculateHoleBoundariesEffect_spec] at h
  unfold calculateHoleBoundariesEffect at h ⊢
  cases ht : traverse ct fuel with
  | error e =>
    rw [ht] at h
    simp only [Except.map, Except.error.injEq] at h ⊢
    rw [h]
  | ok m =>
    rw [ht] at h
    simp only at h ⊢
    obtain ⟨hna, _⟩ := connectivityEffect_spec fuel m boundaries
    exfalso
    generalize connectivityEffect fuel m boundaries = r at h hna
    obtain ⟨b, o⟩ := r
    cases o with
    | error e =>
      simp only [Except.map, Except.error.injEq] at h
      exact hna (by rw [h])
    | ok u => cases h

/-- Witness for C13: two triangles that share nothing, with a loop already stored. -/
theorem calculateHoleBoundaries_atomic_witness :
    calculateHoleBoundariesEffect twoTriangles 7 [[9, 8, 7]] =
      ([[9, 8, 7]], .error .assertion) :=
  calculateHoleBoundaries_atomic twoTriangles 7 [[9, 8, 7]] (by decide)

/-- C14 (code at the failing input).  The mesh `oneTriangle` has one hole.  A first call of
`calculateHoleBoundaries` stores its loop `[2, 1, 0]`; a second call on the same mesh, as made
by opening the same file again, returns with two loops stored: the member `_boundaries` is
appended to and never cleared. -/
theorem calculateHoleBoundaries_accumulates :
    calculateHoleBoundaries oneTriangle 4 [] = .ok [[2, 1, 0]] ∧
    calculateHoleBoundaries oneTriangle 4 [[2, 1, 0]] = .ok [[2, 1, 0], [2, 1, 0]] ∧
    calculateHoleBoundaries oneTriangle 4 [[9, 8, 7, 6]] = .ok [[9, 8, 7, 6], [2, 1, 0]] := by
  decide

/-! ## The traversal: when an assertion fails -/

theorem BfsSound.sound_retarget {ct : CornerTable} {st : Traversal} {t : Int} (u : Int)
    (h : BfsSound ct st t 3) : BfsSound ct st u 3 := by
  have hp : ∀ c, processed st.visitedTriangles u 3 c → processed st.visitedTriangles t 3 c := by
    intro c
    unfold processed
    rintro ⟨h1, _⟩
    exact ⟨h1, fun _ => by omega⟩
  exact ⟨h.queue, h.visited, fun c1 c2 a1 a2 a3 a4 a5 a6 a7 a8 a9 =>
    h.distinct c1 c2 a1 a2 a3 a4 (hp c1 a5) (hp c2 a6) a7 a8 a9⟩

theorem BfsSound.sound_pop_visited {ct : CornerTable} {st : Traversal} {t : Int}
    {rest : List Int} (h : BfsSound ct st 0 3) (hq : st.bufferedTriangles = t :: rest) :
    BfsSound ct { st with bufferedTriangles := rest } 0 3 :=
  ⟨fun x hx => h.queue x (by rw [hq]; exact List.mem_cons_of_mem _ hx), h.visited, h.distinct⟩

theorem processed_fresh {visited : List Bool} {t : Int} (ht0 : 0 ≤ t)
    (hlen : t < (visited.length : Int)) (hv : ¬ visitedAt visited t) (c : Int) (hc : 0 ≤ c) :
    processed (visited.set t.toNat true) t 0 c ↔ processed visited 0 3 c := by
  unfold processed
  constructor
  · rintro ⟨h1, h2⟩
    have hne : c / 3 ≠ t := fun he => by have := h2 he; omega
    rcases (visitedAt_set ht0 hlen (by omega)).mp h1 with h3 | h3
    · exact absurd h3 hne
    · exact ⟨h3, fun _ => by omega⟩
  · rintro ⟨h1, _⟩
    have hne : c / 3 ≠ t := fun he => hv (he ▸ h1)
    exact ⟨(visitedAt_set ht0 hlen (by omega)).mpr (Or.inr h1), fun he => absurd he hne⟩

theorem BfsSound.sound_pop_fresh {ct : CornerTable} {st : Traversal} {t : Int}
    {rest : List Int} (hinv : BfsInv ct st 0 3) (h : BfsSound ct st 0 3)
    (hq : st.bufferedTriangles = t :: rest) (ht0 : 0 ≤ t)
    (ht1 : t < (ct.getNumTriangles : Int)) (hv : ¬ visitedAt st.visitedTriangles t) :
    BfsSound ct
      { st with
        bufferedTriangles := rest
        visitedTriangles := st.visitedTriangles.set t.toNat true } t 0 := by
  have hlen : t < (st.visitedTriangles.length : Int) := by rw [hinv.len]; exact ht1
  refine ⟨fun x hx => h.queue x (by rw [hq]; exact List.mem_cons_of_mem _ hx), ?_, ?_⟩
  · intro x hx hvx
    rcases (visitedAt_set ht0 hlen hx).mp hvx with rfl | h1
    · exact h.queue x (by rw [hq]; exact List.mem_cons_self _ _)
    · exact h.visited x hx h1
  · intro c1 c2 a1 a2 a3 a4 a5 a6 a7 a8 a9
    exact h.distinct c1 c2 a1 a2 a3 a4 ((processed_fresh ht0 hlen hv c1 a1).mp a5)
      ((processed_fresh ht0 hlen hv c2 a3).mp a6) a7 a8 a9

theorem BfsInv.pop_fresh_linked {ct : CornerTable} (hwl : WellLinked ct) {st : Traversal}
    {t : Int} {rest : List Int} (h : BfsInv ct st 0 3) (hq : st.bufferedTriangles = t :: rest)
    (ht0 : 0 ≤ t) (ht1 : t < (ct.getNumTriangles : Int))
    (hv : ¬ visitedAt st.visitedTriangles t) :
    BfsInv ct
      { st with
        bufferedTriangles := rest
        visitedTriangles := st.visitedTriangles.set t.toNat true } t 0 := by
  have hlen : t < (st.visitedTriangles.length : Int) := by rw [h.len]; exact ht1
  have hmono : ∀ x, 0 ≤ x → visitedAt st.visitedTriangles x →
      visitedAt (st.visitedTriangles.set t.toNat true) x :=
    fun x hx hvx => (visitedAt_set ht0 hlen hx).mpr (Or.inr hvx)
  have hself : visitedAt (st.visitedTriangles.set t.toNat true) t :=
    (visitedAt_set ht0 hlen ht0).mpr (Or.inl rfl)
  have hp := processed_fresh ht0 hlen hv
  refine ⟨by simp [h.len], ?_, ?_, ?_, ?_, h.nodup⟩
  · intro x hx
    exact h.queue x (by rw [hq]; exact List.mem_cons_of_mem _ hx)
  · intro c a1 a2 a3 a4
    have hin := (hwl c a1 a2).resolve_left a4
    have hnn : 0 ≤ cornerTriangle (ct.cornerOpposite c) := by
      unfold cornerTriangle
      omega
    rcases h.closed c a1 a2 ((hp c a1).mp a3) a4 with h1 | h1
    · exact Or.inl (hmono _ hnn h1)
    · rw [hq] at h1
      rcases List.mem_cons.mp h1 with h2 | h2
      · exact Or.inl (h2 ▸ hself)
      · exact Or.inr h2
  · rcases h.start with h1 | h1
    · exact Or.inl (hmono 0 (le_refl _) h1)
    · rw [hq] at h1
      rcases List.mem_cons.mp h1 with h2 | h2
      · exact Or.inl (h2 ▸ hself)
      · exact Or.inr h2
  · intro p
    simp only
    rw [h.edges p]
    constructor <;> rintro ⟨c, a1, a2, a3, a4, a5⟩
    · exact ⟨c, a1, a2, (hp c a1).mpr a3, a4, a5⟩
    · exact ⟨c, a1, a2, (hp c a1).mp a3, a4, a5⟩

/-- One call of `processCorner` during the traversal of a well-linked table: either it returns
and the invariants go on to the next corner, or its assertion fails and two boundary corners of
reachable triangles record the same origin. -/
theorem processCorner_run {ct : CornerTable} (hwl : WellLinked ct) {st : Traversal}
    {t s : Int} (hinv : BfsInv ct st t s) (hsound : BfsSound ct st t s) (ht0 : 0 ≤ t)
    (ht1 : t < (ct.getNumTriangles : Int)) (hs0 : 0 ≤ s) (hs1 : s < 3)
    (hv : visitedAt st.visitedTriangles t) :
    (∃ st1, processCorner ct st (3 * t + s) = .ok st1 ∧ BfsInv ct st1 t (s + 1) ∧
      BfsSound ct st1 t (s + 1) ∧ st1.visitedTriangles = st.visitedTriangles ∧
      st1.bufferedTriangles.length ≤ st.bufferedTriangles.length + 1) ∨
    (processCorner ct st (3 * t + s) = .error .assertion ∧ OriginClash ct) := by
  have hc0 : 0 ≤ 3 * t + s := by omega
  have hc1 : 3 * t + s < 3 * (ct.getNumTriangles : Int) := by omega
  have hct : (3 * t + s) / 3 = t := by omega
  have hrt : Reachable ct t := hsound.visited t ht0 hv
  have hnotproc : ¬ processed st.visitedTriangles t s (3 * t + s) := by
    rintro ⟨_, h⟩
    have := h (by omega)
    omega
  unfold processCorner
  by_cases hb : ct.cornerOpposite (3 * t + s) = BORDER_CORNER
  · simp only [hb, if_true]
    by_cases hk : st.boundaryEdges.hasKey (ct.cornerToVertexIndex (cornerNext (3 * t + s))) = true
    · right
      simp only [hk, if_true, true_and]
      obtain ⟨p, hp, hp1⟩ := List.mem_map.mp (EdgeMap.hasKey_iff.mp hk)
      obtain ⟨c, a1, a2, a3, a4, a5⟩ := (hinv.edges p).mp hp
      have hne : c ≠ 3 * t + s := fun he => hnotproc (he ▸ a3)
      have hrc : Reachable ct (c / 3) := hsound.visited (c / 3) (by omega) a3.1
      exact ⟨c, 3 * t + s, hne, a1, a2, hc0, hc1, hrc, by rw [hct]; exact hrt, a4, hb,
        by rw [a5]; exact hp1⟩
    · left
      have hkey : ct.cornerToVertexIndex (cornerNext (3 * t + s)) ∉ st.boundaryEdges.keys :=
        fun hm => hk (EdgeMap.hasKey_iff.mpr hm)
      simp only [hk, Bool.false_eq_true, if_false]
      refine ⟨_, rfl, ⟨hinv.len, hinv.queue, ?_, hinv.start, ?_, ?_⟩,
        ⟨hsound.queue, hsound.visited, ?_⟩, rfl, by simp⟩
      · intro c a1 a2 a3 a4
        rcases (processed_succ hv hs0 hs1 c).mp a3 with h | rfl
        · exact hinv.closed c a1 a2 h a4
        · exact absurd hb a4
      · intro p
        simp only
        rw [EdgeMap.mem_assign hkey]
        constructor
        · rintro (rfl | hp)
          · exact ⟨3 * t + s, hc0, hc1, (processed_succ hv hs0 hs1 _).mpr (Or.inr rfl), hb, rfl⟩
          · obtain ⟨c, a1, a2, a3, a4, a5⟩ := (hinv.edges p).mp hp
            exact ⟨c, a1, a2, (processed_succ hv hs0 hs1 c).mpr (Or.inl a3), a4, a5⟩
        · rintro ⟨c, a1, a2, a3, a4, a5⟩
          rcases (processed_succ hv hs0 hs1 c).mp a3 with h | rfl
          · exact Or.inr ((hinv.edges p).mpr ⟨c, a1, a2, h, a4, a5⟩)
          · exact Or.inl a5.symm
      · exact EdgeMap.nodup_assign hkey hinv.nodup
      · have hold : ∀ c, 0 ≤ c → c < 3 * (ct.getNumTriangles : Int) →
            processed st.visitedTriangles t s c → ct.cornerOpposite c = BORDER_CORNER →
            (edgeAt ct c).1 ≠ (edgeAt ct (3 * t + s)).1 := by
          intro c a1 a2 a3 a4 he
          apply hkey
          have : edgeAt ct c ∈ st.boundaryEdges := (hinv.edges _).mpr ⟨c, a1, a2, a3, a4, rfl⟩
          have hm := EdgeMap.mem_keys_of_mem this
          rw [he] at hm
          exact hm
        intro c1 c2 a1 a2 a3 a4 a5 a6 a7 a8 a9
        rcases (processed_succ hv hs0 hs1 c1).mp a5 with h1 | h1 <;>
        rcases (processed_succ hv hs0 hs1 c2).mp a6 with h2 | h2
        · exact hsound.distinct c1 c2 a1 a2 a3 a4 h1 h2 a7 a8 a9
        · subst h2
          exact absurd a9 (hold c1 a1 a2 h1 a7)
        · subst h1
          exact absurd a9.symm (hold c2 a3 a4 h2 a8)
        · rw [h1, h2]
  · left
    simp only [hb, if_false]
    have hin := (hwl (3 * t + s) hc0 hc1).resolve_left hb
    have hstep := Reachable.step t s hrt hs0 hs1 hb
    refine ⟨_, rfl, ⟨hinv.len, ?_, ?_, ?_, ?_, hinv.nodup⟩, ⟨?_, hsound.visited, ?_⟩, rfl,
      by simp⟩
    · intro x hx
      simp only [List.mem_append, List.mem_singleton] at hx
      rcases hx with hx | rfl
      · exact hinv.queue x hx
      · unfold cornerTriangle
        omega
    · intro c a1 a2 a3 a4
      simp only [List.mem_append, List.mem_singleton]
      rcases (processed_succ hv hs0 hs1 c).mp a3 with h | rfl
      · rcases hinv.closed c a1 a2 h a4 with h1 | h1
        · exact Or.inl h1
        · exact Or.inr (Or.inl h1)
      · exact Or.inr (Or.inr rfl)
    · rcases hinv.start with h | h
      · exact Or.inl h
      · exact Or.inr (List.mem_append_left _ h)
    · intro p
      simp only
      rw [hinv.edges p]
      constructor
      · rintro ⟨c, a1, a2, a3, a4, a5⟩
        exact ⟨c, a1, a2, (processed_succ hv hs0 hs1 c).mpr (Or.inl a3), a4, a5⟩
      · rintro ⟨c, a1, a2, a3, a4, a5⟩
        rcases (processed_succ hv hs0 hs1 c).mp a3 with h | rfl
        · exact ⟨c, a1, a2, h, a4, a5⟩
        · exact absurd a4 hb
    · intro x hx
      simp only [List.mem_append, List.mem_singleton] at hx
      rcases hx with hx | rfl
      · exact hsound.queue x hx
      · exact hstep
    · intro c1 c2 a1 a2 a3 a4 a5 a6 a7 a8 a9
      rcases (processed_succ hv hs0 hs1 c1).mp a5 with h1 | h1
      · rcases (processed_succ hv hs0 hs1 c2).mp a6 with h2 | h2
        · exact hsound.distinct c1 c2 a1 a2 a3 a4 h1 h2 a7 a8 a9
        · subst h2
          exact absurd a8 hb
      · subst h1
        exact absurd a7 hb

/-- The loop of the traversal on a well-linked table, with fuel for three steps per unvisited
triangle and one per buffered triangle: either it returns with the invariants and an empty
buffer, or the assertion of `processCorner` fails and two boundary corners of reachable
triangles record the same origin. -/
theorem bfs_run {ct : CornerTable} (hwl : WellLinked ct) (fuel : Nat) :
    ∀ st : Traversal, BfsInv ct st 0 3 → BfsSound ct st 0 3 →
      3 * st.visitedTriangles.count false + st.bufferedTriangles.length ≤ fuel →
      (∃ st1, bfs ct fuel st = .ok st1 ∧ BfsInv ct st1 0 3 ∧ BfsSound ct st1 0 3 ∧
        st1.bufferedTriangles = []) ∨
      (bfs ct fuel st = .error .assertion ∧ OriginClash ct) := by
  induction fuel with
  | zero =>
    intro st hinv hsound hm
    have hq : st.bufferedTriangles = [] := by
      apply List.eq_nil_of_length_eq_zero
      omega
    exact Or.inl ⟨st, bfs_nil ct 0 st hq, hinv, hsound, hq⟩
  | succ fuel ih =>
    intro st hinv hsound hm
    cases hq : st.bufferedTriangles with
    | nil => exact Or.inl ⟨st, bfs_nil ct _ st hq, hinv, hsound, hq⟩
    | cons t rest =>
      have hlen : st.bufferedTriangles.length = rest.length + 1 := by rw [hq]; rfl
      obtain ⟨ht0, ht1⟩ := hinv.queue t (by rw [hq]; exact List.mem_cons_self _ _)
      have hrange : ¬ (t < 0 ∨ (st.visitedTriangles.length : Int) ≤ t) := by
        rw [hinv.len]
        omega
      rw [bfs_cons ct fuel st t rest hq, if_neg hrange]
      by_cases hv : st.visitedTriangles.getD t.toNat false = true
      · rw [if_pos hv]
        exact ih _ (hinv.pop_visited hq hv) (hsound.sound_pop_visited hq) (by simp only; omega)
      · rw [if_neg hv]
        have hf : st.visitedTriangles.getD t.toNat false = false := by
          simpa using hv
        have hi : t.toNat < st.visitedTriangles.length := by
          rw [hinv.len]
          omega
        have hcount := count_false_set hi hf
        have inv0 := hinv.pop_fresh_linked hwl hq ht0 ht1 hv
        have snd0 := hsound.sound_pop_fresh hinv hq ht0 ht1 hv
        have hself : visitedAt (st.visitedTriangles.set t.toNat true) t :=
          (visitedAt_set ht0 (by rw [hinv.len]; exact ht1) ht0).mpr (Or.inl rfl)
        rcases processCorner_run hwl inv0 snd0 ht0 ht1 (le_refl 0) (by decide) hself with
          ⟨s1, e1, inv1, snd1, v1, q1⟩ | ⟨e1, hclash⟩
        swap
        · rw [add_zero] at e1
          rw [e1]
          exact Or.inr ⟨rfl, hclash⟩
        rw [add_zero] at e1
        rw [show (0 : Int) + 1 = 1 from rfl] at inv1 snd1
        rw [e1]
        simp only [bind, Except.bind]
        rcases processCorner_run hwl inv1 snd1 ht0 ht1 (by decide) (by decide) (v1 ▸ hself) with
          ⟨s2, e2, inv2, snd2, v2, q2⟩ | ⟨e2, hclash⟩
        swap
        · rw [e2]
          exact Or.inr ⟨rfl, hclash⟩
        rw [show (1 : Int) + 1 = 2 from rfl] at inv2 snd2
        rw [e2]
        simp only
        rcases processCorner_run hwl inv2 snd2 ht0 ht1 (by decide) (by decide)
            (v2 ▸ v1 ▸ hself) with
          ⟨s3, e3, inv3, snd3, v3, q3⟩ | ⟨e3, hclash⟩
        swap
        · rw [e3]
          exact Or.inr ⟨rfl, hclash⟩
        rw [show (2 : Int) + 1 = 3 from rfl] at inv3 snd3
        rw [e3]
        simp only
        apply ih s3 (inv3.retarget 0) (snd3.sound_retarget 0)
        rw [v3, v2, v1]
        simp only at q1 hcount ⊢
        omega

theorem reachable_visited_linked {ct : CornerTable} (hwl : WellLinked ct)
    (hT : 1 ≤ ct.getNumTriangles) {st : Traversal} (hinv : BfsInv ct st 0 3)
    (hq : st.bufferedTriangles = []) (t : Int) (h : Reachable ct t) :
    0 ≤ t ∧ t < (ct.getNumTriangles : Int) ∧ visitedAt st.visitedTriangles t := by
  induction h with
  | start =>
    have h0 : cornerTriangle 0 = 0 := by decide
    rw [h0]
    refine ⟨le_refl _, by omega, ?_⟩
    rcases hinv.start with h1 | h1
    · exact h1
    · rw [hq] at h1
      cases h1
  | step t s _ hs0 hs1 hb ih =>
    obtain ⟨a1, a2, a3⟩ := ih
    have hc0 : 0 ≤ 3 * t + s := by omega
    have hc1 : 3 * t + s < 3 * (ct.getNumTriangles : Int) := by omega
    have hin := (hwl _ hc0 hc1).resolve_left hb
    have hproc : processed st.visitedTriangles 0 3 (3 * t + s) := by
      refine ⟨?_, fun _ => by omega⟩
      have : (3 * t + s) / 3 = t := by omega
      rw [this]
      exact a3
    refine ⟨by unfold cornerTriangle; omega, by unfold cornerTriangle; omega, ?_⟩
    rcases hinv.closed _ hc0 hc1 hproc hb with h1 | h1
    · exact h1
    · rw [hq] at h1
      cases h1

theorem connectivity_no_assertion (fuel : Nat) : ∀ (m : EdgeMap)
    (boundaries : List HoleBoundary), connectivity fuel m boundaries ≠ .error .assertion := by
  induction fuel with
  | zero =>
    intro m boundaries
    cases m <;> simp [connectivity]
  | succ fuel ih =>
    intro m boundaries
    cases m with
    | nil => simp [connectivity]
    | cons oldIt rest =>
      rw [connectivity]
      simp only [bind, Except.bind]
      have hna := followChain_no_assertion fuel (oldIt :: rest) oldIt
        (EdgeMap.lookup (oldIt :: rest) oldIt.2) [oldIt.1]
      generalize followChain fuel (oldIt :: rest) oldIt
        (EdgeMap.lookup (oldIt :: rest) oldIt.2) [oldIt.1] = r at hna ⊢
      cases r with
      | error e =>
        simp only [ne_eq, Except.error.injEq]
        intro he
        exact hna (by rw [he])
      | ok p =>
        obtain ⟨m1, hole⟩ := p
        exact ih m1 (boundaries ++ [hole.reverse])

/-- C12.  For every corner table with at least one triangle (a well-linked one: the opposite of
a corner is a corner of the table or `BORDER_CORNER`) and fuel `3T + 1` or more,
`calculateHoleBoundaries` fails at one of its assertions if and only if some triangle is not
reachable from the triangle of corner 0 by opposite-corner links, or two boundary corners of
triangles met by the traversal record a boundary edge with the same origin vertex. -/
theorem calculateHoleBoundaries_assertion_iff (ct : CornerTable) (fuel : Nat)
    (boundaries : List HoleBoundary) (hT : 1 ≤ ct.getNumTriangles) (hwl : WellLinked ct)
    (hfuel : 3 * ct.getNumTriangles + 1 ≤ fuel) :
    calculateHoleBoundaries ct fuel boundaries = .error .assertion ↔
      (Disconnected ct ∨ OriginClash ct) := by
  have h0 : cornerTriangle 0 = 0 := by decide
  have hnv : ∀ x, ¬ visitedAt (List.replicate ct.getNumTriangles false) x := by
    intro x
    unfold visitedAt
    rw [List.getD_eq_getElem?_getD, List.getElem?_replicate]
    split <;> simp
  have hinit : BfsInv ct ⟨[], List.replicate ct.getNumTriangles false, [cornerTriangle 0]⟩ 0 3 := by
    refine ⟨by simp, ?_, ?_, ?_, ?_, by simp [EdgeMap.keys]⟩
    · intro x hx
      simp only [List.mem_singleton] at hx
      rw [hx, h0]
      omega
    · intro c _ _ a3 _
      exact absurd a3.1 (hnv _)
    · right
      simp [h0]
    · intro p
      simp only [List.not_mem_nil, false_iff, not_exists, not_and]
      intro c _ _ a3
      exact absurd a3.1 (hnv _)
  have sinit : BfsSound ct ⟨[], List.replicate ct.getNumTriangles false, [cornerTriangle 0]⟩
      0 3 := by
    refine ⟨?_, fun x _ hx => absurd hx (hnv x), fun c1 _ _ _ _ _ a5 => absurd a5.1 (hnv _)⟩
    intro x hx
    simp only [List.mem_singleton] at hx
    rw [hx]
    exact Reachable.start
  have hrun := bfs_run hwl fuel _ hinit sinit (by
    simp only [List.count_replicate_self, List.length_singleton]
    omega)
  unfold calculateHoleBoundaries traverse
  simp only [bind, Except.bind]
  rcases hrun with ⟨st1, hbfs, hinv, hsound, hq⟩ | ⟨hbfs, hclash⟩
  · rw [hbfs]
    simp only
    by_cases hall : st1.visitedTriangles.all id = true
    · simp only [hall, if_true]
      constructor
      · intro h
        exact absurd h (connectivity_no_assertion fuel _ _)
      · intro h
        exfalso
        have hvis : ∀ t, 0 ≤ t → t < (ct.getNumTriangles : Int) →
            visitedAt st1.visitedTriangles t := by
          intro t ht0 ht1
          have hi : t.toNat < st1.visitedTriangles.length := by
            rw [hinv.len]
            omega
          have := List.all_eq_true.mp hall _ (List.getElem_mem hi)
          unfold visitedAt
          rw [List.getD_eq_getElem?_getD, List.getElem?_eq_getElem hi, Option.getD_some]
          exact this
        rcases h with ⟨t, ht0, ht1, hnr⟩ | ⟨c1, c2, hne, a1, a2, a3, a4, r1, r2, b1, b2, he⟩
        · exact hnr (hsound.visited t ht0 (hvis t ht0 ht1))
        · apply hne
          exact hsound.distinct c1 c2 a1 a2 a3 a4
            ⟨hvis (c1 / 3) (by omega) (by omega), fun _ => by omega⟩
            ⟨hvis (c2 / 3) (by omega) (by omega), fun _ => by omega⟩ b1 b2 he
    · simp only [hall, Bool.false_eq_true, if_false, true_iff]
      left
      have hex : ∃ x ∈ st1.visitedTriangles, ¬ (id x = true) := by
        by_contra hcon
        apply hall
        rw [List.all_eq_true]
        intro x hx
        by_contra hx1
        exact hcon ⟨x, hx, hx1⟩
      obtain ⟨x, hx, hx1⟩ := hex
      obtain ⟨i, hi, hxi⟩ := List.getElem_of_mem hx
      refine ⟨(i : Int), by omega, by rw [← hinv.len]; omega, ?_⟩
      intro hr
      have := (reachable_visited_linked hwl hT hinv hq (i : Int) hr).2.2
      unfold visitedAt at this
      rw [List.getD_eq_getElem?_getD] at this
      simp only [Int.toNat_ofNat, List.getElem?_eq_getElem hi, Option.getD_some] at this
      rw [hxi] at this
      exact hx1 this
  · rw [hbfs]
    simp only [true_iff]
    exact Or.inr hclash

/-- Witness for C12: two triangles that share nothing. -/
theorem calculateHoleBoundaries_assertion_iff_witness :
    calculateHoleBoundaries twoTriangles 7 [] = .error .assertion ↔
      (Disconnected twoTriangles ∨ OriginClash twoTriangles) :=
  calculateHoleBoundaries_assertion_iff twoTriangles 7 [] (by decide)
    (by
      intro c h0 h1
      have h2 : c < 6 := h1
      interval_cases c <;> exact Or.inl (by decide))
    (by decide)

/-! ## The dynamic program: the keys of the table -/

theorem baseEdges_find {R : Type} [Zero R] (xs : List Int) (ws : WeightSet R) (q : Int × Int) :
    (xs.foldl (fun ws i => ws.set (i, i + 1) (-1, DihedralAngleWeight.zero)) ws).find q =
      if q.1 ∈ xs ∧ q.2 = q.1 + 1 then some (-1, DihedralAngleWeight.zero) else ws.find q := by
  induction xs generalizing ws with
  | nil => simp
  | cons x rest ih =>
    rw [List.foldl_cons, ih, WeightSet.find_set]
    by_cases h1 : q.1 ∈ rest ∧ q.2 = q.1 + 1
    · have h2 : q.1 ∈ x :: rest ∧ q.2 = q.1 + 1 := ⟨List.mem_cons_of_mem _ h1.1, h1.2⟩
      rw [if_pos h1, if_pos h2]
    · rw [if_neg h1]
      by_cases h3 : q = (x, x + 1)
      · have h2 : q.1 ∈ x :: rest ∧ q.2 = q.1 + 1 := by
          rw [h3]
          exact ⟨List.mem_cons_self _ _, rfl⟩
        rw [if_pos h3, if_pos h2]
      · have h2 : ¬ (q.1 ∈ x :: rest ∧ q.2 = q.1 + 1) := by
          rintro ⟨a, b⟩
          rcases List.mem_cons.mp a with a | a
          · apply h3
            apply Prod.ext
            · exact a
            · simp only
              rw [b, a]
          · exact h1 ⟨a, b⟩
        rw [if_neg h3, if_neg h2]

/-- What the second base loop leaves of a table: the keys of width other than two are untouched,
and the keys `(i, i + 2)` of the iterations made are present with the apex `i + 1`. -/
theorem baseTriangles_find {R : Type} [Zero R] (cost : CostModel R) (n : Int) (hn : 2 ≤ n)
    (ws ws1 : WeightSet R) (h : baseTriangles cost n ws = .ok ws1) :
    (∀ q : Int × Int, q.2 ≠ q.1 + 2 → ws1.find q = ws.find q) ∧
    (∀ i : Int, 0 ≤ i → i ≤ n - 3 → ∃ w, ws1.find (i, i + 2) = some (i + 1, w)) := by
  have key := foldlM_intRange
    (fun ws i => do
      let w ← weightFunction cost ws i (i + 1) (i + 2)
      pure (ws.set (i, i + 2) (i + 1, w)))
    (fun c s => (∀ q : Int × Int, q.2 ≠ q.1 + 2 → s.find q = ws.find q) ∧
      (∀ i : Int, 0 ≤ i → i < c → ∃ w, s.find (i, i + 2) = some (i + 1, w)))
    0 (n - 3) ?_ (by omega) ws ws1 ⟨fun _ _ => rfl, fun i h0 h1 => by omega⟩ h
  · exact ⟨key.1, fun i h0 h1 => key.2 i h0 (by omega)⟩
  · intro c s s1 _ _ ⟨hP1, hP2⟩ hstep
    cases hw : weightFunction cost s c (c + 1) (c + 2) with
    | error e =>
      simp only [hw, bind, Except.bind] at hstep
      cases hstep
    | ok w =>
      simp only [hw, bind, Except.bind, pure, Except.pure, Except.ok.injEq] at hstep
      subst hstep
      refine ⟨?_, ?_⟩
      · intro q hq
        rw [WeightSet.find_set, if_neg, hP1 q hq]
        intro hqc
        apply hq
        rw [hqc]
      · intro i h0 h1
        rw [WeightSet.find_set]
        by_cases hic : i = c
        · subst hic
          exact ⟨w, by rw [if_pos rfl]⟩
        · obtain ⟨w1, hw1⟩ := hP2 i h0 (by omega)
          refine ⟨w1, ?_⟩
          rw [if_neg, hw1]
          intro hq
          simp only [Prod.mk.injEq] at hq
          exact hic hq.1

/-- After the two base loops the unit edges hold the apex `-1` and the keys of width one and two
are present. -/
theorem base_filled {R : Type} [Zero R] (cost : CostModel R) (n : Int) (hn : 2 ≤ n)
    (ws : WeightSet R) (h : baseTriangles cost n (baseEdges n WeightSet.empty) = .ok ws) :
    (∀ i : Int, 0 ≤ i → i ≤ n - 2 → ws.find (i, i + 1) = some (-1, DihedralAngleWeight.zero)) ∧
    Filled n ws 3 0 := by
  obtain ⟨h1, h2⟩ := baseTriangles_find cost n hn _ ws h
  have hedge : ∀ i : Int, 0 ≤ i → i ≤ n - 2 →
      ws.find (i, i + 1) = some (-1, DihedralAngleWeight.zero) := by
    intro i h0 hi
    rw [h1 (i, i + 1) (by simp only; omega)]
    unfold baseEdges
    rw [baseEdges_find, if_pos]
    exact ⟨mem_intRange.mpr ⟨h0, hi⟩, rfl⟩
  refine ⟨hedge, ?_⟩
  intro i k h0 hik hk hcase
  have hw : k = i + 1 ∨ k = i + 2 := by omega
  rcases hw with rfl | rfl
  · rw [hedge i h0 (by omega)]
    rfl
  · obtain ⟨w, hw⟩ := h2 i h0 (by omega)
    rw [hw]
    rfl

theorem Filled.advance {R : Type} (n j c : Int) (ws : WeightSet R)
    (best : Int × DihedralAngleWeight R) (h : Filled n ws j c) :
    Filled n (ws.set (c, c + j) best) j (c + 1) := by
  intro i k h0 hik hk hcase
  rw [WeightSet.find_set]
  by_cases hkey : (i, k) = (c, c + j)
  · rw [if_pos hkey]
    rfl
  · rw [if_neg hkey]
    apply h i k h0 hik hk
    rcases hcase with hc | ⟨hc1, hc2⟩
    · exact Or.inl hc
    · right
      refine ⟨hc1, ?_⟩
      have : i ≠ c := by
        intro hic
        apply hkey
        simp only [Prod.mk.injEq]
        omega
      omega

theorem spanLoopBefore_filled {R : Type} [LinearOrder R] [Add R] [Zero R] (cost : CostModel R)
    (n j c : Int) (hc : 0 ≤ c) (ws ws1 : WeightSet R) (hfill : Filled n ws j 0)
    (h : spanLoopBefore cost j c ws = .ok ws1) : Filled n ws1 j c := by
  have key := foldlM_intRange
    (fun ws i => do
      let k := i + j
      let best ← apexLoop cost ws i k
      pure (ws.set (i, k) best))
    (fun c ws => Filled n ws j c) 0 (c - 1) ?_ (by omega) ws ws1 hfill h
  · simpa using key
  · intro c1 s s1 _ _ hP hstep
    cases hb : apexLoop cost s c1 (c1 + j) with
    | error e =>
      simp only [hb, bind, Except.bind] at hstep
      cases hstep
    | ok best =>
      simp only [hb, bind, Except.bind, pure, Except.pure, Except.ok.injEq] at hstep
      rw [← hstep]
      exact Filled.advance n j c1 s best hP

theorem spanLoop_before {R : Type} [LinearOrder R] [Add R] [Zero R] (cost : CostModel R)
    (n j : Int) (ws : WeightSet R) : spanLoop cost n j ws = spanLoopBefore cost j (n - j) ws :=
  rfl

theorem widthLoop_before {R : Type} [LinearOrder R] [Add R] [Zero R] (cost : CostModel R)
    (n : Int) (ws : WeightSet R) : widthLoop cost n ws = widthLoopBefore cost n n ws := rfl

theorem widthLoopBefore_filled {R : Type} [LinearOrder R] [Add R] [Zero R] (cost : CostModel R)
    (n j : Int) (hj : 3 ≤ j) (hjn : j ≤ n) (ws ws1 : WeightSet R) (hfill : Filled n ws 3 0)
    (h : widthLoopBefore cost n j ws = .ok ws1) : Filled n ws1 j 0 := by
  have key := foldlM_intRange (fun ws j1 => spanLoop cost n j1 ws)
    (fun j1 ws => Filled n ws j1 0) 3 (j - 1) ?_ (by omega) ws ws1 hfill h
  · simpa using key
  · intro j1 s s1 h3 hj1 hP hstep
    simp only [spanLoop_before] at hstep
    have := spanLoopBefore_filled cost n j1 (n - j1) (by omega) s s1 hP hstep
    intro i k h0 hik hk hcase
    apply this i k h0 hik hk
    omega

/-- C17.  On a boundary of length `n >= 3`, at the head of the iteration of the main loop for
the width `j` and the span `(i, i + j)` - after the two base loops, the iterations for the widths
`3 .. j - 1` and the iterations `0 .. i - 1` for the width `j` - the table holds the keys
`(i, m)` and `(m, i + j)` for every `m` with `i < m < i + j`: the reads of lines 420-421 (and
those of lines 366-367, which use the same keys) never meet an absent key. -/
theorem weightSet_reads_present {R : Type} [LinearOrder R] [Add R] [Zero R]
    (cost : CostModel R) (n : Int) (hn : 3 ≤ n) (ws0 ws1 ws2 : WeightSet R) (j i m : Int)
    (hbase : baseTriangles cost n (baseEdges n WeightSet.empty) = .ok ws0)
    (hj : 3 ≤ j) (hjn : j ≤ n - 1) (hwidths : widthLoopBefore cost n j ws0 = .ok ws1)
    (hi : 0 ≤ i) (hin : i ≤ n - j - 1) (hspans : spanLoopBefore cost j i ws1 = .ok ws2)
    (hm1 : i < m) (hm2 : m < i + j) :
    (ws2.find (i, m)).isSome = true ∧ (ws2.find (m, i + j)).isSome = true := by
  have h0 := (base_filled cost n (by omega) ws0 hbase).2
  have h1 := widthLoopBefore_filled cost n j hj (by omega) ws0 ws1 h0 hwidths
  have h2 := spanLoopBefore_filled cost n j i hi ws1 ws2 h1 hspans
  exact ⟨h2 i m hi hm1 (by omega) (Or.inl (by omega)),
    h2 m (i + j) (by omega) hm2 (by omega) (Or.inl (by omega))⟩

theorem gentle_base :
    baseTriangles gentleCost 4 (baseEdges 4 WeightSet.empty) = .ok gentleBase := by
  simp [Prod.ext_iff, baseEdges, baseTriangles, intRange_cons, intRange_nil, weightFunction,
    gentleCost, gentleBase, WeightSet.set, WeightSet.get, WeightSet.empty,
    DihedralAngleWeight.zero, bind, Except.bind, pure, Except.pure]

/-- Witness for C17: the first iteration of the main loop on a boundary of four vertices under
`gentleCost`, span `(0, 3)`, candidate `m = 1`. -/
theorem weightSet_reads_present_witness :
    (gentleBase.find (0, 1)).isSome = true ∧ (gentleBase.find (1, 0 + 3)).isSome = true :=
  weightSet_reads_present gentleCost 4 (by decide) gentleBase gentleBase gentleBase 3 0 1
    gentle_base (by decide) (by decide) rfl (by decide) (by decide) rfl (by decide) (by decide)

/-! ## The weighting on a source mesh -/

theorem getAt_error {α : Type} {array : List α} {i : Int} {e : Failure}
    (h : getAt array i = .error e) : e = .outOfRange := by
  unfold getAt at h
  split at h
  · cases h; rfl
  · split at h
    · cases h
    · cases h; rfl

theorem getAt_negative {α : Type} (array : List α) {i : Int} (h : i < 0) :
    getAt array i = .error .outOfRange := by
  simp [getAt, h]

/-- In the branch of lines 364-391 an apex below zero read from the table makes the read
`boundary[ vij ]` fail, whatever the mesh. -/
theorem meshCost_interior_border {R : Type} [LinearOrderedField R] (env : WeightOps R)
    (mesh : SourceMesh R) (boundary : HoleBoundary) (vi vj vk vij vjk : Int) (h : vij < 0) :
    (meshCost env mesh boundary).interior vi vj vk vij vjk = .error .outOfRange := by
  simp only [meshCost, bind, Except.bind, getAt_negative boundary h]
  cases h1 : getAt boundary vi with
  | error e => rw [getAt_error h1]
  | ok bi =>
    simp only
    cases h2 : getAt mesh.getAttributes bi with
    | error e => rw [getAt_error h2]
    | ok v1 =>
      simp only
      cases h3 : getAt boundary vj with
      | error e => rw [getAt_error h3]
      | ok bj =>
        simp only
        cases h4 : getAt mesh.getAttributes bj with
        | error e => rw [getAt_error h4]
        | ok v2 =>
          simp only
          cases h5 : getAt boundary vk with
          | error e => rw [getAt_error h5]
          | ok bk =>
            simp only
            cases h6 : getAt mesh.getAttributes bk with
            | error e => rw [getAt_error h6]
            | ok v3 => rfl

/-- The main loop fails at its first evaluation when the table holds the apex `-1` for the unit
edge `(0, 1)` and the cost is computed on a source mesh. -/
theorem widthLoop_border {R : Type} [LinearOrderedField R] (env : WeightOps R)
    (mesh : SourceMesh R) (boundary : HoleBoundary) (n : Int) (hn : 4 ≤ n) (ws : WeightSet R)
    (h : (ws.get (0, 1)).1 = -1) :
    weightFunction (meshCost env mesh boundary) ws 0 1 3 = .error .outOfRange ∧
    widthLoop (meshCost env mesh boundary) n ws = .error .outOfRange := by
  have hw : weightFunction (meshCost env mesh boundary) ws 0 1 3 = .error .outOfRange := by
    unfold weightFunction
    rw [if_neg (by decide), h]
    exact meshCost_interior_border env mesh boundary 0 1 3 (-1) _ (by decide)
  refine ⟨hw, ?_⟩
  unfold widthLoop widths
  rw [intRange_cons (by omega)]
  simp only [List.foldlM_cons, bind, Except.bind]
  have hspan : spanLoop (meshCost env mesh boundary) n 3 ws = .error .outOfRange := by
    unfold spanLoop
    rw [intRange_cons (by omega)]
    simp only [List.foldlM_cons, bind, Except.bind]
    have hapex : apexLoop (meshCost env mesh boundary) ws 0 (0 + 3) = .error .outOfRange := by
      unfold apexLoop
      rw [intRange_cons (by decide)]
      simp only [List.foldlM_cons, bind, Except.bind, apexStep]
      rw [show (0 : Int) + 1 = 1 from rfl, show (0 : Int) + 3 = 3 from rfl, hw]
    rw [hapex]
  rw [hspan]

/-- C15 (code at the failing input).  On every source mesh and every boundary of length
`n >= 4` on which the two base loops complete, the first evaluation of the main loop is
`f(0, 1, 3)`, in which `(1, 3)` is not a boundary edge: the apex looked up for the sub-span
`(0, 1)` is the `-1` stored by the first base loop, not a boundary position, the read
`boundary[ -1 ]` is out of range, and `calculateMinimumPatchMesh` does not return an index
list. -/
theorem calculateMinimumPatchMesh_border_apex {R : Type} [LinearOrderedField R]
    (env : WeightOps R) (mesh : SourceMesh R) (boundary : HoleBoundary) (fuel : Nat)
    (ws : WeightSet R) (hn : 4 ≤ boundary.length)
    (hbase : baseTriangles (meshCost env mesh boundary) (boundary.length : Int)
      (baseEdges (boundary.length : Int) WeightSet.empty) = .ok ws) :
    (ws.get (0, 1)).1 = -1 ∧
    weightFunction (meshCost env mesh boundary) ws 0 1 3 = .error .outOfRange ∧
    calculateMinimumPatchMesh (meshCost env mesh boundary) fuel boundary =
      .error .outOfRange := by
  have hn1 : (4 : Int) ≤ (boundary.length : Int) := by omega
  have hedge := (base_filled (meshCost env mesh boundary) (boundary.length : Int) (by omega)
    ws hbase).1 0 (le_refl _) (by omega)
  have hget : (ws.get (0, 1)).1 = -1 := by
    unfold WeightSet.get
    rw [show ((0 : Int), (1 : Int)) = (0, 0 + 1) from rfl, hedge]
    rfl
  obtain ⟨h1, h2⟩ := widthLoop_border env mesh boundary (boundary.length : Int) hn1 ws hget
  refine ⟨hget, h1, ?_⟩
  rw [calculateMinimumPatchMesh]
  simp only [weightTable, hbase, bind, Except.bind, h2]

theorem gluedPair_onBoundary (vi : Int) (h0 : 0 ≤ vi) (h1 : vi ≤ 1) :
    (meshCost nullOps gluedPair [2, 3, 1, 0]).onBoundary vi (vi + 1) (vi + 2) =
      .ok ⟨0, 0⟩ := by
  have hattr : gluedPair.getAttributes =
      [(0, 0, 0), (1, 0, 0), (0, 1, 0), (1, 1, 0), (2, 0, 0), (2, 1, 0)] := rfl
  have t1 : findCommonTriangle (gluedPair.getCornerNeighbours (gluedPair.vertexToCornerIndex 2))
      (gluedPair.getCornerNeighbours (gluedPair.vertexToCornerIndex 3)) = 1 := by decide
  have t2 : findCommonTriangle (gluedPair.getCornerNeighbours (gluedPair.vertexToCornerIndex 3))
      (gluedPair.getCornerNeighbours (gluedPair.vertexToCornerIndex 1)) = 1 := by decide
  have t3 : findCommonTriangle (gluedPair.getCornerNeighbours (gluedPair.vertexToCornerIndex 1))
      (gluedPair.getCornerNeighbours (gluedPair.vertexToCornerIndex 0)) = 0 := by decide
  have hv : vi = 0 ∨ vi = 1 := by omega
  rcases hv with rfl | rfl
  · simp only [meshCost, getAt_cons_zero, getAt_one, getAt_two, getAt_three, bind, Except.bind,
      t1, t2, hattr, zero_add, one_add_one_eq_two]
    simp [BORDER_CORNER, calculateDihedralAngle, hattr, getAt, bind, Except.bind, nullOps,
      pure, Except.pure]
  · simp only [meshCost, getAt_cons_zero, getAt_one, getAt_two, getAt_three, bind, Except.bind,
      t2, t3, hattr, one_add_one_eq_two, show (1 : Int) + 2 = 3 from rfl]
    simp [BORDER_CORNER, calculateDihedralAngle, hattr, getAt, bind, Except.bind, nullOps,
      pure, Except.pure]

theorem weightFunction_consecutive {R : Type} [Zero R] (cost : CostModel R) (ws : WeightSet R)
    (vi : Int) :
    weightFunction cost ws vi (vi + 1) (vi + 2) = cost.onBoundary vi (vi + 1) (vi + 2) := by
  unfold weightFunction
  rw [if_pos ⟨rfl, by omega⟩]

theorem gluedPair_base :
    baseTriangles (meshCost nullOps gluedPair [2, 3, 1, 0]) 4 (baseEdges 4 WeightSet.empty) =
      .ok gluedBase := by
  have hr : intRange 0 (4 - 3) = [0, 1] := by decide
  have he : intRange 0 (4 - 2) = [0, 1, 2] := by decide
  unfold baseTriangles baseEdges
  rw [hr, he]
  simp only [List.foldlM_cons, List.foldlM_nil, List.foldl_cons, List.foldl_nil, bind,
    Except.bind, weightFunction_consecutive,
    gluedPair_onBoundary 0 (by decide) (by decide),
    gluedPair_onBoundary 1 (by decide) (by decide)]
  rfl

/-- Witness for C15: the boundary `[2, 3, 1, 0]` of `gluedPair`. -/
theorem calculateMinimumPatchMesh_border_apex_witness :
    (gluedBase.get (0, 1)).1 = -1 ∧
    weightFunction (meshCost nullOps gluedPair [2, 3, 1, 0]) gluedBase 0 1 3 =
      .error .outOfRange ∧
    calculateMinimumPatchMesh (meshCost nullOps gluedPair [2, 3, 1, 0]) 5 [2, 3, 1, 0] =
      .error .outOfRange :=
  calculateMinimumPatchMesh_border_apex nullOps gluedPair [2, 3, 1, 0] 5 gluedBase (by decide)
    gluedPair_base

/-! ## The weighting on a source mesh: the triangles compared against -/

theorem calculateDihedralAngle_ok {R : Type} [LinearOrderedField R] (env : WeightOps R)
    (mesh : SourceMesh R) (vi vj vk vl vm vn : Int) (p1 p2 p3 p4 p5 p6 : Vec3 R)
    (h1 : getAt mesh.getAttributes vi = .ok p1) (h2 : getAt mesh.getAttributes vj = .ok p2)
    (h3 : getAt mesh.getAttributes vk = .ok p3) (h4 : getAt mesh.getAttributes vl = .ok p4)
    (h5 : getAt mesh.getAttributes vm = .ok p5) (h6 : getAt mesh.getAttributes vn = .ok p6) :
    calculateDihedralAngle env mesh vi vj vk vl vm vn =
      .ok (env.acos (((p2.sub p1).cross (p3.sub p1)).dot ((p5.sub p4).cross (p6.sub p4)))) := by
  simp only [calculateDihedralAngle, h1, h2, h3, h4, h5, h6, bind, Except.bind, pure,
    Except.pure]

theorem openTetrahedron_first : findCommonTriangle
      (openTetrahedron.getCornerNeighbours (openTetrahedron.vertexToCornerIndex 2))
      (openTetrahedron.getCornerNeighbours (openTetrahedron.vertexToCornerIndex 1)) = 1 := by
  decide

theorem openTetrahedron_second : findCommonTriangle
      (openTetrahedron.getCornerNeighbours (openTetrahedron.vertexToCornerIndex 1))
      (openTetrahedron.getCornerNeighbours (openTetrahedron.vertexToCornerIndex 0)) = 0 := by
  decide

theorem openTetrahedron_attributes :
    openTetrahedron.getAttributes = [(0, 0, 0), (1, 0, 0), (0, 1, 0), (0, 0, 1)] := rfl

theorem openTetrahedron_onBoundary (env : WeightOps ℚ) :
    (meshCost env openTetrahedron [2, 1, 0]).onBoundary 0 1 2 = .error .outOfRange := by
  simp only [meshCost, getAt_cons_zero, getAt_one, getAt_two, bind, Except.bind,
    openTetrahedron_first, openTetrahedron_second, openTetrahedron_attributes]
  simp [BORDER_CORNER, calculateDihedralAngle, openTetrahedron_attributes, getAt, bind,
    Except.bind]

theorem openTetrahedron_table (env : WeightOps ℚ) :
    weightTable (meshCost env openTetrahedron [2, 1, 0]) 3 = .error .outOfRange := by
  have hr : intRange 0 (3 - 3) = [0] := by decide
  unfold weightTable baseTriangles
  rw [hr]
  simp only [List.foldlM_cons, bind, Except.bind, weightFunction_consecutive]
  rw [show (0 : Int) + 1 = 1 from rfl, show (0 : Int) + 2 = 2 from rfl,
    openTetrahedron_onBoundary]

/-- C16 (code at the failing input).  On `openTetrahedron` with the boundary `[2, 1, 0]` the
evaluation `weightFunction(0, 1, 2)` takes the branch of the consecutive boundary edges.  For the
edge of the vertices 2 and 1 `findCommonTriangle` finds the triangle `t = 1`, whose vertices
`cornerToVertexIndex(3), cornerToVertexIndex(4), cornerToVertexIndex(5)` are the valid vertex
indices 1, 2, 3; the code passes the corner indices `3t, 3t + 1, 3t + 2 = 3, 4, 5` to
`calculateDihedralAngle`, which reads the positions of the vertices 3, 4, 5, and the mesh has no
vertex 4: `calculateMinimumPatchMesh` fails with a read out of range.  For the edge of the
vertices 1 and 0 the triangle found is `t = 0` with the vertices 0, 1, 3; the positions read
are those of the vertices 0, 1, 2, and the angle computed is `acos(-1)` where the triangle
`t` gives `acos(0)`. -/
theorem calculateMinimumPatchMesh_openTetrahedron (env : WeightOps ℚ) (fuel : Nat) :
    findCommonTriangle
      (openTetrahedron.getCornerNeighbours (openTetrahedron.vertexToCornerIndex 2))
      (openTetrahedron.getCornerNeighbours (openTetrahedron.vertexToCornerIndex 1)) = 1 ∧
    (openTetrahedron.cornerToVertexIndex (3 * 1), openTetrahedron.cornerToVertexIndex (3 * 1 + 1),
      openTetrahedron.cornerToVertexIndex (3 * 1 + 2)) = (1, 2, 3) ∧
    (∀ v : Int, 0 ≤ v → v ≤ 3 → ∃ p, getAt openTetrahedron.getAttributes v = .ok p) ∧
    getAt openTetrahedron.getAttributes (3 * 1 + 1) = .error .outOfRange ∧
    calculateDihedralAngle env openTetrahedron 2 1 0 (3 * 1) (3 * 1 + 1) (3 * 1 + 2) =
      .error .outOfRange ∧
    calculateMinimumPatchMesh (meshCost env openTetrahedron [2, 1, 0]) fuel [2, 1, 0] =
      .error .outOfRange ∧
    findCommonTriangle
      (openTetrahedron.getCornerNeighbours (openTetrahedron.vertexToCornerIndex 1))
      (openTetrahedron.getCornerNeighbours (openTetrahedron.vertexToCornerIndex 0)) = 0 ∧
    (openTetrahedron.cornerToVertexIndex (3 * 0), openTetrahedron.cornerToVertexIndex (3 * 0 + 1),
      openTetrahedron.cornerToVertexIndex (3 * 0 + 2)) = (0, 1, 3) ∧
    calculateDihedralAngle env openTetrahedron 2 1 0 (3 * 0) (3 * 0 + 1) (3 * 0 + 2) =
      .ok (env.acos (-1)) ∧
    calculateDihedralAngle env openTetrahedron 2 1 0 (openTetrahedron.cornerToVertexIndex (3 * 0))
      (openTetrahedron.cornerToVertexIndex (3 * 0 + 1))
      (openTetrahedron.cornerToVertexIndex (3 * 0 + 2)) = .ok (env.acos 0) := by
  have h3 : (([2, 1, 0] : List Int).length : Int) = 3 := rfl
  refine ⟨openTetrahedron_first, rfl, ?_, ?_, ?_, ?_, openTetrahedron_second, rfl, ?_, ?_⟩
  · intro v h0 h1
    have : v = 0 ∨ v = 1 ∨ v = 2 ∨ v = 3 := by omega
    rw [openTetrahedron_attributes]
    rcases this with rfl | rfl | rfl | rfl
    · exact ⟨_, getAt_cons_zero _ _⟩
    · exact ⟨_, getAt_one _ _ _⟩
    · exact ⟨_, getAt_two _ _ _ _⟩
    · exact ⟨_, getAt_three _ _ _ _ _⟩
  · simp [openTetrahedron_attributes, getAt]
  · simp [calculateDihedralAngle, openTetrahedron_attributes, getAt, bind, Except.bind]
  · rw [calculateMinimumPatchMesh, h3, openTetrahedron_table]
    rfl
  · show calculateDihedralAngle env openTetrahedron 2 1 0 0 1 2 = .ok (env.acos (-1))
    rw [calculateDihedralAngle_ok env openTetrahedron 2 1 0 0 1 2 _ _ _ _ _ _
      (getAt_two _ _ _ _) (getAt_one _ _ _) (getAt_cons_zero _ _)
      (getAt_cons_zero _ _) (getAt_one _ _ _) (getAt_two _ _ _ _)]
    congr 2
    norm_num [Vec3.sub, Vec3.cross, Vec3.dot]
  · show calculateDihedralAngle env openTetrahedron 2 1 0 0 1 3 = .ok (env.acos 0)
    rw [calculateDihedralAngle_ok env openTetrahedron 2 1 0 0 1 3 _ _ _ _ _ _
      (getAt_two _ _ _ _) (getAt_one _ _ _) (getAt_cons_zero _ _)
      (getAt_cons_zero _ _) (getAt_one _ _ _) (getAt_three _ _ _ _ _)]
    congr 2
    norm_num [Vec3.sub, Vec3.cross, Vec3.dot]

theorem openFan_attributes : openFan.getAttributes =
    [(2, 0, 0), (1, 1, 0), (0, 2, 0), (-1, 1, 0), (-2, 0, 0), (0, 0, 0)] := rfl

theorem openFan_closing : findCommonTriangle
      (openFan.getCornerNeighbours (openFan.vertexToCornerIndex 0))
      (openFan.getCornerNeighbours (openFan.vertexToCornerIndex 4)) = BORDER_CORNER := by
  decide

theorem openFan_apart : findCommonTriangle
      (openFan.getCornerNeighbours (openFan.vertexToCornerIndex 0))
      (openFan.getCornerNeighbours (openFan.vertexToCornerIndex 2)) = BORDER_CORNER := by
  decide

theorem getAt_four {α : Type} (a b c d e : α) (rest : List α) :
    getAt (a :: b :: c :: d :: e :: rest) 4 = .ok e := by
  have := getAt_cons_succ a (b :: c :: d :: e :: rest) 3 (by decide)
  rw [show (3 : Int) + 1 = 4 from rfl] at this
  rw [this]
  exact getAt_three b c d e rest

/-- The lambda `weightFunction` evaluated by itself on `openFan`, where the vertices 0 and 4 lie
in no common triangle, and neither do the vertices 0 and 2.  In the branch of the consecutive
boundary edges (boundary `[0, 2, 4]`, evaluation `weightFunction(0, 1, 2)`) the sentinel
returned by `findCommonTriangle` is caught by the assertion of line 347.  In the closing-edge
case the text of the lambda has no assertion: on `fanTable`, a table that holds the apexes 1
and 3 and that no run of `calculateMinimumPatchMesh` produces, the evaluation
`weightFunction(0, 2, 4)` for the boundary `[0, 1, 2, 3, 4]` passes the indices `-3, -2, -1` to
`calculateDihedralAngle`, which reads out of range. -/
theorem weightFunction_openFan (env : WeightOps ℚ) :
    findCommonTriangle
      (openFan.getCornerNeighbours (openFan.vertexToCornerIndex 0))
      (openFan.getCornerNeighbours (openFan.vertexToCornerIndex 2)) = BORDER_CORNER ∧
    weightFunction (meshCost env openFan [0, 2, 4]) fanTable 0 1 2 = .error .assertion ∧
    findCommonTriangle
      (openFan.getCornerNeighbours (openFan.vertexToCornerIndex 0))
      (openFan.getCornerNeighbours (openFan.vertexToCornerIndex 4)) = BORDER_CORNER ∧
    (fanTable.get (0, 2)).1 = 1 ∧ (fanTable.get (2, 4)).1 = 3 ∧
    calculateDihedralAngle env openFan 0 2 4 (3 * BORDER_CORNER) (3 * BORDER_CORNER + 1)
      (3 * BORDER_CORNER + 2) = .error .outOfRange ∧
    weightFunction (meshCost env openFan [0, 1, 2, 3, 4]) fanTable 0 2 4 =
      .error .outOfRange := by
  have g1 : (fanTable.get (0, 2)).1 = 1 := by
    simp [Prod.ext_iff, fanTable, WeightSet.get, WeightSet.set]
  have g2 : (fanTable.get (2, 4)).1 = 3 := by
    simp [Prod.ext_iff, fanTable, WeightSet.get, WeightSet.set]
  have hd : calculateDihedralAngle env openFan 0 2 4 (3 * BORDER_CORNER)
      (3 * BORDER_CORNER + 1) (3 * BORDER_CORNER + 2) = .error .outOfRange := by
    simp [calculateDihedralAngle, openFan_attributes, getAt, bind, Except.bind, BORDER_CORNER]
  refine ⟨openFan_apart, ?_, openFan_closing, g1, g2, hd, ?_⟩
  · have hw := weightFunction_consecutive (meshCost env openFan [0, 2, 4]) fanTable 0
    rw [show (0 : Int) + 1 = 1 from rfl, show (0 : Int) + 2 = 2 from rfl] at hw
    rw [hw]
    simp only [meshCost, getAt_cons_zero, getAt_one, getAt_two, getAt_four, bind, Except.bind,
      openFan_apart, openFan_attributes]
    simp
  · unfold weightFunction
    rw [if_neg (by decide), g1, g2]
    have hlen : (([0, 1, 2, 3, 4] : List Int).length : Int) - 1 = 4 := rfl
    have d1 := calculateDihedralAngle_ok env openFan 0 2 4 0 1 2 _ _ _ _ _ _
      (getAt_cons_zero _ _) (getAt_two _ _ _ _) (getAt_four _ _ _ _ _ _)
      (getAt_cons_zero _ _) (getAt_one _ _ _) (getAt_two _ _ _ _)
    have d2 := calculateDihedralAngle_ok env openFan 0 2 4 2 3 4 _ _ _ _ _ _
      (getAt_cons_zero _ _) (getAt_two _ _ _ _) (getAt_four _ _ _ _ _ _)
      (getAt_two _ _ _ _) (getAt_three _ _ _ _ _) (getAt_four _ _ _ _ _ _)
    simp only [meshCost, getAt_cons_zero, getAt_one, getAt_two, getAt_three, getAt_four, bind,
      Except.bind, openFan_attributes, hlen, d1, d2, openFan_closing, hd, and_self, if_true]

/-! ## The refinement: runs that return -/

theorem splitStep_flag {R : Type} [LinearOrderedField R] (env : FloatOps R)
    (patchMesh : PatchMesh R) (st st1 : Refinement R) (entry : Nat × (Int × Int × Int))
    (h : splitStep env patchMesh st entry = .ok st1) :
    (st.hadCreatedTriangles = true → st1.hadCreatedTriangles = true) ∧
    st.newIndexArray.length < st1.newIndexArray.length ∧
    (st1.hadCreatedTriangles = false →
      (∃ centroid, splitTest env patchMesh st.scaleAttributes entry.1 entry.2 =
        .ok (centroid, false)) ∧
      st1 = { st with newIndexArray := st.newIndexArray ++ [entry.2] }) := by
  unfold splitStep at h
  simp only [bind, Except.bind] at h
  split at h
  · cases h
  · rename_i test htest
    split at h
    · split at h
      · cases h
      · split at h
        · cases h
        · split at h
          · cases h
          · simp only [pure, Except.pure, Except.ok.injEq] at h
            subst h
            exact ⟨fun _ => rfl, by simp, fun hf => by simp at hf⟩
    · rename_i hsplit
      simp only [pure, Except.pure, Except.ok.injEq] at h
      subst h
      refine ⟨fun hh => hh, by simp, fun _ => ⟨⟨test.1, ?_⟩, rfl⟩⟩
      rw [htest]
      have : test.2 = false := by simpa using hsplit
      rw [← this]

theorem splitPass_flag {R : Type} [LinearOrderedField R] (env : FloatOps R)
    (patchMesh : PatchMesh R) : ∀ (entries : List (Nat × (Int × Int × Int)))
    (st st1 : Refinement R), entries.foldlM (splitStep env patchMesh) st = .ok st1 →
    (st.hadCreatedTriangles = true → st1.hadCreatedTriangles = true) ∧
    st.newIndexArray.length ≤ st1.newIndexArray.length ∧
    (entries ≠ [] → 0 < st1.newIndexArray.length) := by
  intro entries
  induction entries with
  | nil =>
    intro st st1 h
    simp only [List.foldlM_nil, pure, Except.pure, Except.ok.injEq] at h
    subst h
    exact ⟨fun hh => hh, le_refl _, fun hh => absurd rfl hh⟩
  | cons e rest ih =>
    intro st st1 h
    simp only [List.foldlM_cons, bind, Except.bind] at h
    split at h
    · cases h
    · rename_i st2 hstep
      obtain ⟨a1, a2, _⟩ := splitStep_flag env patchMesh st st2 e hstep
      obtain ⟨b1, b2, _⟩ := ih st2 st1 h
      exact ⟨fun hh => b1 (a1 hh), by omega, fun _ => by omega⟩

/-- A pass that returns without having created a triangle found no triangle to split. -/
theorem splitPass_quiet {R : Type} [LinearOrderedField R] (env : FloatOps R)
    (patchMesh : PatchMesh R) : ∀ (entries : List (Nat × (Int × Int × Int)))
    (st st1 : Refinement R), entries.foldlM (splitStep env patchMesh) st = .ok st1 →
    st1.hadCreatedTriangles = false →
    ∀ e ∈ entries, ∃ centroid,
      splitTest env patchMesh st.scaleAttributes e.1 e.2 = .ok (centroid, false) := by
  intro entries
  induction entries with
  | nil => intro st st1 _ _ e he; cases he
  | cons e0 rest ih =>
    intro st st1 h hquiet e he
    simp only [List.foldlM_cons, bind, Except.bind] at h
    split at h
    · cases h
    · rename_i st2 hstep
      obtain ⟨_, _, a3⟩ := splitStep_flag env patchMesh st st2 e0 hstep
      obtain ⟨b1, _, _⟩ := splitPass_flag env patchMesh rest st2 st1 h
      have hq2 : st2.hadCreatedTriangles = false := by
        cases hh : st2.hadCreatedTriangles
        · rfl
        · rw [b1 hh] at hquiet
          cases hquiet
      obtain ⟨c1, c2⟩ := a3 hq2
      rcases List.mem_cons.mp he with rfl | hmem
      · exact c1
      · have := ih st2 st1 h hquiet e hmem
        rw [c2] at this
        exact this

/-- A call of `calculateRefinedPatchMesh` that returns had fuel for one pass and found no
triangle to split in it: once a triangle is split the loop around `relaxAllEdges` does not end. -/
theorem calculateRefinedPatchMesh_returns {R : Type} [LinearOrderedField R] (env : FloatOps R)
    (ops : RelaxationOps R) (averageEdgeLength : Int → R) (fuel : Nat)
    (patchMesh refined : PatchMesh R) (boundary : HoleBoundary)
    (h : calculateRefinedPatchMesh env ops averageEdgeLength fuel patchMesh boundary =
      .ok refined) :
    0 < fuel ∧ ∀ e ∈ patchMesh.triangles.enum, ∃ centroid,
      splitTest env patchMesh (boundary.map averageEdgeLength) e.1 e.2 = .ok (centroid, false) := by
  unfold calculateRefinedPatchMesh at h
  simp only [bind, Except.bind] at h
  split at h
  · cases h
  · rename_i st hloop
    cases fuel with
    | zero => cases hloop
    | succ fuel =>
      refine ⟨Nat.succ_pos _, ?_⟩
      rw [refineLoop_succ env ops patchMesh fuel _ rfl] at hloop
      simp only [bind, Except.bind] at hloop
      split at hloop
      · cases hloop
      · rename_i st1 hpass
        have hpass1 : patchMesh.triangles.enum.foldlM (splitStep env patchMesh)
            { scaleAttributes := boundary.map averageEdgeLength
              newVertexArray := patchMesh.vertices
              newIndexArray := []
              boundaryIndexArray := patchMesh.triangles
              verticesToFlip := []
              hadCreatedTriangles := false
              hasDoneSwaps := false } = .ok st1 := hpass
        rcases Bool.eq_false_or_eq_true st1.hadCreatedTriangles with hflag | hflag
        swap
        · have hq := splitPass_quiet env patchMesh patchMesh.triangles.enum
            { scaleAttributes := boundary.map averageEdgeLength
              newVertexArray := patchMesh.vertices
              newIndexArray := []
              boundaryIndexArray := patchMesh.triangles
              verticesToFlip := []
              hadCreatedTriangles := false
              hasDoneSwaps := false } st1 hpass1 hflag
          exact hq
        · exfalso
          obtain ⟨_, _, hne⟩ := splitPass_flag env patchMesh patchMesh.triangles.enum _ st1 hpass1
          have hpos : 0 < st1.newIndexArray.length := by
            apply hne
            intro hnil
            rw [hnil] at hpass1
            simp only [List.foldlM_nil, pure, Except.pure, Except.ok.injEq] at hpass1
            rw [← hpass1] at hflag
            cases hflag
          simp only [hflag, Bool.not_true, Bool.false_eq_true, if_false] at hloop
          have hd := relaxLoop_diverges ops st1.newVertexArray fuel
            (relaxInserted ops st1.newVertexArray st1.newIndexArray st1.verticesToFlip)
            (by rw [relaxInserted_length]; exact hpos)
          rw [hd] at hloop
          cases hloop

/-- A first pass that finds no triangle to split returns the input patch. -/
theorem calculateRefinedPatchMesh_quiet {R : Type} [LinearOrderedField R] (env : FloatOps R)
    (ops : RelaxationOps R) (averageEdgeLength : Int → R) (fuel : Nat)
    (patchMesh : PatchMesh R) (boundary : HoleBoundary)
    (hno : ∀ e ∈ patchMesh.triangles.enum, ∃ centroid,
      splitTest env patchMesh (boundary.map averageEdgeLength) e.1 e.2 = .ok (centroid, false)) :
    calculateRefinedPatchMesh env ops averageEdgeLength (fuel + 1) patchMesh boundary =
      .ok patchMesh := by
  unfold calculateRefinedPatchMesh
  rw [refineLoop_succ env ops patchMesh fuel _ rfl]
  unfold splitPass
  have key := splitPass_unsplit env patchMesh patchMesh.triangles.enum
    { scaleAttributes := boundary.map averageEdgeLength
      newVertexArray := patchMesh.vertices
      newIndexArray := []
      boundaryIndexArray := patchMesh.triangles
      verticesToFlip := []
      hadCreatedTriangles := false
      hasDoneSwaps := false } hno
  simp only at key ⊢
  rw [key]
  simp only [bind, Except.bind, pure, Except.pure, List.enum_map_snd, List.nil_append,
    Bool.not_false, if_true]

/-- C11.  Whenever `calculateRefinedPatchMesh` returns a patch `refined` for a patch and a
boundary, running it again on `refined` with the same boundary and the same source mesh (the
same target scales) returns, for every positive fuel, a patch with the same vertex array and the
same index array as `refined`, hence the same vertex count and the same triangle count. -/
theorem calculateRefinedPatchMesh_idempotent {R : Type} [LinearOrderedField R]
    (env : FloatOps R) (ops : RelaxationOps R) (averageEdgeLength : Int → R) (fuel : Nat)
    (patchMesh refined : PatchMesh R) (boundary : HoleBoundary)
    (h : calculateRefinedPatchMesh env ops averageEdgeLength fuel patchMesh boundary =
      .ok refined) (again : Nat) :
    ∃ second, calculateRefinedPatchMesh env ops averageEdgeLength (again + 1) refined boundary =
        .ok second ∧
      second.vertices = refined.vertices ∧ second.triangles = refined.triangles ∧
      second.vertices.length = refined.vertices.length ∧
      second.triangles.length = refined.triangles.length := by
  obtain ⟨hfuel, hno⟩ := calculateRefinedPatchMesh_returns env ops averageEdgeLength fuel
    patchMesh refined boundary h
  obtain ⟨k, rfl⟩ : ∃ k, fuel = k + 1 := ⟨fuel - 1, by omega⟩
  rw [calculateRefinedPatchMesh_quiet env ops averageEdgeLength k patchMesh boundary hno] at h
  simp only [Except.ok.injEq] at h
  subst h
  exact ⟨patchMesh, calculateRefinedPatchMesh_quiet env ops averageEdgeLength again patchMesh
    boundary hno, rfl, rfl, rfl, rfl⟩

/-- Witness for C11: the patch `bigTriangle` with target scale 10 at every vertex. -/
theorem calculateRefinedPatchMesh_idempotent_witness :
    ∃ second, calculateRefinedPatchMesh exactOps (listOps ℚ) (fun _ => 10) 1 bigTriangle
        [0, 1, 2] = .ok second ∧
      second.vertices = bigTriangle.vertices ∧ second.triangles = bigTriangle.triangles ∧
      second.vertices.length = bigTriangle.vertices.length ∧
      second.triangles.length = bigTriangle.triangles.length :=
  calculateRefinedPatchMesh_idempotent exactOps (listOps ℚ) (fun _ => 10) 1 bigTriangle
    bigTriangle [0, 1, 2]
    (by
      have hno : ∀ e ∈ bigTriangle.triangles.enum, ∃ centroid,
          splitTest exactOps bigTriangle (([0, 1, 2] : List Int).map (fun _ => (10 : ℚ)))
            e.1 e.2 = .ok (centroid, false) := by
        intro e he
        have : e = (0, (0, 1, 2)) := by simpa [bigTriangle] using he
        subst this
        refine ⟨(0, 0, 0), ?_⟩
        simp [splitTest, bigTriangle, getAt, calculateCentroid, centroidScaleAttribute,
          splitCondition, exactOps, Vec3.sub, Vec3.toFloat, bind, Except.bind, pure,
          Except.pure]
        norm_num
      exact calculateRefinedPatchMesh_quiet exactOps (listOps ℚ) (fun _ => 10) 0 bigTriangle
        [0, 1, 2] hno) 0

/-! ## The split pass -/

theorem getAt_append {α : Type} {array : List α} {i : Int} {a : α} (more : List α)
    (h : getAt array i = .ok a) : getAt (array ++ more) i = .ok a := by
  unfold getAt at h ⊢
  split at h
  · cases h
  · rename_i hi
    rw [if_neg hi]
    cases hx : array[i.toNat]? with
    | none => rw [hx] at h; cases h
    | some b =>
      rw [hx] at h
      have hlt : i.toNat < array.length := by
        by_contra hge
        rw [List.getElem?_eq_none (by omega)] at hx
        cases hx
      rw [List.getElem?_append_left hlt, hx]
      exact h

theorem getAt_getD {α : Type} {array : List α} {i : Int} {a : α} (d : α)
    (h : getAt array i = .ok a) : array.getD i.toNat d = a := by
  unfold getAt at h
  split at h
  · cases h
  · cases hx : array[i.toNat]? with
    | none => rw [hx] at h; cases h
    | some b =>
      rw [hx] at h
      simp only [Except.ok.injEq] at h
      rw [List.getD_eq_getElem?_getD, hx, ← h]
      rfl

theorem centroidScaleAttribute_append {R : Type} [LinearOrderedField R] (env : FloatOps R)
    {scaleAttributes : List R} {iTriangle : Int} {r : R} (more : List R)
    (h : centroidScaleAttribute env scaleAttributes iTriangle = .ok r) :
    centroidScaleAttribute env (scaleAttributes ++ more) iTriangle = .ok r := by
  unfold centroidScaleAttribute at h ⊢
  simp only [bind, Except.bind] at h ⊢
  cases h0 : getAt scaleAttributes iTriangle with
  | error e => rw [h0] at h; cases h
  | ok s0 =>
    rw [h0] at h
    simp only at h
    cases h1 : getAt scaleAttributes (iTriangle + 1) with
    | error e => rw [h1] at h; cases h
    | ok s1 =>
      rw [h1] at h
      simp only at h
      cases h2 : getAt scaleAttributes (iTriangle + 2) with
      | error e => rw [h2] at h; cases h
      | ok s2 =>
        rw [h2] at h
        rw [getAt_append more h0, getAt_append more h1, getAt_append more h2]
        exact h

theorem splitCondition_append {R : Type} [LinearOrderedField R] (env : FloatOps R)
    {scaleAttributes : List R} (centroid v1 v2 v3 : Vec3 R) (centroidScale : R)
    (vi vj vk : Int) {b : Bool} (more : List R)
    (h : splitCondition env scaleAttributes centroid v1 v2 v3 centroidScale vi vj vk = .ok b) :
    splitCondition env (scaleAttributes ++ more) centroid v1 v2 v3 centroidScale vi vj vk =
      .ok b := by
  unfold splitCondition at h ⊢
  simp only [bind, Except.bind] at h ⊢
  by_cases c1 : env.M_SQRT2 * env.length (centroid.sub v1) > centroidScale
  · simp only [c1, not_true_eq_false, if_false] at h ⊢
    cases g1 : getAt scaleAttributes vi with
    | error e => rw [g1] at h; cases h
    | ok si =>
      rw [g1] at h
      rw [getAt_append more g1]
      simp only at h ⊢
      by_cases c2 : env.M_SQRT2 * env.length (centroid.sub v1) > si
      · simp only [c2, not_true_eq_false, if_false] at h ⊢
        by_cases c3 : env.M_SQRT2 * env.length (centroid.sub v2) > centroidScale
        · simp only [c3, not_true_eq_false, if_false] at h ⊢
          cases g2 : getAt scaleAttributes vj with
          | error e => rw [g2] at h; cases h
          | ok sj =>
            rw [g2] at h
            rw [getAt_append more g2]
            simp only at h ⊢
            by_cases c4 : env.M_SQRT2 * env.length (centroid.sub v2) > sj
            · simp only [c4, not_true_eq_false, if_false] at h ⊢
              by_cases c5 : env.M_SQRT2 * env.length (centroid.sub v3) > centroidScale
              · simp only [c5, not_true_eq_false, if_false] at h ⊢
                cases g3 : getAt scaleAttributes vk with
                | error e => rw [g3] at h; cases h
                | ok sk =>
                  rw [g3] at h
                  rw [getAt_append more g3]
                  exact h
              · simp only [c5, not_false_eq_true, if_true] at h ⊢
                exact h
            · simp only [c4, not_false_eq_true, if_true] at h ⊢
              exact h
        · simp only [c3, not_false_eq_true, if_true] at h ⊢
          exact h
      · simp only [c2, not_false_eq_true, if_true] at h ⊢
        exact h
  · simp only [c1, not_false_eq_true, if_true] at h ⊢
    exact h

/-- A split test that has been evaluated gives the same result on a longer scale array, and its
centroid is the centroid of the three positions of the triangle. -/
theorem splitTest_append {R : Type} [LinearOrderedField R] (env : FloatOps R)
    (patchMesh : PatchMesh R) {scaleAttributes : List R} (index : Nat)
    (triangle : Int × Int × Int) {r : Vec3 R × Bool} (more : List R)
    (h : splitTest env patchMesh scaleAttributes index triangle = .ok r) :
    splitTest env patchMesh (scaleAttributes ++ more) index triangle = .ok r ∧
      r.1 = centroidOf env patchMesh triangle := by
  unfold splitTest at h ⊢
  simp only [bind, Except.bind] at h ⊢
  cases g1 : getAt patchMesh.vertices triangle.1 with
  | error e => rw [g1] at h; cases h
  | ok v1 =>
    rw [g1] at h
    simp only at h ⊢
    cases g2 : getAt patchMesh.vertices triangle.2.1 with
    | error e => rw [g2] at h; cases h
    | ok v2 =>
      rw [g2] at h
      simp only at h ⊢
      cases g3 : getAt patchMesh.vertices triangle.2.2 with
      | error e => rw [g3] at h; cases h
      | ok v3 =>
        rw [g3] at h
        simp only at h ⊢
        cases g4 : centroidScaleAttribute env scaleAttributes (3 * (index : Int)) with
        | error e => rw [g4] at h; cases h
        | ok cs =>
          rw [g4] at h
          rw [centroidScaleAttribute_append env more g4]
          simp only at h ⊢
          cases g5 : splitCondition env scaleAttributes (calculateCentroid env v1 v2 v3)
              (Vec3.toFloat env v1) (Vec3.toFloat env v2) (Vec3.toFloat env v3) cs
              triangle.1 triangle.2.1 triangle.2.2 with
          | error e => rw [g5] at h; cases h
          | ok b =>
            rw [g5] at h
            rw [splitCondition_append env _ _ _ _ cs _ _ _ more g5]
            simp only [pure, Except.pure, Except.ok.injEq] at h ⊢
            refine ⟨h, ?_⟩
            rw [← h]
            simp only [centroidOf, getAt_getD 0 g1, getAt_getD 0 g2, getAt_getD 0 g3]

theorem splitStep_cases {R : Type} [LinearOrderedField R] (env : FloatOps R)
    (patchMesh : PatchMesh R) (st st2 : Refinement R) (entry : Nat × (Int × Int × Int))
    (h : splitStep env patchMesh st entry = .ok st2) :
    ∃ centroid split,
      splitTest env patchMesh st.scaleAttributes entry.1 entry.2 = .ok (centroid, split) ∧
      (split = false →
        st2.newIndexArray = st.newIndexArray ++ [entry.2] ∧
        st2.newVertexArray = st.newVertexArray ∧
        st2.scaleAttributes = st.scaleAttributes) ∧
      (split = true → ∃ si sj sk,
        getAt st.scaleAttributes entry.2.1 = .ok si ∧
        getAt st.scaleAttributes entry.2.2.1 = .ok sj ∧
        getAt st.scaleAttributes entry.2.2.2 = .ok sk ∧
        st2.newIndexArray = st.newIndexArray ++
          [((st.newVertexArray.length : Int), entry.2.2.1, entry.2.2.2),
            (entry.2.1, (st.newVertexArray.length : Int), entry.2.2.2),
            (entry.2.1, entry.2.2.1, (st.newVertexArray.length : Int))] ∧
        st2.newVertexArray = st.newVertexArray ++ [centroid] ∧
        st2.scaleAttributes = st.scaleAttributes ++ [(si + sj + sk) / 3]) := by
  unfold splitStep at h
  simp only [bind, Except.bind] at h
  split at h
  · cases h
  · rename_i test htest
    refine ⟨test.1, test.2, htest, ?_, ?_⟩
    · intro hf
      simp only [hf, Bool.false_eq_true, if_false, pure, Except.pure, Except.ok.injEq] at h
      subst h
      exact ⟨rfl, rfl, rfl⟩
    · intro ht
      simp only [ht, if_true] at h
      split at h
      · cases h
      · rename_i si hsi
        split at h
        · cases h
        · rename_i sj hsj
          split at h
          · cases h
          · rename_i sk hsk
            simp only [pure, Except.pure, Except.ok.injEq] at h
            subst h
            refine ⟨si, sj, sk, hsi, hsj, hsk, ?_, rfl, rfl⟩
            simp

theorem emitted_length : ∀ (l : List ((Int × Int × Int) × Bool)) (count : Nat),
    (emitted count l).length = l.length + 2 * (appended id l).length := by
  intro l
  induction l with
  | nil => intro count; rfl
  | cons e rest ih =>
    intro count
    obtain ⟨t, b⟩ := e
    cases b
    · simp only [emitted, List.length_cons, ih, appended, List.filter_cons, Bool.false_eq_true,
        if_false]
      omega
    · simp only [emitted, List.length_cons, ih, appended, List.filter_cons, if_true,
        List.map_cons]
      omega

theorem appended_length {α : Type} (f : Int × Int × Int → α)
    (ts : List (Int × Int × Int)) : ∀ (splits : List Bool), ts.length = splits.length →
    (appended f (ts.zip splits)).length = splits.count true := by
  induction ts with
  | nil =>
    intro splits h
    cases splits with
    | nil => rfl
    | cons b bs => cases h
  | cons t rest ih =>
    intro splits h
    cases splits with
    | nil => cases h
    | cons b bs =>
      simp only [List.length_cons, Nat.add_right_cancel_iff] at h
      have := ih bs h
      cases b
      · simpa [appended, List.filter_cons] using this
      · simp only [appended, List.zip_cons_cons, List.filter_cons, if_true, List.map_cons,
          List.length_cons, List.count_cons_self]
        simp only [appended] at this
        omega

/-- The shape of what a run of the split pass appends to the index array, the vertex array and
the scale array, in terms of the results of the split tests. -/
theorem splitPass_shape {R : Type} [LinearOrderedField R] (env : FloatOps R)
    (patchMesh : PatchMesh R) : ∀ (entries : List (Nat × (Int × Int × Int)))
    (st st1 : Refinement R), entries.foldlM (splitStep env patchMesh) st = .ok st1 →
    ∃ splits : List Bool,
      List.Forall₂ (fun e b => ∃ centroid,
        splitTest env patchMesh st1.scaleAttributes e.1 e.2 = .ok (centroid, b)) entries splits ∧
      st1.newIndexArray = st.newIndexArray ++
        emitted st.newVertexArray.length ((entries.map Prod.snd).zip splits) ∧
      st1.newVertexArray = st.newVertexArray ++
        appended (centroidOf env patchMesh) ((entries.map Prod.snd).zip splits) ∧
      st1.scaleAttributes = st.scaleAttributes ++
        appended (scaleMeanOf st1.scaleAttributes) ((entries.map Prod.snd).zip splits) := by
  intro entries
  induction entries with
  | nil =>
    intro st st1 h
    simp only [List.foldlM_nil, pure, Except.pure, Except.ok.injEq] at h
    subst h
    exact ⟨[], List.Forall₂.nil, by simp [emitted], by simp [appended], by simp [appended]⟩
  | cons e rest ih =>
    intro st st1 h
    simp only [List.foldlM_cons, bind, Except.bind] at h
    split at h
    · cases h
    · rename_i st2 hstep
      obtain ⟨splits, hF, hI, hV, hS⟩ := ih st2 st1 h
      obtain ⟨centroid, split, htest, hno, hyes⟩ := splitStep_cases env patchMesh st st2 e hstep
      cases split with
      | false =>
        obtain ⟨a1, a2, a3⟩ := hno rfl
        have hmore : st1.scaleAttributes = st.scaleAttributes ++
            appended (scaleMeanOf st1.scaleAttributes) ((rest.map Prod.snd).zip splits) :=
          hS.trans (by rw [a3])
        have t1 := (splitTest_append env patchMesh e.1 e.2
          (appended (scaleMeanOf st1.scaleAttributes) ((rest.map Prod.snd).zip splits)) htest).1
        rw [← hmore] at t1
        refine ⟨false :: splits, List.Forall₂.cons ⟨centroid, t1⟩ hF, ?_, ?_, ?_⟩
        · rw [hI, a1, a2]
          simp only [List.map_cons, List.zip_cons_cons, emitted, List.append_assoc,
            List.cons_append, List.nil_append, List.singleton_append, List.length_append,
            List.length_singleton]
          rfl
        · rw [hV, a2]
          simp [appended]
        · refine hmore.trans ?_
          simp [appended]
      | true =>
        obtain ⟨si, sj, sk, g1, g2, g3, a1, a2, a3⟩ := hyes rfl
        have hmore : st1.scaleAttributes = st.scaleAttributes ++ ([(si + sj + sk) / 3] ++
            appended (scaleMeanOf st1.scaleAttributes) ((rest.map Prod.snd).zip splits)) :=
          hS.trans (by rw [a3, List.append_assoc])
        obtain ⟨t1, t2⟩ := splitTest_append env patchMesh e.1 e.2
          ([(si + sj + sk) / 3] ++
            appended (scaleMeanOf st1.scaleAttributes) ((rest.map Prod.snd).zip splits)) htest
        rw [← hmore] at t1
        have q1 := getAt_getD 0 (getAt_append ([(si + sj + sk) / 3] ++
            appended (scaleMeanOf st1.scaleAttributes) ((rest.map Prod.snd).zip splits)) g1)
        have q2 := getAt_getD 0 (getAt_append ([(si + sj + sk) / 3] ++
            appended (scaleMeanOf st1.scaleAttributes) ((rest.map Prod.snd).zip splits)) g2)
        have q3 := getAt_getD 0 (getAt_append ([(si + sj + sk) / 3] ++
            appended (scaleMeanOf st1.scaleAttributes) ((rest.map Prod.snd).zip splits)) g3)
        rw [← hmore] at q1 q2 q3
        have hmean : scaleMeanOf st1.scaleAttributes e.2 = (si + sj + sk) / 3 := by
          unfold scaleMeanOf
          rw [q1, q2, q3]
        refine ⟨true :: splits, List.Forall₂.cons ⟨centroid, t1⟩ hF, ?_, ?_, ?_⟩
        · rw [hI, a1, a2]
          simp only [List.map_cons, List.zip_cons_cons, emitted, List.append_assoc,
            List.cons_append, List.nil_append, List.singleton_append, List.length_append,
            List.length_singleton]
          rfl
        · rw [hV, a2]
          simp only at t2
          simp [appended, t2]
        · refine hmore.trans ?_
          simp [appended, hmean]

/-- The arrays after a first split pass that completes.  When the first split pass of
`calculateRefinedPatchMesh` over a patch with `T` triangles and `V` vertices completes, let `splits` hold, triangle by triangle, the result of the
split test, and `s` the number of triangles split.  Then the index array emitted is the list of
the triangles in which each split triangle `(vi, vj, vk)` is replaced at its position by the
children `(c, vj, vk)`, `(vi, c, vk)`, `(vi, vj, c)`, `c` being the index of the vertex appended
for it, and every other triangle is re-emitted unchanged; it holds `T + 2s` triangles; the vertex
array is the one of the patch followed by the `s` centroids of the split triangles; and the scale
array is the initial one followed by the `s` means `(scale[vi] + scale[vj] + scale[vk]) / 3`. -/
theorem splitPass_first {R : Type} [LinearOrderedField R] (env : FloatOps R)
    (patchMesh : PatchMesh R) (averageEdgeLength : Int → R) (boundary : HoleBoundary)
    (st1 : Refinement R)
    (h : splitPass env patchMesh
      { scaleAttributes := boundary.map averageEdgeLength
        newVertexArray := patchMesh.vertices
        newIndexArray := []
        boundaryIndexArray := patchMesh.triangles
        verticesToFlip := []
        hadCreatedTriangles := false
        hasDoneSwaps := false } = .ok st1) :
    ∃ splits : List Bool,
      List.Forall₂ (fun e b => ∃ centroid,
        splitTest env patchMesh st1.scaleAttributes e.1 e.2 = .ok (centroid, b))
        patchMesh.triangles.enum splits ∧
      st1.newIndexArray = emitted patchMesh.vertices.length (patchMesh.triangles.zip splits) ∧
      st1.newIndexArray.length = patchMesh.triangles.length + 2 * splits.count true ∧
      st1.newVertexArray = patchMesh.vertices ++
        appended (centroidOf env patchMesh) (patchMesh.triangles.zip splits) ∧
      st1.newVertexArray.length = patchMesh.vertices.length + splits.count true ∧
      st1.scaleAttributes = boundary.map averageEdgeLength ++
        appended (scaleMeanOf st1.scaleAttributes) (patchMesh.triangles.zip splits) ∧
      st1.scaleAttributes.length = boundary.length + splits.count true := by
  obtain ⟨splits, hF, hI, hV, hS⟩ := splitPass_shape env patchMesh patchMesh.triangles.enum
    { scaleAttributes := boundary.map averageEdgeLength
      newVertexArray := patchMesh.vertices
      newIndexArray := []
      boundaryIndexArray := patchMesh.triangles
      verticesToFlip := []
      hadCreatedTriangles := false
      hasDoneSwaps := false } st1 h
  simp only [List.enum_map_snd, List.nil_append] at hI hV hS
  have hlen : patchMesh.triangles.length = splits.length := by
    have := hF.length_eq
    simpa using this
  have hzip : (patchMesh.triangles.zip splits).length = patchMesh.triangles.length := by
    simp [List.length_zip, hlen]
  refine ⟨splits, hF, hI, ?_, hV, ?_, hS, ?_⟩
  · rw [hI, emitted_length, hzip, appended_length id _ _ hlen]
  · rw [hV, List.length_append, appended_length _ _ _ hlen]
  · have := congrArg List.length hS
    rw [List.length_append, appended_length _ _ _ hlen, List.length_map] at this
    exact this

theorem sweep_fold_table {R : Type} (ops : RelaxationOps R) (corners : List Nat)
    (table : ops.Table) (flag : Bool) :
    (corners.foldl
        (fun (acc : ops.Table × Bool) (iCorner : Nat) =>
          (ops.edgeFlip acc.1 (Int.ofNat iCorner), true))
        (table, flag)).1 =
      corners.foldl (fun table (iCorner : Nat) => ops.edgeFlip table (Int.ofNat iCorner))
        table := by
  induction corners generalizing table flag with
  | nil => rfl
  | cons c rest ih =>
    rw [List.foldl_cons, List.foldl_cons, ih]

theorem relaxLoop_nil {R : Type} (ops : RelaxationOps R) (vertexArray : List (Vec3 R))
    (fuel : Nat) :
    relaxLoop ops vertexArray (fuel + 1) [] = .ok (relaxAllEdges ops vertexArray []) := by
  obtain ⟨_, h2⟩ := relaxAllEdges_spec ops vertexArray []
  have hf : (relaxAllEdges ops vertexArray []).2 = false := by
    cases hh : (relaxAllEdges ops vertexArray []).2
    · rfl
    · exact absurd (h2.mp hh) (by simp)
  rw [relaxLoop]
  simp only [hf, Bool.false_eq_true, if_false]

/-- C20.  `relaxAllEdges` applies `edgeFlip` once to every corner `0 .. 3T - 1`, in this order,
of the table built from the `T` triangles it is given, and the flag it returns is true exactly
when `T >= 1`, whatever the vertex positions and whatever `edgeFlip` does to the connectivity.
Consequently the loop `do ... while( hasDoneSwaps )` around it ends exactly when the index
array is empty. -/
theorem relaxAllEdges_sweeps {R : Type} (ops : RelaxationOps R) (vertexArray : List (Vec3 R))
    (indexArray : List (Int × Int × Int)) :
    relaxAllEdges ops vertexArray indexArray =
      (ops.getTriangleList ((List.range (3 * indexArray.length)).foldl
          (fun table (iCorner : Nat) => ops.edgeFlip table (Int.ofNat iCorner))
          (ops.build indexArray vertexArray)),
        decide (1 ≤ indexArray.length)) ∧
    ∀ fuel : Nat, (∃ res, relaxLoop ops vertexArray fuel indexArray = .ok res) ↔
      (indexArray = [] ∧ 0 < fuel) := by
  constructor
  · obtain ⟨_, h2⟩ := relaxAllEdges_spec ops vertexArray indexArray
    apply Prod.ext
    · unfold relaxAllEdges
      simp only
      rw [sweep_fold_table, ops.getNumTriangles_build, Nat.mul_comm]
    · simp only
      cases hh : (relaxAllEdges ops vertexArray indexArray).2
      · have : ¬ 0 < indexArray.length := fun hpos => by
          rw [h2.mpr hpos] at hh
          cases hh
        symm
        simpa using this
      · have := h2.mp hh
        symm
        simpa using this
  · intro fuel
    constructor
    · rintro ⟨res, hres⟩
      cases indexArray with
      | nil =>
        refine ⟨rfl, ?_⟩
        cases fuel with
        | zero => cases hres
        | succ fuel => exact Nat.succ_pos _
      | cons t rest =>
        rw [relaxLoop_diverges ops vertexArray fuel (t :: rest) (by simp)] at hres
        cases hres
    · rintro ⟨rfl, hfuel⟩
      obtain ⟨k, rfl⟩ : ∃ k, fuel = k + 1 := ⟨fuel - 1, by omega⟩
      exact ⟨_, relaxLoop_nil ops vertexArray k⟩

/-! ## The dynamic program: the order of the candidates -/

theorem weight_lt_of_lt_of_not_lt {R : Type} [LinearOrder R] {a b c : DihedralAngleWeight R}
    (hab : a.lt b) (hcb : ¬ c.lt b) : a.lt c := by
  unfold DihedralAngleWeight.lt at *
  have h1 : b.angle ≤ c.angle := by
    by_contra hlt
    exact hcb (Or.inl (lt_of_not_le hlt))
  have h2 : c.angle = b.angle → b.area ≤ c.area := by
    intro he
    by_contra hlt
    exact hcb (Or.inr ⟨he, lt_of_not_le hlt⟩)
  rcases hab with h | ⟨h3, h4⟩
  · exact Or.inl (lt_of_lt_of_le h h1)
  · rcases lt_or_eq_of_le h1 with h5 | h5
    · exact Or.inl (h3 ▸ h5)
    · exact Or.inr ⟨h3.trans h5, lt_of_lt_of_le h4 (h2 h5.symm)⟩

/-- The innermost loop keeps the first candidate of the least total: every candidate before the
apex it returns has a total strictly above the weight it returns. -/
theorem apexLoop_earliest {R : Type} [LinearOrder R] [Add R] [Zero R] (cost : CostModel R)
    (ws : WeightSet R) (i k : Int) (h0 : 0 ≤ i) (hik : i < k)
    (best : Int × DihedralAngleWeight R) (h : apexLoop cost ws i k = .ok best) :
    Earliest cost ws i k best := by
  have key := foldlM_intRange (apexStep cost ws i k)
    (fun c acc => acc.1 < c ∧
      (∀ m, i < m → m < c → ∃ t, candidate cost ws i k m = .ok t ∧ ¬ t.lt acc.2) ∧
      (∀ m, i < m → m < c → m < acc.1 → ∃ t, candidate cost ws i k m = .ok t ∧ acc.2.lt t))
    (i + 1) (k - 1) ?_ (by omega) (-1, ⟨cost.M_PI, cost.DBL_MAX⟩) best
    ⟨by simp only; omega, fun m h1 h2 => by omega, fun m h1 h2 => by omega⟩ h
  · obtain ⟨_, _, h3⟩ := key
    intro m hm1 hm2 hm3
    exact h3 m hm1 (by omega) hm3
  · intro c acc acc1 hlo hc ⟨hacc, hall, hfirst⟩ hstep
    rw [apexStep_eq] at hstep
    cases hcand : candidate cost ws i k c with
    | error e => rw [hcand] at hstep; cases hstep
    | ok t =>
      rw [hcand] at hstep
      simp only [Except.map, Except.ok.injEq] at hstep
      by_cases hlt : t.lt acc.2
      · rw [if_pos hlt] at hstep
        subst hstep
        refine ⟨by simp only; omega, ?_, ?_⟩
        · intro m hm1 hm2
          by_cases hmc : m = c
          · subst hmc
            exact ⟨t, hcand, weight_lt_irrefl t⟩
          · obtain ⟨tm, htm, hno⟩ := hall m hm1 (by omega)
            exact ⟨tm, htm, fun hh => hno (weight_lt_trans hh hlt)⟩
        · intro m hm1 hm2 hm3
          simp only at hm3
          obtain ⟨tm, htm, hno⟩ := hall m hm1 hm3
          exact ⟨tm, htm, weight_lt_of_lt_of_not_lt hlt hno⟩
      · rw [if_neg hlt] at hstep
        subst hstep
        refine ⟨by omega, ?_, ?_⟩
        · intro m hm1 hm2
          by_cases hmc : m = c
          · subst hmc
            exact ⟨t, hcand, hlt⟩
          · exact hall m hm1 (by omega)
        · intro m hm1 hm2 hm3
          exact hfirst m hm1 (by omega) hm3

theorem Earliest.congr_table {R : Type} [LT R] [Add R] [Zero R] (cost : CostModel R)
    (ws1 ws2 : WeightSet R) (i k : Int) (best : Int × DihedralAngleWeight R)
    (hagree : ∀ m, i < m → m < k →
      ws1.get (i, m) = ws2.get (i, m) ∧ ws1.get (m, k) = ws2.get (m, k))
    (h : Earliest cost ws1 i k best) : Earliest cost ws2 i k best := by
  intro m hm1 hm2 hm3
  obtain ⟨t, ht, hlt⟩ := h m hm1 hm2 hm3
  have := hagree m hm1 hm2
  exact ⟨t, by rw [← candidate_congr cost ws1 ws2 i k m this.1 this.2]; exact ht, hlt⟩

theorem ResolvedEarliest.advance_earliest {R : Type} [LinearOrder R] [Add R] [Zero R]
    (cost : CostModel R) (n j c : Int) (hc : 0 ≤ c) (ws : WeightSet R)
    (best : Int × DihedralAngleWeight R) (hres : ResolvedEarliest cost n ws j c)
    (hbest : apexLoop cost ws c (c + j) = .ok best) :
    ResolvedEarliest cost n (ws.set (c, c + j) best) j (c + 1) := by
  have hne : ∀ (i k m : Int), i < m → m < k → (k - i < j ∨ (k - i = j ∧ i < c + 1)) →
      (i, m) ≠ (c, c + j) ∧ (m, k) ≠ (c, c + j) := by
    intro i k m hm1 hm2 hcase
    constructor <;>
    · intro h
      simp only [Prod.mk.injEq] at h
      omega
  intro i k h0 h3 hn hcase
  by_cases hkey : (i, k) = (c, c + j)
  · refine ⟨best, by rw [WeightSet.find_set, if_pos hkey], ?_⟩
    simp only [Prod.mk.injEq] at hkey
    obtain ⟨rfl, rfl⟩ := hkey
    apply Earliest.congr_table cost ws _ i (i + j) best ?_
      (apexLoop_earliest cost ws i (i + j) hc (by omega) best hbest)
    intro m hm1 hm2
    have := hne i (i + j) m hm1 hm2 hcase
    exact ⟨(WeightSet.get_set_ne ws _ _ best this.1).symm,
      (WeightSet.get_set_ne ws _ _ best this.2).symm⟩
  · have hold : k - i < j ∨ (k - i = j ∧ i < c) := by
      rcases hcase with h | ⟨h1, h2⟩
      · exact Or.inl h
      · right
        refine ⟨h1, ?_⟩
        have : i ≠ c := by
          intro hic
          apply hkey
          simp only [Prod.mk.injEq]
          omega
        omega
    obtain ⟨b, hb1, hb2⟩ := hres i k h0 h3 hn hold
    refine ⟨b, by rw [WeightSet.find_set, if_neg hkey]; exact hb1, ?_⟩
    apply Earliest.congr_table cost ws _ i k b ?_ hb2
    intro m hm1 hm2
    have := hne i k m hm1 hm2 hcase
    exact ⟨(WeightSet.get_set_ne ws _ _ best this.1).symm,
      (WeightSet.get_set_ne ws _ _ best this.2).symm⟩

theorem spanLoop_earliest {R : Type} [LinearOrder R] [Add R] [Zero R] (cost : CostModel R)
    (n j : Int) (ws ws1 : WeightSet R) (hjn : j ≤ n)
    (hres : ResolvedEarliest cost n ws j 0) (h : spanLoop cost n j ws = .ok ws1) :
    ResolvedEarliest cost n ws1 (j + 1) 0 := by
  have key := foldlM_intRange
    (fun ws i => do
      let k := i + j
      let best ← apexLoop cost ws i k
      pure (ws.set (i, k) best))
    (fun c ws => ResolvedEarliest cost n ws j c) 0 (n - j - 1) ?_ (by omega) ws ws1 hres h
  · intro i k h0 h3 hn hcase
    apply key i k h0 h3 hn
    omega
  · intro c s s1 hc0 _ hP hstep
    cases hb : apexLoop cost s c (c + j) with
    | error e =>
      simp only [hb, bind, Except.bind] at hstep
      cases hstep
    | ok best =>
      simp only [hb, bind, Except.bind, pure, Except.pure, Except.ok.injEq] at hstep
      rw [← hstep]
      exact ResolvedEarliest.advance_earliest cost n j c hc0 s best hP hb

theorem widthLoop_earliest {R : Type} [LinearOrder R] [Add R] [Zero R] (cost : CostModel R)
    (n : Int) (ws ws1 : WeightSet R) (hn : 3 ≤ n) (h : widthLoop cost n ws = .ok ws1) :
    ResolvedEarliest cost n ws1 n 0 := by
  have key := foldlM_intRange (fun ws j => spanLoop cost n j ws)
    (fun j ws => ResolvedEarliest cost n ws j 0) 3 (n - 1) ?_ (by omega) ws ws1 ?_ h
  · simpa using key
  · intro j s s1 h3 hj hP hstep
    exact spanLoop_earliest cost n j s s1 (by omega) hP hstep
  · intro i k h0 h3 _ hcase
    omega

/-- After the dynamic program every span of width at least three holds an entry that is the first
of its weight. -/
theorem weightTable_earliest {R : Type} [LinearOrder R] [Add R] [Zero R] (cost : CostModel R)
    (n : Int) (ws : WeightSet R) (hn : 3 ≤ n) (h : weightTable cost n = .ok ws)
    (i k : Int) (h0 : 0 ≤ i) (h3 : i + 3 ≤ k) (hk : k ≤ n - 1) :
    ∃ best, ws.find (i, k) = some best ∧ Earliest cost ws i k best := by
  unfold weightTable at h
  cases hb : baseTriangles cost n (baseEdges n WeightSet.empty) with
  | error e => simp only [hb, bind, Except.bind] at h; cases h
  | ok ws0 =>
    simp only [hb, bind, Except.bind] at h
    exact widthLoop_earliest cost n ws0 ws hn h i k h0 h3 hk (by omega)

/-- C23.  After the dynamic program has finished on a boundary of length `n >= 4`, for every span
`(i, k)` with `0 <= i`, `k - i >= 3`, `k <= n - 1` that has at least one candidate total
`W(i,m) + W(m,k) + f(i,m,k)` strictly below the initial bound `(M_PI, DBL_MAX)`: the stored apex
`o` lies strictly between `i` and `k`, its candidate total is the stored weight `w`, no candidate
total of the span is below `w`, every candidate before `o` has a total strictly above `w`, and so
`o` is the smallest `m` whose total equals the minimum total `w`. -/
theorem weightTable_first_minimum {R : Type} [LinearOrder R] [Add R] [Zero R]
    (cost : CostModel R) (n : Int) (ws : WeightSet R) (i k : Int) (hn : 4 ≤ n)
    (h : weightTable cost n = .ok ws) (h0 : 0 ≤ i) (h3 : i + 3 ≤ k) (hk : k ≤ n - 1)
    (hbelow : ∃ m t, i < m ∧ m < k ∧ candidate cost ws i k m = .ok t ∧
      t.lt ⟨cost.M_PI, cost.DBL_MAX⟩) :
    ∃ o w, ws.find (i, k) = some (o, w) ∧ i < o ∧ o < k ∧ candidate cost ws i k o = .ok w ∧
      (∀ m, i < m → m < k → ∃ t, candidate cost ws i k m = .ok t ∧ ¬ t.lt w) ∧
      (∀ m, i < m → m < o → ∃ t, candidate cost ws i k m = .ok t ∧ w.lt t) ∧
      (∀ m, i < m → m < k → candidate cost ws i k m = .ok w → o ≤ m) := by
  obtain ⟨best, hfind, hall, hbest⟩ := weightTable_optimal cost n ws (by omega) h i k h0 h3 hk
  obtain ⟨best1, hfind1, hfirst⟩ := weightTable_earliest cost n ws (by omega) h i k h0 h3 hk
  have hsame : best1 = best := by
    rw [hfind] at hfind1
    simp only [Option.some.injEq] at hfind1
    exact hfind1.symm
  subst hsame
  refine ⟨best1.1, best1.2, hfind, ?_⟩
  rcases hbest with hb | ⟨a, b, c⟩
  · exfalso
    obtain ⟨m, t, hm1, hm2, hc, hlt⟩ := hbelow
    obtain ⟨t1, ht1, hno⟩ := hall m hm1 hm2
    rw [hc] at ht1
    cases ht1
    rw [hb] at hno
    exact hno hlt
  · have hearly : ∀ m, i < m → m < best1.1 →
        ∃ t, candidate cost ws i k m = .ok t ∧ best1.2.lt t :=
      fun m hm1 hm2 => hfirst m hm1 (by omega) hm2
    refine ⟨a, b, c, hall, hearly, ?_⟩
    intro m hm1 hm2 hm
    by_contra hlt
    obtain ⟨t, ht, hw⟩ := hearly m hm1 (by omega)
    rw [hm] at ht
    cases ht
    exact weight_lt_irrefl _ hw

theorem gentle_candidates (m : Int) (h1 : 0 < m) (h2 : m < 3) :
    candidate gentleCost gentleTable 0 3 m = .ok ⟨1 / 2, 2⟩ := by
  have : m = 1 ∨ m = 2 := by omega
  rcases this with rfl | rfl <;>
  · simp [Prod.ext_iff, candidate, weightFunction, gentleCost, gentleTable, WeightSet.set,
      WeightSet.get, WeightSet.empty, DihedralAngleWeight.add, DihedralAngleWeight.zero,
      Except.map]
    norm_num

/-- Witness for C23: `gentleCost` on four vertices, span `(0, 3)`, whose two candidates have the
same total. -/
theorem weightTable_first_minimum_witness :
    ∃ o w, gentleTable.find (0, 3) = some (o, w) ∧ 0 < o ∧ o < 3 ∧
      candidate gentleCost gentleTable 0 3 o = .ok w ∧
      (∀ m, 0 < m → m < 3 → ∃ t, candidate gentleCost gentleTable 0 3 m = .ok t ∧ ¬ t.lt w) ∧
      (∀ m, 0 < m → m < o → ∃ t, candidate gentleCost gentleTable 0 3 m = .ok t ∧ w.lt t) ∧
      (∀ m, 0 < m → m < 3 → candidate gentleCost gentleTable 0 3 m = .ok w → o ≤ m) :=
  weightTable_first_minimum gentleCost 4 gentleTable 0 3 (by decide) gentle_table (by decide)
    (by decide) (by decide)
    ⟨1, ⟨1 / 2, 2⟩, by decide, by decide, gentle_candidates 1 (by decide) (by decide), by
      simp only [DihedralAngleWeight.lt, gentleCost]
      norm_num⟩

/-! ## The split pass: the reads of the scale array -/

theorem getAt_ok_lt {α : Type} {array : List α} {i : Int} {a : α} (h : getAt array i = .ok a) :
    0 ≤ i ∧ i < (array.length : Int) := by
  unfold getAt at h
  split at h
  · cases h
  · rename_i hi
    cases hx : array[i.toNat]? with
    | none => rw [hx] at h; cases h
    | some b =>
      have hlt : i.toNat < array.length := by
        by_contra hge
        rw [List.getElem?_eq_none (by omega)] at hx
        cases hx
      omega

theorem centroidScaleAttribute_reads {R : Type} [LinearOrderedField R] (env : FloatOps R)
    {scaleAttributes : List R} {iTriangle : Int} :
    (∀ r, centroidScaleAttribute env scaleAttributes iTriangle = .ok r →
      iTriangle + 2 < (scaleAttributes.length : Int)) ∧
    (∀ e, centroidScaleAttribute env scaleAttributes iTriangle = .error e →
      e = .outOfRange) := by
  unfold centroidScaleAttribute
  simp only [bind, Except.bind]
  cases h0 : getAt scaleAttributes iTriangle with
  | error e0 => exact ⟨fun r h => (by cases h), fun e h => (by cases h; exact getAt_error h0)⟩
  | ok s0 =>
    simp only
    cases h1 : getAt scaleAttributes (iTriangle + 1) with
    | error e1 => exact ⟨fun r h => (by cases h), fun e h => (by cases h; exact getAt_error h1)⟩
    | ok s1 =>
      simp only
      cases h2 : getAt scaleAttributes (iTriangle + 2) with
      | error e2 => exact ⟨fun r h => (by cases h), fun e h => (by cases h; exact getAt_error h2)⟩
      | ok s2 => exact ⟨fun r _ => (getAt_ok_lt h2).2, fun e h => (by cases h)⟩

theorem splitCondition_error {R : Type} [LinearOrderedField R] (env : FloatOps R)
    {scaleAttributes : List R} (centroid v1 v2 v3 : Vec3 R) (centroidScale : R)
    (vi vj vk : Int) {e : Failure}
    (h : splitCondition env scaleAttributes centroid v1 v2 v3 centroidScale vi vj vk =
      .error e) : e = .outOfRange := by
  unfold splitCondition at h
  simp only [bind, Except.bind] at h
  split at h
  · cases h
  · cases g1 : getAt scaleAttributes vi with
    | error e1 =>
      rw [g1] at h
      simp only [Except.error.injEq] at h
      rw [← h]
      exact getAt_error g1
    | ok si =>
      rw [g1] at h
      simp only at h
      split at h
      · cases h
      · split at h
        · cases h
        · cases g2 : getAt scaleAttributes vj with
          | error e2 =>
            rw [g2] at h
            simp only [Except.error.injEq] at h
            rw [← h]
            exact getAt_error g2
          | ok sj =>
            rw [g2] at h
            simp only at h
            split at h
            · cases h
            · split at h
              · cases h
              · cases g3 : getAt scaleAttributes vk with
                | error e3 =>
                  rw [g3] at h
                  simp only [Except.error.injEq] at h
                  rw [← h]
                  exact getAt_error g3
                | ok sk =>
                  rw [g3] at h
                  simp only at h
                  split at h <;> cases h

/-- A split test that has been evaluated read the offset `iTriangle + 2` of the scale array in
range, and a split test that fails fails at a read out of range. -/
theorem splitTest_reads {R : Type} [LinearOrderedField R] (env : FloatOps R)
    (patchMesh : PatchMesh R) (scaleAttributes : List R) (index : Nat)
    (triangle : Int × Int × Int) :
    (∀ r, splitTest env patchMesh scaleAttributes index triangle = .ok r →
      3 * (index : Int) + 2 < (scaleAttributes.length : Int)) ∧
    (∀ e, splitTest env patchMesh scaleAttributes index triangle = .error e →
      e = .outOfRange) := by
  unfold splitTest
  simp only [bind, Except.bind]
  cases g1 : getAt patchMesh.vertices triangle.1 with
  | error e1 => exact ⟨fun r h => (by cases h), fun e h => (by cases h; exact getAt_error g1)⟩
  | ok v1 =>
    simp only
    cases g2 : getAt patchMesh.vertices triangle.2.1 with
    | error e2 => exact ⟨fun r h => (by cases h), fun e h => (by cases h; exact getAt_error g2)⟩
    | ok v2 =>
      simp only
      cases g3 : getAt patchMesh.vertices triangle.2.2 with
      | error e3 => exact ⟨fun r h => (by cases h), fun e h => (by cases h; exact getAt_error g3)⟩
      | ok v3 =>
        simp only
        cases g4 : centroidScaleAttribute env scaleAttributes (3 * (index : Int)) with
        | error e4 =>
          exact ⟨fun r h => (by cases h),
            fun e h => (by cases h; exact (centroidScaleAttribute_reads env).2 _ g4)⟩
        | ok cs =>
          simp only
          have hlt := (centroidScaleAttribute_reads env).1 _ g4
          cases g5 : splitCondition env scaleAttributes (calculateCentroid env v1 v2 v3)
              (Vec3.toFloat env v1) (Vec3.toFloat env v2) (Vec3.toFloat env v3) cs
              triangle.1 triangle.2.1 triangle.2.2 with
          | error e5 =>
            exact ⟨fun r h => (by cases h),
              fun e h => (by cases h; exact splitCondition_error env _ _ _ _ _ _ _ _ g5)⟩
          | ok b => exact ⟨fun r _ => hlt, fun e h => (by cases h)⟩

theorem splitStep_reads {R : Type} [LinearOrderedField R] (env : FloatOps R)
    (patchMesh : PatchMesh R) (st : Refinement R) (entry : Nat × (Int × Int × Int)) :
    (∀ st2, splitStep env patchMesh st entry = .ok st2 →
      3 * (entry.1 : Int) + 2 < (st.scaleAttributes.length : Int) ∧
      st2.scaleAttributes.length ≤ st.scaleAttributes.length + 1) ∧
    (∀ e, splitStep env patchMesh st entry = .error e → e = .outOfRange) := by
  constructor
  · intro st2 h
    obtain ⟨centroid, split, htest, hno, hyes⟩ := splitStep_cases env patchMesh st st2 entry h
    refine ⟨(splitTest_reads env patchMesh st.scaleAttributes entry.1 entry.2).1 _ htest, ?_⟩
    cases split with
    | false =>
      rw [(hno rfl).2.2]
      omega
    | true =>
      obtain ⟨si, sj, sk, _, _, _, _, _, a3⟩ := hyes rfl
      rw [a3]
      simp
  · intro e h
    unfold splitStep at h
    simp only [bind, Except.bind] at h
    split at h
    · rename_i e1 htest
      simp only [Except.error.injEq] at h
      rw [← h]
      exact (splitTest_reads env patchMesh st.scaleAttributes entry.1 entry.2).2 _ htest
    · split at h
      · split at h
        · rename_i e2 hg
          simp only [Except.error.injEq] at h
          rw [← h]
          exact getAt_error hg
        · split at h
          · rename_i e3 hg
            simp only [Except.error.injEq] at h
            rw [← h]
            exact getAt_error hg
          · split at h
            · rename_i e4 hg
              simp only [Except.error.injEq] at h
              rw [← h]
              exact getAt_error hg
            · cases h
      · cases h

/-- A run of the split pass over the triangles numbered from `first`: if it returns, the offset
`3 * (first + j) + 2` read for the triangle at position `j` is below the length of the scale array
at that time, which is at most `j` above the initial length; if it fails, it fails at a read out
of range. -/
theorem splitPass_reads {R : Type} [LinearOrderedField R] (env : FloatOps R)
    (patchMesh : PatchMesh R) : ∀ (triangles : List (Int × Int × Int)) (first : Nat)
    (st : Refinement R),
    (∀ st1, (triangles.enumFrom first).foldlM (splitStep env patchMesh) st = .ok st1 →
      ∀ j : Nat, j < triangles.length →
        3 * ((first + j : Nat) : Int) + 2 < ((st.scaleAttributes.length + j : Nat) : Int)) ∧
    (∀ e, (triangles.enumFrom first).foldlM (splitStep env patchMesh) st = .error e →
      e = .outOfRange) := by
  intro triangles
  induction triangles with
  | nil =>
    intro first st
    refine ⟨fun st1 _ j hj => (by cases hj), fun e h => ?_⟩
    simp [List.enumFrom, pure, Except.pure] at h
  | cons t rest ih =>
    intro first st
    simp only [List.enumFrom, List.foldlM_cons, bind, Except.bind]
    obtain ⟨hok, herr⟩ := splitStep_reads env patchMesh st (first, t)
    cases hstep : splitStep env patchMesh st (first, t) with
    | error e1 =>
      exact ⟨fun st1 h => (by cases h), fun e h => (by cases h; exact herr _ hstep)⟩
    | ok st2 =>
      simp only
      obtain ⟨h1, h2⟩ := hok st2 hstep
      obtain ⟨ihok, iherr⟩ := ih (first + 1) st2
      refine ⟨fun st1 h j hj => ?_, iherr⟩
      cases j with
      | zero =>
        simp only at h1
        simpa using h1
      | succ j =>
        have := ihok st1 h j (by simpa using hj)
        push_cast at this ⊢
        omega

/-- C22 (code at the failing input).  For every patch with `n - 2` triangles and every boundary
of length `n >= 4` - the minimal patch of the boundary - the first split pass of
`calculateRefinedPatchMesh` does not complete: the scale array holds `n` entries and grows by at
most one per triangle, and for the last triangle the offset `iTriangle + 2 = 3 (n - 3) + 2` is
not below `n + (n - 3)`.  The pass stops at a read out of range, and so does the call. -/
theorem splitPass_minimal_patch {R : Type} [LinearOrderedField R] (env : FloatOps R)
    (ops : RelaxationOps R) (patchMesh : PatchMesh R) (averageEdgeLength : Int → R)
    (boundary : HoleBoundary) (fuel : Nat) (hn : 4 ≤ boundary.length)
    (hT : patchMesh.triangles.length + 2 = boundary.length) :
    splitPass env patchMesh
      { scaleAttributes := boundary.map averageEdgeLength
        newVertexArray := patchMesh.vertices
        newIndexArray := []
        boundaryIndexArray := patchMesh.triangles
        verticesToFlip := []
        hadCreatedTriangles := false
        hasDoneSwaps := false } = .error .outOfRange ∧
    calculateRefinedPatchMesh env ops averageEdgeLength (fuel + 1) patchMesh boundary =
      .error .outOfRange := by
  have hpass : splitPass env patchMesh
      { scaleAttributes := boundary.map averageEdgeLength
        newVertexArray := patchMesh.vertices
        newIndexArray := []
        boundaryIndexArray := patchMesh.triangles
        verticesToFlip := []
        hadCreatedTriangles := false
        hasDoneSwaps := false } = .error .outOfRange := by
    obtain ⟨hok, herr⟩ := splitPass_reads env patchMesh patchMesh.triangles 0
      { scaleAttributes := boundary.map averageEdgeLength
        newVertexArray := patchMesh.vertices
        newIndexArray := []
        boundaryIndexArray := patchMesh.triangles
        verticesToFlip := []
        hadCreatedTriangles := false
        hasDoneSwaps := false }
    cases hp : splitPass env patchMesh
        { scaleAttributes := boundary.map averageEdgeLength
          newVertexArray := patchMesh.vertices
          newIndexArray := []
          boundaryIndexArray := patchMesh.triangles
          verticesToFlip := []
          hadCreatedTriangles := false
          hasDoneSwaps := false } with
    | error e =>
      have := herr e hp
      rw [this]
    | ok st1 =>
      exfalso
      have := hok st1 hp (patchMesh.triangles.length - 1) (by omega)
      simp only [List.length_map] at this
      push_cast at this
      omega
  refine ⟨hpass, ?_⟩
  unfold calculateRefinedPatchMesh
  rw [refineLoop_succ env ops patchMesh fuel _ rfl, hpass]
  rfl

/-- Witness for C22: the patch `kite` of the boundary `[0, 1, 2, 3]`; the second triangle reads
the offsets 3, 4, 5 of a scale array of four entries. -/
theorem splitPass_minimal_patch_witness :
    getAt (([0, 1, 2, 3] : List Int).map (fun _ => (1 : ℚ))) (3 * 1 + 1) = .error .outOfRange ∧
    splitPass exactOps kite
      { scaleAttributes := ([0, 1, 2, 3] : List Int).map (fun _ => (1 : ℚ))
        newVertexArray := kite.vertices
        newIndexArray := []
        boundaryIndexArray := kite.triangles
        verticesToFlip := []
        hadCreatedTriangles := false
        hasDoneSwaps := false } = .error .outOfRange ∧
    calculateRefinedPatchMesh exactOps (listOps ℚ) (fun _ => 1) (0 + 1) kite [0, 1, 2, 3] =
      .error .outOfRange :=
  ⟨by simp [getAt],
    splitPass_minimal_patch exactOps (listOps ℚ) kite (fun _ => 1) [0, 1, 2, 3] 0 (by decide)
      (by decide)⟩

/-! ## The refinement: when the call returns -/

/-- The three outcomes of a call.  `calculateRefinedPatchMesh` returns (on some fuel) if and only
if the split test of every triangle of the input patch evaluates to "not to be split" in the
first pass.  When the first pass completes having split a triangle, control reaches the loop
around `relaxAllEdges`, which never exits: the call returns on no fuel.  A first pass that stops
at a failure, which can only be a read out of range, stops the call at that failure. -/
theorem calculateRefinedPatchMesh_returns_iff {R : Type} [LinearOrderedField R]
    (env : FloatOps R) (ops : RelaxationOps R) (averageEdgeLength : Int → R)
    (patchMesh : PatchMesh R) (boundary : HoleBoundary) :
    ((∃ fuel refined, calculateRefinedPatchMesh env ops averageEdgeLength fuel patchMesh
        boundary = .ok refined) ↔
      ∀ e ∈ patchMesh.triangles.enum, ∃ centroid,
        splitTest env patchMesh (boundary.map averageEdgeLength) e.1 e.2 =
          .ok (centroid, false)) ∧
    (∀ st1, splitPass env patchMesh
        { scaleAttributes := boundary.map averageEdgeLength
          newVertexArray := patchMesh.vertices
          newIndexArray := []
          boundaryIndexArray := patchMesh.triangles
          verticesToFlip := []
          hadCreatedTriangles := false
          hasDoneSwaps := false } = .ok st1 →
      st1.hadCreatedTriangles = true →
      ∀ fuel, calculateRefinedPatchMesh env ops averageEdgeLength fuel patchMesh boundary =
        .error .outOfFuel) ∧
    (∀ failure, splitPass env patchMesh
        { scaleAttributes := boundary.map averageEdgeLength
          newVertexArray := patchMesh.vertices
          newIndexArray := []
          boundaryIndexArray := patchMesh.triangles
          verticesToFlip := []
          hadCreatedTriangles := false
          hasDoneSwaps := false } = .error failure →
      failure = .outOfRange ∧
      ∀ fuel, calculateRefinedPatchMesh env ops averageEdgeLength (fuel + 1) patchMesh
        boundary = .error failure) := by
  refine ⟨⟨?_, ?_⟩, ?_, ?_⟩
  · rintro ⟨fuel, refined, h⟩
    exact (calculateRefinedPatchMesh_returns env ops averageEdgeLength fuel patchMesh refined
      boundary h).2
  · intro hno
    exact ⟨1, patchMesh,
      calculateRefinedPatchMesh_quiet env ops averageEdgeLength 0 patchMesh boundary hno⟩
  · intro st1 hpass hsplit fuel
    have hpass1 : patchMesh.triangles.enum.foldlM (splitStep env patchMesh)
        { scaleAttributes := boundary.map averageEdgeLength
          newVertexArray := patchMesh.vertices
          newIndexArray := []
          boundaryIndexArray := patchMesh.triangles
          verticesToFlip := []
          hadCreatedTriangles := false
          hasDoneSwaps := false } = .ok st1 := hpass
    obtain ⟨_, _, hne⟩ := splitPass_flag env patchMesh patchMesh.triangles.enum _ st1 hpass1
    have hpos : 0 < st1.newIndexArray.length := by
      apply hne
      intro hnil
      rw [hnil] at hpass1
      simp only [List.foldlM_nil, pure, Except.pure, Except.ok.injEq] at hpass1
      rw [← hpass1] at hsplit
      cases hsplit
    have hd := refineLoop_diverges env ops patchMesh
      { scaleAttributes := boundary.map averageEdgeLength
        newVertexArray := patchMesh.vertices
        newIndexArray := []
        boundaryIndexArray := patchMesh.triangles
        verticesToFlip := []
        hadCreatedTriangles := false
        hasDoneSwaps := false } st1 rfl hpass hsplit hpos fuel
    unfold calculateRefinedPatchMesh
    rw [hd]
    rfl
  · intro failure hpass
    refine ⟨?_, fun fuel => ?_⟩
    · exact (splitPass_reads env patchMesh patchMesh.triangles 0 _).2 failure hpass
    · unfold calculateRefinedPatchMesh
      rw [refineLoop_succ env ops patchMesh fuel _ rfl, hpass]
      rfl

/-! ## The weighting on a source mesh: boundaries of four or more vertices -/

/-- A failure of a sequence of two steps is a failure of one of them. -/
theorem bind_error {α β : Type} (P : Failure → Prop) {x : Except Failure α}
    {f : α → Except Failure β} {e : Failure} (hx : ∀ e, x = .error e → P e)
    (hf : ∀ a e, f a = .error e → P e) (h : x >>= f = .error e) : P e := by
  cases hxa : x with
  | error e1 =>
    rw [hxa] at h
    simp only [bind, Except.bind, Except.error.injEq] at h
    rw [← h]
    exact hx e1 hxa
  | ok a =>
    rw [hxa] at h
    exact hf a e h

/-- A failure of a loop is a failure of one of its iterations. -/
theorem foldlM_error {σ α : Type} (P : Failure → Prop) (f : σ → α → Except Failure σ)
    (hf : ∀ s a e, f s a = .error e → P e) :
    ∀ (l : List α) (s : σ) (e : Failure), l.foldlM f s = .error e → P e := by
  intro l
  induction l with
  | nil =>
    intro s e h
    simp [pure, Except.pure] at h
  | cons a rest ih =>
    intro s e h
    rw [List.foldlM_cons] at h
    exact bind_error P (fun e1 h1 => hf s a e1 h1) (fun s1 e1 h1 => ih s1 e1 h1) h

theorem calculateDihedralAngle_error {R : Type} [LinearOrderedField R] (env : WeightOps R)
    (mesh : SourceMesh R) (vi vj vk vl vm vn : Int) {e : Failure}
    (h : calculateDihedralAngle env mesh vi vj vk vl vm vn = .error e) : e = .outOfRange := by
  unfold calculateDihedralAngle at h
  refine bind_error (fun e => e = .outOfRange) (fun _ h1 => getAt_error h1) (fun v1 e1 h1 => ?_) h
  refine bind_error (fun e => e = .outOfRange) (fun _ h2 => getAt_error h2) (fun v2 e2 h2 => ?_) h1
  refine bind_error (fun e => e = .outOfRange) (fun _ h3 => getAt_error h3) (fun v3 e3 h3 => ?_) h2
  refine bind_error (fun e => e = .outOfRange) (fun _ h4 => getAt_error h4) (fun v4 e4 h4 => ?_) h3
  refine bind_error (fun e => e = .outOfRange) (fun _ h5 => getAt_error h5) (fun v5 e5 h5 => ?_) h4
  refine bind_error (fun e => e = .outOfRange) (fun _ h6 => getAt_error h6) (fun v6 e6 h6 => ?_) h5
  cases h6

/-- The branch of the consecutive boundary edges fails at a read out of range or at the
assertion of line 347. -/
theorem meshCost_onBoundary_error {R : Type} [LinearOrderedField R] (env : WeightOps R)
    (mesh : SourceMesh R) (boundary : HoleBoundary) (vi vj vk : Int) {e : Failure}
    (h : (meshCost env mesh boundary).onBoundary vi vj vk = .error e) :
    e = .outOfRange ∨ e = .assertion := by
  simp only [meshCost] at h
  refine bind_error (fun e => e = .outOfRange ∨ e = .assertion)
    (fun _ h1 => Or.inl (getAt_error h1)) (fun bi e1 h1 => ?_) h
  refine bind_error (fun e => e = .outOfRange ∨ e = .assertion)
    (fun _ h2 => Or.inl (getAt_error h2)) (fun v1 e2 h2 => ?_) h1
  refine bind_error (fun e => e = .outOfRange ∨ e = .assertion)
    (fun _ h3 => Or.inl (getAt_error h3)) (fun bj e3 h3 => ?_) h2
  refine bind_error (fun e => e = .outOfRange ∨ e = .assertion)
    (fun _ h4 => Or.inl (getAt_error h4)) (fun v2 e4 h4 => ?_) h3
  refine bind_error (fun e => e = .outOfRange ∨ e = .assertion)
    (fun _ h5 => Or.inl (getAt_error h5)) (fun bk e5 h5 => ?_) h4
  refine bind_error (fun e => e = .outOfRange ∨ e = .assertion)
    (fun _ h6 => Or.inl (getAt_error h6)) (fun v3 e6 h6 => ?_) h5
  simp only at h6
  split at h6
  · refine bind_error (fun e => e = .outOfRange ∨ e = .assertion)
      (fun _ h7 => Or.inl (calculateDihedralAngle_error env mesh _ _ _ _ _ _ h7))
      (fun d1 e7 h7 => ?_) h6
    refine bind_error (fun e => e = .outOfRange ∨ e = .assertion)
      (fun _ h8 => Or.inl (calculateDihedralAngle_error env mesh _ _ _ _ _ _ h8))
      (fun d2 e8 h8 => ?_) h7
    cases h8
  · cases h6
    exact Or.inr rfl

/-- The second base loop on a source mesh fails at a read out of range or at the assertion of
line 347. -/
theorem baseTriangles_error {R : Type} [LinearOrderedField R] (env : WeightOps R)
    (mesh : SourceMesh R) (boundary : HoleBoundary) (n : Int) (ws : WeightSet R) {e : Failure}
    (h : baseTriangles (meshCost env mesh boundary) n ws = .error e) :
    e = .outOfRange ∨ e = .assertion := by
  unfold baseTriangles at h
  refine foldlM_error (fun e => e = .outOfRange ∨ e = .assertion) _ ?_ _ ws e h
  intro s i e1 h1
  refine bind_error (fun e => e = .outOfRange ∨ e = .assertion) (fun e2 h2 => ?_)
    (fun w e2 h2 => ?_) h1
  · rw [weightFunction_consecutive] at h2
    exact meshCost_onBoundary_error env mesh boundary _ _ _ h2
  · cases h2

/-- C1 (code at the failing input).  For every source mesh, every floating-point environment,
every boundary of four or more vertices and every recursion depth, `calculateMinimumPatchMesh`
returns no index list: either a base loop stops at a read out of range or at the assertion of
line 347, or the first evaluation `f(0, 1, 3)` of the main loop reads `boundary[ -1 ]`. -/
theorem calculateMinimumPatchMesh_no_patch {R : Type} [LinearOrderedField R]
    (env : WeightOps R) (mesh : SourceMesh R) (boundary : HoleBoundary) (fuel : Nat)
    (hn : 4 ≤ boundary.length) :
    calculateMinimumPatchMesh (meshCost env mesh boundary) fuel boundary = .error .outOfRange ∨
    calculateMinimumPatchMesh (meshCost env mesh boundary) fuel boundary =
      .error .assertion := by
  have hn1 : (4 : Int) ≤ (boundary.length : Int) := by omega
  rw [calculateMinimumPatchMesh]
  simp only [weightTable, bind, Except.bind]
  cases hbase : baseTriangles (meshCost env mesh boundary) (boundary.length : Int)
      (baseEdges (boundary.length : Int) WeightSet.empty) with
  | error e =>
    simp only
    rcases baseTriangles_error env mesh boundary _ _ hbase with h | h
    · rw [h]; exact Or.inl rfl
    · rw [h]; exact Or.inr rfl
  | ok ws =>
    simp only
    have hedge := (base_filled (meshCost env mesh boundary) (boundary.length : Int) (by omega)
      ws hbase).1 0 (le_refl _) (by omega)
    have hget : (ws.get (0, 1)).1 = -1 := by
      unfold WeightSet.get
      rw [show ((0 : Int), (1 : Int)) = (0, 0 + 1) from rfl, hedge]
      rfl
    rw [(widthLoop_border env mesh boundary (boundary.length : Int) hn1 ws hget).2]
    exact Or.inl rfl

/-- Witness for C1: the boundary `[2, 3, 1, 0]` of the hole around the two glued triangles of
`gluedPair`. -/
theorem calculateMinimumPatchMesh_no_patch_witness :
    4 ≤ ([2, 3, 1, 0] : List Int).length ∧
    (calculateMinimumPatchMesh (meshCost nullOps gluedPair [2, 3, 1, 0]) 5 [2, 3, 1, 0] =
        .error .outOfRange ∨
      calculateMinimumPatchMesh (meshCost nullOps gluedPair [2, 3, 1, 0]) 5 [2, 3, 1, 0] =
        .error .assertion) :=
  ⟨by decide, calculateMinimumPatchMesh_no_patch nullOps gluedPair [2, 3, 1, 0] 5 (by decide)⟩

/-! ## The weighting on a source mesh: lookups that find no shared triangle -/

end MeshCompletion
